import Mathlib

/-! tml-gen: directory aggregation tree, grouping decision and naming

A shallow embedding of `node.go`, of the naming part of `tml.go` and of the
post-scan phase of `main.go`.

Go pointers `*Node` are addresses into an explicit heap: the heap is the list of
all nodes allocated so far, `newNode` allocates at the end of it, and the address
of a node is its position.  `nil` is `none`.  The Go `int` field `Count` is an
unbounded `Int`: a count is raised once per processed file and the files are held
in a Go slice, whose length is itself an `int`, so a count never reaches the
wrap-around point.

Go `strings.ToLower` lowercases every letter of Unicode through the character map
`unicode.ToLower` of the Go library.  Every definition that lowercases takes this map
as its first argument `L : Lowering`, and every theorem about such a definition holds
for every `L`, in particular for the map of the library; `sampleL` is one such map,
with letters outside ASCII, on which the definitions are evaluated.
-/

namespace TmlGen

/-! ## Data model (node.go) -/

/-- A pointer `*Node`: `none` is `nil`, `some i` is the node allocated `i`-th. -/
abbrev Ptr := Option Nat

/-- The struct `Node` of node.go.  `Children` is the Go map `map[string]*Node`, kept as
an association list that never holds two entries for one key. -/
structure Node where
  Parent : Ptr
  Children : List (String × Nat)
  Name : String
  Count : Int
deriving Repr, DecidableEq

/-- The heap: every `Node` allocated so far, by address. -/
abbrev Heap := List Node

/-- The struct `Rec` of node.go. -/
structure Rec where
  DirNode : Ptr
  RelPath : String
deriving Repr, DecidableEq

/-- Go `newNode`: a node with the given name and parent, an empty child map and count 0.
The caller places it on the heap. -/
def newNode (name : String) (parent : Ptr) : Node :=
  { Parent := parent, Children := [], Name := name, Count := 0 }

/-- Go `n.Count++` on the node at address `n`. -/
def incCount (h : Heap) (n : Nat) : Heap :=
  match h[n]? with
  | some nd => h.set n { nd with Count := nd.Count + 1 }
  | none => h

/-- Go `n.Children[s] = ch` for a key `s` that is not in the map yet. -/
def setChild (h : Heap) (n : Nat) (s : String) (ch : Nat) : Heap :=
  match h[n]? with
  | some nd => h.set n { nd with Children := (s, ch) :: nd.Children }
  | none => h

/-- Go `n.Children[s]`: `none` is the `nil` a missing key yields. -/
def childOf (h : Heap) (n : Nat) (s : String) : Ptr :=
  match h[n]? with
  | some nd => nd.Children.lookup s
  | none => none

/-- The `for _, s := range dirSegs` loop of Go `insert`, started at node `n`. -/
def insertLoop : Heap → Nat → List String → Heap × Nat
  | h, n, [] => (h, n)
  | h, n, s :: rest =>
    match childOf h n s with
    | some ch => insertLoop (incCount h ch) ch rest
    | none =>
      let ch := h.length
      let h1 := setChild (h ++ [newNode s (some n)]) n s ch
      insertLoop (incCount h1 ch) ch rest

/-- Go `insert(root, dirSegs)`: the heap after the call and the returned node. -/
def insert (h : Heap) (root : Nat) (dirSegs : List String) : Heap × Nat :=
  insertLoop (incCount h root) root dirSegs

/-- The node a pointer points to; `nil` and addresses outside the heap give `none`. -/
def deref (h : Heap) (p : Ptr) : Option Node :=
  p.bind fun i => h[i]?

/-- Go `p.Parent`, with `nil.Parent` read as `nil`. -/
def parentOf (h : Heap) (p : Ptr) : Ptr :=
  (deref h p).bind Node.Parent

/-- Go `p.Count`. -/
def countOf (h : Heap) (p : Ptr) : Int :=
  ((deref h p).map Node.Count).getD 0

/-- Go `p.Name`, read on a non-nil pointer. -/
def nameOf (h : Heap) (p : Ptr) : String :=
  ((deref h p).map Node.Name).getD ""

/-- The loop condition of Go `pickGroup`. -/
def climbs (h : Heap) (thr : Int) (cur : Ptr) : Bool :=
  cur != none && parentOf h cur != none && parentOf h (parentOf h cur) != none
    && parentOf h (parentOf h (parentOf h cur)) != none && decide (countOf h cur < thr)

/-- The `for` loop of Go `pickGroup`: the value of `cur` when the loop ends, `none` when
the fuel runs out first. -/
def pickGroupLoop (h : Heap) (thr : Int) : Nat → Ptr → Option Ptr
  | 0, _ => none
  | fuel + 1, cur =>
    if climbs h thr cur then pickGroupLoop h thr fuel (parentOf h cur) else some cur

/-- Go `pickGroup(n, thr)`; `none` when the fuel runs out. -/
def pickGroup (h : Heap) (n : Ptr) (thr : Int) (fuel : Nat) : Option Ptr :=
  (pickGroupLoop h thr fuel n).map fun cur =>
    if cur = none ∨ parentOf h cur = none then n else cur

/-- The `k`-th element of the chain `p, p.Parent, p.Parent.Parent, ...`. -/
def ancestor (h : Heap) : Nat → Ptr → Ptr
  | 0, p => p
  | k + 1, p => ancestor h k (parentOf h p)

/-- The relation `IsDepth h i d`: node `i` is on the heap and `d` parent links away from a
node without parent. -/
inductive IsDepth (h : Heap) : Nat → Nat → Prop
  | root {i : Nat} : i < h.length → parentOf h (some i) = none → IsDepth h i 0
  | step {i p d : Nat} : parentOf h (some i) = some p → IsDepth h p d → IsDepth h i (d + 1)

/-- The fresh tree of main.go: the heap holding only `newNode("", nil)`, at address 0. -/
def freshHeap : Heap := [newNode "" none]

/-- Successive `insert` calls on the tree with root `root`, one per directory path, in
list order: the heap after the last call. -/
def insertAll (h : Heap) (root : Nat) (paths : List (List String)) : Heap :=
  paths.foldl (fun h1 segs => (insert h1 root segs).1) h

/-- The tree obtained from a fresh root by inserting the given directory paths in order;
its root is node 0. -/
def buildTree (paths : List (List String)) : Heap :=
  insertAll freshHeap 0 paths

/-- The number of the inserted directory paths that have `q` as a prefix. -/
def prefixCount (paths : List (List String)) (q : List String) : Nat :=
  paths.countP fun segs => q.isPrefixOf segs

/-- The sum of the counts of the children of node `i`. -/
def childCountSum (h : Heap) (i : Nat) : Int :=
  match h[i]? with
  | some nd => (nd.Children.map fun sc => countOf h (some sc.2)).sum
  | none => 0

/-- The tree holding the single path `a/b/c`, inserted once into a fresh root.  Node 0 is
the root, nodes 1, 2, 3 are `a`, `a/b`, `a/b/c`. -/
def chainHeap : Heap := (insert freshHeap 0 ["a", "b", "c"]).1

/-- The node reached from `n` by following the child maps along `segs`; `nil` when a
segment has no child. -/
def descend (h : Heap) (n : Nat) (segs : List String) : Ptr :=
  segs.foldl (fun p s => p.bind fun i => childOf h i s) (some n)

/-- The count stored at the directory path `q` below `root`; `none` when no node has that
path. -/
def pathCount (h : Heap) (root : Nat) (q : List String) : Option Int :=
  (descend h root q).map fun i => countOf h (some i)

/-- The keys of the child map of node `i`. -/
def childKeys (h : Heap) (i : Nat) : List String :=
  match h[i]? with
  | some nd => nd.Children.map Prod.fst
  | none => []

/-- A well-formed tree with root `root`: the root is on the heap and is the only node
without parent, child maps and parent pointers agree (a child's `Parent` is the node that
lists it, under the child's `Name`), child maps hold each key once, and every parent chain
is finite. -/
structure WellFormed (h : Heap) (root : Nat) : Prop where
  root_valid : root < h.length
  root_parent : parentOf h (some root) = none
  only_root : ∀ i, i < h.length → parentOf h (some i) = none → i = root
  child_ok : ∀ i s c, childOf h i s = some c →
    parentOf h (some c) = some i ∧ nameOf h (some c) = s
  parent_ok : ∀ i p, parentOf h (some i) = some p → childOf h p (nameOf h (some i)) = some i
  keys_nodup : ∀ i, (childKeys h i).Nodup
  has_depth : ∀ i, i < h.length → ∃ d, IsDepth h i d

/-- What one iteration of the loop of `insert` does, at node `n` with segment `s`, seen
through the fields of the nodes: `h1` is the heap after the iteration and `c` the child
moved to.  Either the child existed and only its count changed, or it is the newly
allocated last node of the heap. -/
structure StepSpec (h : Heap) (n : Nat) (s : String) (h1 : Heap) (c : Nat) : Prop where
  length_le : h.length ≤ h1.length
  parent_eq : ∀ i, i < h.length → parentOf h1 (some i) = parentOf h (some i)
  name_eq : ∀ i, i < h.length → nameOf h1 (some i) = nameOf h (some i)
  child_eq : ∀ i t, childOf h1 i t = if i = n ∧ t = s then some c else childOf h i t
  count_eq : ∀ i, countOf h1 (some i) = countOf h (some i) + if i = c then 1 else 0
  keys_eq : ∀ i, childKeys h1 i = childKeys h i ∨
    (i = n ∧ childOf h n s = none ∧ childKeys h1 i = s :: childKeys h i)
  old_or_new : (childOf h n s = some c ∧ h1.length = h.length) ∨
    (childOf h n s = none ∧ c = h.length ∧ h1.length = h.length + 1 ∧
      parentOf h1 (some c) = some n ∧ nameOf h1 (some c) = s)

/-- The heap `h1` keeps every node of `h`: no address is dropped, and an old node keeps
its parent, its name and every child it had. -/
structure Extends (h h1 : Heap) : Prop where
  length_le : h.length ≤ h1.length
  parent_eq : ∀ i, i < h.length → parentOf h1 (some i) = parentOf h (some i)
  name_eq : ∀ i, i < h.length → nameOf h1 (some i) = nameOf h (some i)
  child_mono : ∀ i t c, childOf h i t = some c → childOf h1 i t = some c

/-- Go `strings.Join(parts, sep)`. -/
def Join : List String → String → String
  | [], _ => ""
  | [a], _ => a
  | a :: b :: rest, sep => a ++ sep ++ Join (b :: rest) sep

/-- The first loop of Go `nodeKey`: the names appended to `parts` from `cur` upwards while
`cur != nil && cur.Parent != nil`; `none` when the fuel runs out. -/
def nodeKeyParts (h : Heap) : Nat → Ptr → Option (List String)
  | 0, _ => none
  | fuel + 1, cur =>
    if cur != none && parentOf h cur != none then
      (nodeKeyParts h fuel (parentOf h cur)).map fun parts => nameOf h cur :: parts
    else some []

/-- Go `nodeKey(n)`: the sentinel for `nil` and for a node without parent, otherwise the
collected names, reversed in place and joined with an underscore. -/
def nodeKey (h : Heap) (n : Ptr) (fuel : Nat) : Option String :=
  if n = none ∨ parentOf h n = none then some "root"
  else (nodeKeyParts h fuel n).map fun parts => Join parts.reverse "_"

/-! ## Strings and paths (library functions used by tml.go, paths.go and main.go)

Strings are Lean strings, handled through their character lists.  `sep` is the
path separator of the platform the program is built for (`os.PathSeparator`). -/

/-- Go `unicode.IsSpace`. -/
def isSpace (c : Char) : Bool :=
  (9 ≤ c.toNat && c.toNat ≤ 13) || c.toNat = 32 || c.toNat = 0x85 || c.toNat = 0xA0 ||
    c.toNat = 0x1680 || (0x2000 ≤ c.toNat && c.toNat ≤ 0x200A) || c.toNat = 0x2028 ||
    c.toNat = 0x2029 || c.toNat = 0x202F || c.toNat = 0x205F || c.toNat = 0x3000

/-- The ASCII letters. -/
def isAsciiLetter (c : Char) : Prop :=
  (65 ≤ c.toNat ∧ c.toNat ≤ 90) ∨ (97 ≤ c.toNat ∧ c.toNat ≤ 122)

instance isAsciiLetter_decidable : DecidablePred isAsciiLetter :=
  fun c => inferInstanceAs (Decidable ((65 ≤ c.toNat ∧ c.toNat ≤ 90) ∨
    (97 ≤ c.toNat ∧ c.toNat ≤ 122)))

/-- The ASCII characters that are not letters: digits, punctuation, blanks, controls. -/
def isAsciiSymbol (c : Char) : Prop :=
  c.toNat < 128 ∧ ¬ isAsciiLetter c

instance isAsciiSymbol_decidable : DecidablePred isAsciiSymbol :=
  fun c => inferInstanceAs (Decidable (c.toNat < 128 ∧ ¬ isAsciiLetter c))

/-- Go `unicode.ToLower`, the map on characters that `strings.ToLower` applies to every
character of a string.  Its table belongs to the Go library and covers the letters of all
scripts (`Ä` becomes `ä`, the Kelvin sign U+212A becomes `k`); the program depends on three
facts about it, which are the fields: on the ASCII characters it is the ASCII lowercasing;
an ASCII character that is not a letter (a digit, `_`, `/`, `.`, `*`, a blank) is the image
of no other character; and white space is neither produced nor removed. -/
structure Lowering where
  /-- The lowercase of one character. -/
  lower : Char → Char
  /-- ASCII characters: `A`..`Z` go to `a`..`z`, the others stay. -/
  ascii : ∀ c : Char, c.toNat < 128 → lower c = Char.toLower c
  /-- An ASCII character that is not a letter comes from itself only. -/
  plain : ∀ c x : Char, isAsciiSymbol x → lower c = x → c = x
  /-- White space is mapped to white space and everything else to something else. -/
  space : ∀ c : Char, isSpace (lower c) = isSpace c

/-- A character map for the evaluations: the ASCII lowercasing, extended by the three
letters `Ä`, `É` and the Kelvin sign U+212A with their lowercase `ä`, `é` and `k`. -/
def sampleLower (c : Char) : Char :=
  if c = 'Ä' then 'ä' else if c = 'É' then 'é' else if c = '\u212A' then 'k'
  else Char.toLower c

/-- The map `sampleLower` with the three facts about it. -/
def sampleL : Lowering where
  lower := sampleLower
  ascii := by
    intro c hc
    unfold sampleLower
    by_cases h1 : c = 'Ä'
    · rw [h1] at hc; exact absurd hc (by decide)
    by_cases h2 : c = 'É'
    · rw [h2] at hc; exact absurd hc (by decide)
    by_cases h3 : c = '\u212A'
    · rw [h3] at hc; exact absurd hc (by decide)
    rw [if_neg h1, if_neg h2, if_neg h3]
  plain := by
    intro c x hsym h
    obtain ⟨hx, hlet⟩ := hsym
    unfold sampleLower at h
    by_cases h1 : c = 'Ä'
    · rw [if_pos h1] at h; rw [← h] at hx; exact absurd hx (by decide)
    by_cases h2 : c = 'É'
    · rw [if_neg h1, if_pos h2] at h; rw [← h] at hx; exact absurd hx (by decide)
    by_cases h3 : c = '\u212A'
    · rw [if_neg h1, if_neg h2, if_pos h3] at h; rw [← h] at hlet
      exact absurd (by decide) hlet
    rw [if_neg h1, if_neg h2, if_neg h3] at h
    unfold Char.toLower at h
    by_cases hup : c.toNat ≥ 65 ∧ c.toNat ≤ 90
    · rw [if_pos hup] at h
      obtain ⟨u1, u2⟩ := hup
      have hval : (Char.ofNat (c.toNat + 32)).toNat = c.toNat + 32 := by
        generalize c.toNat = n at u1 u2
        interval_cases n <;> rfl
      rw [h] at hval
      exact absurd (Or.inr ⟨by omega, by omega⟩) hlet
    · rw [if_neg hup] at h
      exact h
  space := by
    intro c
    unfold sampleLower
    by_cases h1 : c = 'Ä'
    · rw [if_pos h1, h1]; decide
    by_cases h2 : c = 'É'
    · rw [if_neg h1, if_pos h2, h2]; decide
    by_cases h3 : c = '\u212A'
    · rw [if_neg h1, if_neg h2, if_pos h3, h3]; decide
    rw [if_neg h1, if_neg h2, if_neg h3]
    unfold Char.toLower
    by_cases hup : c.toNat ≥ 65 ∧ c.toNat ≤ 90
    · rw [if_pos hup]
      obtain ⟨u1, u2⟩ := hup
      have hval : (Char.ofNat (c.toNat + 32)).toNat = c.toNat + 32 := by
        generalize c.toNat = n at u1 u2
        interval_cases n <;> rfl
      have hc : isSpace c = false := by
        simp only [isSpace, Bool.or_eq_false_iff, Bool.and_eq_false_iff,
          decide_eq_false_iff_not]
        omega
      have hl : isSpace (Char.ofNat (c.toNat + 32)) = false := by
        simp only [isSpace, Bool.or_eq_false_iff, Bool.and_eq_false_iff,
          decide_eq_false_iff_not]
        omega
      rw [hc, hl]
    · rw [if_neg hup]

/-- Go `strings.ToLower`: the lowercase of every character, by the map `L` of the Go
library. -/
def toLower (L : Lowering) (s : String) : String :=
  String.mk (s.data.map L.lower)

/-- Go `filepath.ToSlash`: the platform separator becomes a slash. -/
def ToSlash (sep : Char) (p : String) : String :=
  if sep = '/' then p else String.mk (p.data.map fun c => if c = sep then '/' else c)

/-- Go `splitSegs` of paths.go: split at slashes, drop the empty segments and the dots. -/
def splitSegs (sep : Char) (rel : String) : List String :=
  (((ToSlash sep rel).data.splitOn '/').map String.mk).filter fun p => p ≠ "" ∧ p ≠ "."

/-- Substring test on character lists. -/
def hasInfix : List Char → List Char → Bool
  | [], sub => sub.isEmpty
  | c :: s, sub => sub.isPrefixOf (c :: s) || hasInfix s sub

/-- Go `strings.Contains`. -/
def Contains (s sub : String) : Bool :=
  hasInfix s.data sub.data

/-- Go `os.IsPathSeparator`. -/
def IsPathSeparator (sep : Char) (c : Char) : Bool :=
  c = '/' || c = sep

/-- The backwards scan of Go `filepath.Ext` over the reversed path; `acc` holds the
characters passed so far, in order. -/
def extScan (sep : Char) : List Char → List Char → List Char
  | [], _ => []
  | c :: rest, acc =>
    if IsPathSeparator sep c then []
    else if c = '.' then c :: acc
    else extScan sep rest (c :: acc)

/-- Go `filepath.Ext`: the suffix starting at the last dot of the last path element. -/
def Ext (sep : Char) (path : String) : String :=
  String.mk (extScan sep path.data.reverse [])

/-- Go `strings.TrimSuffix`. -/
def TrimSuffix (s suffix : String) : String :=
  if suffix.data.isSuffixOf s.data then String.mk (s.data.take (s.data.length - suffix.data.length))
  else s

/-- Go `toBackslashes` of tml.go. -/
def toBackslashes (sep : Char) (p : String) : String :=
  String.mk ((ToSlash sep p).data.map fun c => if c = '/' then '\\' else c)

/-- The order of Go `sort.Strings`: lexicographic, character by character. -/
def strLE (a b : String) : Prop := a.data ≤ b.data

instance strLE_decidable : DecidableRel strLE :=
  fun a b => inferInstanceAs (Decidable (a.data ≤ b.data))

instance strLE_isTotal : IsTotal String strLE :=
  ⟨fun a b => le_total a.data b.data⟩

instance strLE_isTrans : IsTrans String strLE :=
  ⟨fun _ _ _ hab hbc => le_trans (α := List Char) hab hbc⟩

instance strLE_isAntisymm : IsAntisymm String strLE :=
  ⟨fun _ _ hab hba => String.ext (le_antisymm (α := List Char) hab hba)⟩

/-- Go `sort.Strings`. -/
def sortStrings (l : List String) : List String :=
  List.insertionSort strLE l

/-! ## Naming (tml.go) -/

/-- The registry `map[string]struct{}` of used names: the list of its keys, latest first.
The program only tests membership and adds keys that are not present. -/
abbrev Registry := List String

/-- The keyword branches of the candidate chain of Go `uniqueDisplayName`: the tag of the
first keyword, in the order of the source, that occurs in the lowercased path; `""` when
none does. -/
def keywordCandidate (base lowerPath : String) : String :=
  if Contains lowerPath "wrecks" then base ++ "_wreck"
  else if Contains lowerPath "ruins" then base ++ "_ruin"
  else if Contains lowerPath "bliss" then base ++ "_bliss"
  else if Contains lowerPath "sakhal" then base ++ "_sakhal"
  else if Contains lowerPath "proxy" then base ++ "_proxy"
  else if Contains lowerPath "military" then base ++ "_military"
  else if Contains lowerPath "furniture" then base ++ "_furniture"
  else if Contains lowerPath "residential" then base ++ "_residential"
  else if Contains lowerPath "industrial" then base ++ "_industrial"
  else ""

/-- The disambiguation candidate of Go `uniqueDisplayName`; `""` when there is none.  The
first branch is `len(segs) > 0 && strings.ToLower(segs[0]) != "dz"`. -/
def candidateName (L : Lowering) (sep : Char) (base relPath : String) : String :=
  let lowerPath := toLower L (ToSlash sep relPath)
  match splitSegs sep relPath with
  | seg0 :: _ =>
    if toLower L seg0 ≠ "dz" then base ++ "_" ++ seg0 else keywordCandidate base lowerPath
  | [] => keywordCandidate base lowerPath

/-- Go `fmt.Sprintf("%s_%d", base, i)` for the non-negative `i` of the suffix loop. -/
def suffixName (base : String) (i : Nat) : String :=
  base ++ "_" ++ Nat.repr i

/-- The loop `for i := 1; ; i++` of Go `uniqueDisplayName`, from `i` on: the first name
`base_i` whose lowercase is not registered; `none` when the fuel runs out. -/
def suffixLoop (L : Lowering) (base : String) (used : Registry) : Nat → Nat → Option String
  | 0, _ => none
  | fuel + 1, i =>
    if toLower L (suffixName base i) ∈ used then suffixLoop L base used fuel (i + 1)
    else some (suffixName base i)

/-- Go `uniqueDisplayName(base, relPath, used)`: the returned name and the registry after
the call; `none` when the fuel of the suffix loop runs out. -/
def uniqueDisplayName (L : Lowering) (sep : Char) (base relPath : String) (used : Registry)
    (fuel : Nat) : Option (String × Registry) :=
  let baseKey := toLower L base
  if baseKey ∉ used then some (base, baseKey :: used)
  else
    let candidate := candidateName L sep base relPath
    if candidate ≠ "" ∧ toLower L candidate ∉ used then
      some (candidate, toLower L candidate :: used)
    else
      (suffixLoop L base used fuel 1).map fun name => (name, toLower L name :: used)

/-- Successive calls of `uniqueDisplayName` on one shared registry, for a list of
`(base, relPath)` arguments: the names in call order and the final registry. -/
def uniqueDisplayNames (L : Lowering) (sep : Char) :
    List (String × String) → Registry → Nat → Option (List String × Registry)
  | [], used, _ => some ([], used)
  | (base, relPath) :: rest, used, fuel =>
    match uniqueDisplayName L sep base relPath used fuel with
    | none => none
    | some (name, used1) =>
      (uniqueDisplayNames L sep rest used1 fuel).map fun r => (name :: r.1, r.2)

/-- The number read from a list of characters, most significant first, where `g` gives the
value of one character. -/
def digitsValue (g : Char → Nat) : List Char → Nat
  | [] => 0
  | c :: cs => g c * 10 ^ cs.length + digitsValue g cs

/-- The value of a decimal digit character after lowercasing. -/
def lowerDigitValue (c : Char) : Nat :=
  (Char.toLower c).toNat - 48

/-- The tree built from the directory paths `a_b` and `a/b`:
node 1 is `a_b`, node 2 is `a`, node 3 is `a/b`. -/
def underscoreTree : Heap := buildTree [["a_b"], ["a", "b"]]

/-! ## Scan and post-scan phase (main.go, tml.go) -/

/-- One iteration of a worker of main.go on the queue item `rel`, the critical section
included: the tree (root at address 0) and the record list before and after. -/
def scanStep (sep : Char) (st : Heap × List Rec) (rel : String) : Heap × List Rec :=
  let segs := splitSegs sep rel
  if segs.length = 0 then st
  else
    let r := insert st.1 0 segs.dropLast
    (r.1, st.2 ++ [{ DirNode := some r.2, RelPath := ToSlash sep rel }])

/-- The scan of main.go on the queue items `rels`, taken in the order in which the workers
entered the critical section: the final tree and the records. -/
def scan (sep : Char) (rels : List String) : Heap × List Rec :=
  rels.foldl (scanStep sep) (freshHeap, [])

/-- The map `groups` of main.go: group key to member paths, in the order of arrival. -/
abbrev Groups := List (String × List String)

/-- Go `groups[key] = append(groups[key], rel)`. -/
def appendToGroup : Groups → String → String → Groups
  | [], key, rel => [(key, [rel])]
  | (k, l) :: rest, key, rel =>
    if k = key then (k, l ++ [rel]) :: rest else (k, l) :: appendToGroup rest key rel

/-- The key `nodeKey(pickGroup(r.DirNode, thr))` of one record. -/
def groupKey (h : Heap) (thr : Int) (fuel : Nat) (r : Rec) : Option String :=
  (pickGroup h r.DirNode thr fuel).bind fun g => nodeKey h g fuel

/-- The grouping loop of main.go over the records, from the given map on. -/
def groupRecs (h : Heap) (thr : Int) (fuel : Nat) : List Rec → Groups → Option Groups
  | [], groups => some groups
  | r :: rest, groups =>
    match groupKey h thr fuel r with
    | none => none
    | some key => groupRecs h thr fuel rest (appendToGroup groups key r.RelPath)

/-- The fields of one `<Template>` that the grouping and naming decide. -/
structure Template where
  Name : String
  File : String
deriving Repr, DecidableEq

/-- Go `writeTML`, as the list of templates written for `relPaths` and the registry after
the call. -/
def writeTML (L : Lowering) (sep : Char) : List String → Registry → Nat → Option
    (List Template × Registry)
  | [], used, _ => some ([], used)
  | rel :: rest, used, fuel =>
    match (splitSegs sep rel).getLast? with
    | none => writeTML L sep rest used fuel
    | some fileName =>
      let base := TrimSuffix fileName (Ext sep fileName)
      match uniqueDisplayName L sep base rel used fuel with
      | none => none
      | some (displayName, used1) =>
        (writeTML L sep rest used1 fuel).map fun r =>
          ({ Name := displayName,
             File := toBackslashes sep (Join (splitSegs sep rel) "/") } :: r.1, r.2)

/-- One library handed to the writer: the group key, the lowercased library name, the
sorted member paths and the templates written. -/
structure Library where
  Key : String
  LibName : String
  Members : List String
  Templates : List Template
deriving Repr, DecidableEq

/-- The loop `for _, k := range keys` of main.go, with the shared registry. -/
def writeLibraries (L : Lowering) (sep : Char) (groups : Groups) :
    List String → Registry → Nat → Option (List Library)
  | [], _, _ => some []
  | k :: ks, used, fuel =>
    match writeTML L sep (sortStrings ((groups.lookup k).getD [])) used fuel with
    | none => none
    | some (ts, used1) =>
      (writeLibraries L sep groups ks used1 fuel).map fun libs =>
        { Key := k, LibName := toLower L k,
          Members := sortStrings ((groups.lookup k).getD []), Templates := ts } :: libs

/-- The post-scan phase of main.go: grouping, sorted keys, one library per key. -/
def postScan (L : Lowering) (sep : Char) (h : Heap) (recs : List Rec) (thr : Int) (fuel : Nat) :
    Option (List Library) :=
  match groupRecs h thr fuel recs [] with
  | none => none
  | some groups => writeLibraries L sep groups (sortStrings (groups.map Prod.fst)) [] fuel

/-- Scan followed by the post-scan phase. -/
def run (L : Lowering) (sep : Char) (rels : List String) (thr : Int) (fuel : Nat) : Option
    (List Library) :=
  postScan L sep (scan sep rels).1 (scan sep rels).2 thr fuel

/-- The map `groups` after the grouping loop, given the `(key, path)` pair of each record
in record order. -/
def groupPairs (pairs : List (String × String)) : Groups :=
  pairs.foldl (fun g p => appendToGroup g p.1 p.2) []

/-- The directory segments `segs[:len(segs)-1]` a worker inserts for the queue item `rel`. -/
def dirSegsOf (sep : Char) (rel : String) : List String :=
  (splitSegs sep rel).dropLast

/-- The queue items that yield a record: those with at least one segment. -/
def scanned (sep : Char) (rels : List String) : List String :=
  rels.filter fun rel => (splitSegs sep rel).length ≠ 0

/-- The climb of `pickGroup` on directory paths, the path given last segment first: while
the path has three segments or more and its count is below the threshold, drop the last
segment.  `cnt` gives the count stored at a path. -/
def pickPathRev (cnt : List String → Option Int) (thr : Int) : List String → List String
  | [] => []
  | s :: rest =>
    if 3 ≤ rest.length + 1 ∧ (cnt (s :: rest).reverse).getD 0 < thr then
      pickPathRev cnt thr rest
    else s :: rest

/-- The directory path of the group anchor of the directory path `q`. -/
def pickPath (cnt : List String → Option Int) (thr : Int) (q : List String) : List String :=
  (pickPathRev cnt thr q.reverse).reverse

/-- The key of the node with directory path `q`. -/
def keyOfPath (q : List String) : String :=
  if q = [] then "root" else Join q "_"

/-- The `(key, path)` pair of each record of the scan of `rels`, in record order, computed
from the directory paths alone: the key is the key of the group anchor's path, where the
counts are those of the tree built from the directory paths of all the items. -/
def scanPairs (sep : Char) (rels : List String) (thr : Int) : List (String × String) :=
  (scanned sep rels).map fun rel =>
    (keyOfPath (pickPath (pathCount (buildTree ((scanned sep rels).map (dirSegsOf sep))) 0) thr
      (dirSegsOf sep rel)), ToSlash sep rel)

/-- The keyword table of the naming rule, in the order in which the keywords are tried:
each keyword with the tag appended for it. -/
def categoryKeywords : List (String × String) :=
  [("wrecks", "wreck"), ("ruins", "ruin"), ("bliss", "bliss"), ("sakhal", "sakhal"),
   ("proxy", "proxy"), ("military", "military"), ("furniture", "furniture"),
   ("residential", "residential"), ("industrial", "industrial")]

/-- A relative path that offers no usable disambiguation: its first segment is `dz` up to
letter case and no keyword of the table occurs in the lowercased path. -/
def noDisambiguation (L : Lowering) (sep : Char) (relPath : String) : Prop :=
  (splitSegs sep relPath).head?.map (toLower L) = some "dz" ∧
    ∀ kt ∈ categoryKeywords, Contains (toLower L (ToSlash sep relPath)) kt.1 = false

instance noDisambiguation_decidable (L : Lowering) (sep : Char) (relPath : String) :
    Decidable (noDisambiguation L sep relPath) :=
  inferInstanceAs (Decidable (_ ∧ _))

/-- The registry after `k` calls with one base that each ended in the plain base (first
call) or in the next integer suffix: latest key first. -/
def registryAfter (L : Lowering) (base : String) : Nat → Registry
  | 0 => []
  | 1 => [toLower L base]
  | k + 2 => toLower L (suffixName base (k + 1)) :: registryAfter L base (k + 1)

/-! ## Hash (tml.go) -/

/-- The bytes of a Go string: the UTF-8 encoding of the characters, as numbers below 256. -/
def utf8Bytes (s : String) : List Nat :=
  s.data.flatMap fun c => (String.utf8EncodeChar c).map UInt8.toNat

/-- The value of the Go type `int32` that an integer wraps to: the integer congruent to it
modulo `2^32` that lies between `-2^31` and `2^31 - 1`. -/
def wrapInt32 (x : Int) : Int :=
  (x + 2147483648) % 4294967296 - 2147483648

/-- The loop body `h = c + (h << 6) + (h << 16) - h` of Go `hashP3D`, every operation
wrapping as on `int32`. -/
def hashStep (h c : Int) : Int :=
  wrapInt32 (wrapInt32 (wrapInt32 (c + wrapInt32 (h * 64)) + wrapInt32 (h * 65536)) - h)

/-- The loop of Go `hashP3D` over the bytes of the string, left to right, from `h = 0`. -/
def hashBytes (bytes : List Nat) : Int :=
  bytes.foldl (fun h b => hashStep h (b : Int)) 0

/-- Go `hashP3D(s)`. -/
def hashP3D (s : String) : Int :=
  hashBytes (utf8Bytes s)

/-- The directory paths of the end-to-end scenario: `a/b` two hundred times, for the files
`a/b/x1.p3d` .. `a/b/x200.p3d`, and `a/c` once, for `a/c/y1.p3d`. -/
def scenarioPaths : List (List String) :=
  List.replicate 200 ["a", "b"] ++ [["a", "c"]]

/-! ## Skip rules (paths.go) -/

/-- Go `strings.TrimSpace`: leading and trailing white space removed. -/
def TrimSpace (s : String) : String :=
  String.mk ((s.data.dropWhile isSpace).reverse.dropWhile isSpace).reverse

/-- Go `strings.TrimRightFunc(s, unicode.IsSpace)`: trailing white space removed. -/
def TrimRightSpace (s : String) : String :=
  String.mk (s.data.reverse.dropWhile isSpace).reverse

/-- Go `strings.HasPrefix`. -/
def HasPrefix (s p : String) : Bool :=
  p.data.isPrefixOf s.data

/-- Go `strings.HasSuffix`. -/
def HasSuffix (s suffix : String) : Bool :=
  suffix.data.isSuffixOf s.data

/-- Go `strings.TrimPrefix`. -/
def TrimPrefix (s p : String) : String :=
  if p.data.isPrefixOf s.data then String.mk (s.data.drop p.data.length) else s

/-- Go `strings.TrimLeft(s, cutset)`: the leading characters of `cutset` removed. -/
def TrimLeft (s cutset : String) : String :=
  String.mk (s.data.dropWhile fun c => decide (c ∈ cutset.data))

/-- Go `path.Clean`, one path element: `stack` holds the elements kept so far, the last one
first.  Empty elements and `.` are dropped; `..` removes the last kept element when there
is one that is not `..` itself, is dropped at the start of a rooted path, and is kept at
the start of a relative one; any other element is kept. -/
def cleanElem (rooted : Bool) (stack : List (List Char)) (elem : List Char) :
    List (List Char) :=
  if elem = [] ∨ elem = ['.'] then stack
  else if elem = ['.', '.'] then
    match stack with
    | top :: rest =>
      if top = ['.', '.'] then (if rooted then stack else ['.', '.'] :: stack) else rest
    | [] => if rooted then [] else [['.', '.']]
  else elem :: stack

/-- Go `path.Clean` of the standard library, following its documented rules element by
element: the shortest path equivalent to `p`, `.` for the empty result. -/
def Clean (p : String) : String :=
  if p.data = [] then "."
  else
    let rooted : Bool := p.data.head? = some '/'
    let stack := (p.data.splitOn '/').foldl (cleanElem rooted) []
    if rooted then String.mk ('/' :: ['/'].intercalate stack.reverse)
    else if stack = [] then "."
    else String.mk (['/'].intercalate stack.reverse)

/-- Go `normalizeRelForMatch` of paths.go. -/
def normalizeRelForMatch (sep : Char) (rel : String) : String :=
  if TrimSpace rel = "" then ""
  else
    let rel2 := TrimLeft (TrimPrefix (Clean (ToSlash sep (TrimSpace rel))) "./") "/"
    if rel2 = "." ∨ rel2 = ".." ∨ HasPrefix rel2 "../" then "" else rel2

/-- The loop `for _, p := range prefixes` of Go `matchSkip` on the normalised, lowercased
path `rel`. -/
def matchLoop (rel : String) : List String → Bool
  | [] => false
  | p :: rest =>
    if HasSuffix p "*" then
      if TrimSuffix p "*" ≠ "" ∧ HasPrefix rel (TrimSuffix p "*") then true
      else matchLoop rel rest
    else if rel = p ∨ HasPrefix rel (p ++ "/") ∨ HasPrefix rel p then true
    else matchLoop rel rest

/-- Go `matchSkip(rel, prefixes)`. -/
def matchSkip (L : Lowering) (sep : Char) (rel : String) (prefixes : List String) : Bool :=
  if prefixes.length = 0 then false
  else if normalizeRelForMatch sep rel = "" then false
  else matchLoop (toLower L (normalizeRelForMatch sep rel)) prefixes

/-! ## Number formatting (tml.go) -/

/-- The bit pattern of an `int32` value, as a number below `2^32`: Go `uint32(x)`. -/
def uint32Of (x : Int) : Nat :=
  (x % 4294967296).toNat

/-- The digit loop of Go `i32toa`: while `u > 0`, step the index `i` down, store the byte
`'0' + u % 10` at `buf[i]` and divide `u` by 10.  The result is the final index with the
buffer; `none` is the index-out-of-range failure of a store below index 0. -/
def i32toaLoop : Nat → Nat → List Nat → Option (Nat × List Nat)
  | 0, u, buf => if u = 0 then some (0, buf) else none
  | i + 1, u, buf =>
    if u = 0 then some (i + 1, buf)
    else i32toaLoop i (u / 10) (buf.set i ((48 + u % 10) % 4294967296 % 256))

/-- Go `i32toa(x)` for an `int32` value `x`: the magnitude is `uint32(^x) + 1` for a
negative `x` (with `^x = -x - 1`) and `uint32(x)` otherwise, the digits are written from
the end of an 11-byte buffer, and the sign is stored in front of them.  `none` is an
index-out-of-range failure. -/
def i32toa (x : Int) : Option String :=
  if x = 0 then some "0"
  else
    let neg : Bool := decide (x < 0)
    let u : Nat := if neg then (uint32Of (-x - 1) + 1) % 4294967296 else uint32Of x
    match i32toaLoop 11 u (List.replicate 11 0) with
    | none => none
    | some (0, buf) => if neg then none else some (String.mk (buf.map Char.ofNat))
    | some (i + 1, buf) =>
      if neg then some (String.mk (((buf.set i 45).drop i).map Char.ofNat))
      else some (String.mk ((buf.drop (i + 1)).map Char.ofNat))

/-- Reading of a non-empty list of decimal digits, most significant first; `none` when the
list is empty or holds another character. -/
def parseDigits (cs : List Char) : Option Nat :=
  if cs ≠ [] ∧ cs.all Char.isDigit = true then
    some (cs.foldl (fun n c => n * 10 + (c.toNat - 48)) 0)
  else none

/-- Reading of a decimal integer (the specification side of the round trip of `i32toa`):
an optional leading `-` followed by a non-empty list of decimal digits. -/
def parseDecimal (s : String) : Option Int :=
  match s.data with
  | '-' :: cs => (parseDigits cs).map fun n => -(n : Int)
  | cs => (parseDigits cs).map fun n => (n : Int)

/-! ## Colours (colors.go) -/

/-- Go `defaultOutline`. -/
def defaultOutline : Int := -1

/-- Go `rgb(r, g, b)` on `int32` arguments: `alpha | (r&0xFF)<<16 | (g&0xFF)<<8 | (b&0xFF)`
with `alpha = int32(-1) << 24`, computed on the 32-bit patterns and read back as a signed
32-bit value. -/
def rgb (r g b : Int) : Int :=
  let alpha : Nat := (uint32Of (-1) <<< 24) % 4294967296
  wrapInt32 ((alpha ||| (((uint32Of r &&& 0xFF) <<< 16) % 4294967296) |||
    (((uint32Of g &&& 0xFF) <<< 8) % 4294967296) ||| (uint32Of b &&& 0xFF) : Nat) : Int)

/-- Go `outlinePalette`. -/
def outlinePalette : List Int :=
  [rgb 30 30 30, rgb 60 60 60, rgb 90 90 90, rgb 120 120 120, rgb 150 150 150,
    rgb 180 180 180]

/-- Go `outlineForKey(key)`: the remainder `h % l` is the truncated one of Go (it has the
sign of `h`) and is shifted by `l` when negative; `none` is the index-out-of-range failure
of the slice access. -/
def outlineForKey (key : String) : Option Int :=
  if key = "" then some defaultOutline
  else
    let h : Int := hashP3D key
    let l : Int := (outlinePalette.length : Int)
    let idx : Int := Int.tmod h l
    let idx : Int := if idx < 0 then idx + l else idx
    if 0 ≤ idx then outlinePalette[idx.toNat]? else none

/-! ## Grouping decision: the climb -/

theorem parentOf_some {h : Heap} {i : Nat} {nd : Node} (hi : h[i]? = some nd) :
    parentOf h (some i) = nd.Parent := by
  simp [parentOf, deref, hi]

theorem parentOf_valid {h : Heap} {i p : Nat} (hp : parentOf h (some i) = some p) :
    i < h.length := by
  by_contra hlt
  have : h[i]? = none := List.getElem?_eq_none (by omega)
  simp [parentOf, deref, this] at hp

theorem IsDepth.valid {h : Heap} {i d : Nat} (hd : IsDepth h i d) : i < h.length := by
  cases hd with
  | root hi _ => exact hi
  | step hp _ => exact parentOf_valid hp

theorem IsDepth.unique {h : Heap} {i d e : Nat} (hd : IsDepth h i d) (he : IsDepth h i e) :
    d = e := by
  induction hd generalizing e with
  | root _ hp =>
    cases he with
    | root _ _ => rfl
    | step hp2 _ => rw [hp] at hp2; cases hp2
  | step hp _ ih =>
    cases he with
    | root _ hp2 => rw [hp] at hp2; cases hp2
    | step hp2 h2 =>
      rw [hp] at hp2; cases hp2
      rw [ih h2]

theorem IsDepth.parent_zero {h : Heap} {i : Nat} (hd : IsDepth h i 0) :
    parentOf h (some i) = none := by
  cases hd with
  | root _ hp => exact hp

theorem IsDepth.parent_succ {h : Heap} {i d : Nat} (hd : IsDepth h i (d + 1)) :
    ∃ p, parentOf h (some i) = some p ∧ IsDepth h p d := by
  cases hd with
  | step hp hd2 => exact ⟨_, hp, hd2⟩

theorem parentOf_none (h : Heap) : parentOf h none = none := rfl

theorem ancestor_none (h : Heap) (k : Nat) : ancestor h k none = none := by
  induction k with
  | zero => rfl
  | succ k ih => simpa [ancestor, parentOf_none] using ih

theorem ancestor_succ_outer (h : Heap) (k : Nat) (p : Ptr) :
    ancestor h (k + 1) p = parentOf h (ancestor h k p) := by
  induction k generalizing p with
  | zero => rfl
  | succ k ih => rw [ancestor, ih]; rfl

/-- The `k`-th ancestor of a node of depth `d` has depth `d - k`, for `k ≤ d`. -/
theorem IsDepth.ancestor {h : Heap} {i d : Nat} (hd : IsDepth h i d) (k : Nat) (hk : k ≤ d) :
    ∃ g, TmlGen.ancestor h k (some i) = some g ∧ IsDepth h g (d - k) := by
  induction k generalizing i d with
  | zero => exact ⟨i, rfl, hd⟩
  | succ k ih =>
    obtain ⟨d', rfl⟩ : ∃ d', d = d' + 1 := ⟨d - 1, by omega⟩
    obtain ⟨p, hp, hdp⟩ := hd.parent_succ
    obtain ⟨g, hg, hdg⟩ := ih hdp (by omega)
    refine ⟨g, ?_, ?_⟩
    · rw [TmlGen.ancestor, hp, hg]
    · have : d' + 1 - (k + 1) = d' - k := by omega
      rw [this]; exact hdg

/-- A node of depth `d` has no `(d+1)`-th ancestor. -/
theorem IsDepth.chain_ends {h : Heap} {i d : Nat} (hd : IsDepth h i d) :
    TmlGen.ancestor h (d + 1) (some i) = none := by
  induction hd with
  | root _ hp => simp [TmlGen.ancestor, hp]
  | step hp _ ih => rw [TmlGen.ancestor, hp]; exact ih

/-- A node that has a parent, a grandparent and a great-grandparent is at depth 3 or more. -/
theorem IsDepth.three_le {h : Heap} {i d : Nat} (hd : IsDepth h i d)
    (h3 : parentOf h (parentOf h (parentOf h (some i))) ≠ none) : 3 ≤ d := by
  by_contra hlt
  have h4 := hd.chain_ends
  have hd3 : d = 0 ∨ d = 1 ∨ d = 2 := by omega
  rcases hd3 with rfl | rfl | rfl
  · simp only [TmlGen.ancestor] at h4
    simp [h4, parentOf_none] at h3
  · simp only [TmlGen.ancestor] at h4
    simp [h4, parentOf_none] at h3
  · simp only [TmlGen.ancestor] at h4
    exact h3 h4

theorem climbs_true_iff (h : Heap) (thr : Int) (cur : Ptr) :
    climbs h thr cur = true ↔
      cur ≠ none ∧ parentOf h cur ≠ none ∧ parentOf h (parentOf h cur) ≠ none ∧
        parentOf h (parentOf h (parentOf h cur)) ≠ none ∧ countOf h cur < thr := by
  simp [climbs, and_assoc]

theorem climbs_false_iff (h : Heap) (thr : Int) (i : Nat) :
    climbs h thr (some i) = false ↔
      thr ≤ countOf h (some i) ∨ parentOf h (some i) = none ∨
        parentOf h (parentOf h (some i)) = none ∨
        parentOf h (parentOf h (parentOf h (some i))) = none := by
  rw [← Bool.not_eq_true, climbs_true_iff]
  simp only [ne_eq, not_and, not_not, not_lt]
  constructor
  · intro hc
    by_cases h1 : parentOf h (some i) = none
    · exact Or.inr (Or.inl h1)
    by_cases h2 : parentOf h (parentOf h (some i)) = none
    · exact Or.inr (Or.inr (Or.inl h2))
    by_cases h3 : parentOf h (parentOf h (parentOf h (some i))) = none
    · exact Or.inr (Or.inr (Or.inr h3))
    exact Or.inl (hc (by simp) h1 h2 h3)
  · rintro (hc | hc | hc | hc) _ h1 h2 h3
    · exact hc
    · exact absurd hc h1
    · exact absurd hc h2
    · exact absurd hc h3

/-- The loop of `pickGroup` on a node of depth `d`, with more than `d` units of fuel, ends
at the first element of the parent chain at which the loop condition is false. -/
theorem pickGroupLoop_spec (h : Heap) (thr : Int) :
    ∀ (d i fuel : Nat), IsDepth h i d → d < fuel →
      ∃ k, k ≤ d ∧ pickGroupLoop h thr fuel (some i) = some (ancestor h k (some i)) ∧
        climbs h thr (ancestor h k (some i)) = false ∧
        ∀ j, j < k → climbs h thr (ancestor h j (some i)) = true := by
  intro d
  induction d with
  | zero =>
    intro i fuel hd hf
    obtain ⟨f, rfl⟩ : ∃ f, fuel = f + 1 := ⟨fuel - 1, by omega⟩
    have hc : climbs h thr (some i) = false := by
      rw [climbs_false_iff]; exact Or.inr (Or.inl hd.parent_zero)
    exact ⟨0, le_refl _, by simp [pickGroupLoop, hc, ancestor], hc, by intro j hj; omega⟩
  | succ d ih =>
    intro i fuel hd hf
    obtain ⟨f, rfl⟩ : ∃ f, fuel = f + 1 := ⟨fuel - 1, by omega⟩
    by_cases hc : climbs h thr (some i) = true
    · obtain ⟨p, hp, hdp⟩ := hd.parent_succ
      obtain ⟨k, hk, hloop, hstop, hbefore⟩ := ih p f hdp (by omega)
      refine ⟨k + 1, by omega, ?_, ?_, ?_⟩
      · simp only [pickGroupLoop, hc, if_true, hp, ancestor]; exact hloop
      · simpa only [ancestor, hp] using hstop
      · intro j hj
        cases j with
        | zero => exact hc
        | succ j => simpa only [ancestor, hp] using hbefore j (by omega)
    · have hc2 : climbs h thr (some i) = false := by simpa using hc
      exact ⟨0, Nat.zero_le _, by simp [pickGroupLoop, hc2, ancestor], hc2,
        by intro j hj; omega⟩

/-- The full description of `pickGroup` on a node `n` of depth `d`: with more than `d` units
of fuel it returns the `k`-th ancestor `g` of `n`, where `k` is the first position of the
parent chain at which the loop condition fails; a climb (`0 < k`) ends at depth 2 or more. -/
theorem pickGroup_spec (h : Heap) (thr : Int) (n d fuel : Nat) (hd : IsDepth h n d)
    (hf : d < fuel) :
    ∃ k g, k ≤ d ∧ ancestor h k (some n) = some g ∧ IsDepth h g (d - k) ∧
      pickGroup h (some n) thr fuel = some (some g) ∧
      climbs h thr (some g) = false ∧
      (∀ j, j < k → climbs h thr (ancestor h j (some n)) = true) ∧
      (0 < k → 2 ≤ d - k) := by
  obtain ⟨k, hk, hloop, hstop, hbefore⟩ := pickGroupLoop_spec h thr d n fuel hd hf
  obtain ⟨g, hg, hdg⟩ := hd.ancestor k hk
  have hdeep : 0 < k → 2 ≤ d - k := by
    intro hpos
    obtain ⟨j, rfl⟩ : ∃ j, k = j + 1 := ⟨k - 1, by omega⟩
    obtain ⟨c, hc, hdc⟩ := hd.ancestor j (by omega)
    have hcl := hbefore j (by omega)
    rw [hc, climbs_true_iff] at hcl
    have := hdc.three_le hcl.2.2.2.1
    omega
  refine ⟨k, g, hk, hg, hdg, ?_, by rw [← hg]; exact hstop, hbefore, hdeep⟩
  rw [pickGroup, hloop, hg]
  simp only [Option.map_some', Option.some.injEq]
  by_cases hk0 : k = 0
  · subst hk0
    have : g = n := by simpa [ancestor] using hg.symm
    subst this
    simp
  · have h2 := hdeep (by omega)
    obtain ⟨e, he⟩ : ∃ e, d - k = e + 1 := ⟨d - k - 1, by omega⟩
    rw [he] at hdg
    obtain ⟨p, hp, _⟩ := hdg.parent_succ
    simp [hp]

/-- C5: on a node `n` of depth `d` (its parent chain is finite) and for every threshold,
`pickGroup` returns, given more than `d` units of fuel, the first node `c` of the chain
`n, parent(n), ...` at which `c.Count >= thr` or `c` lacks a parent, a grandparent or a
great-grandparent; every node strictly before `c` on the chain has `Count < thr` (and all
three ancestors), so the result is an ancestor-or-self of `n`, and it is `n` itself when
`n.Count >= thr`. -/
theorem pickGroup_first_stop (h : Heap) (n d fuel : Nat) (thr : Int)
    (hd : IsDepth h n d) (hf : d < fuel) :
    ∃ k c, k ≤ d ∧ ancestor h k (some n) = some c ∧
      pickGroup h (some n) thr fuel = some (some c) ∧
      (thr ≤ countOf h (some c) ∨ parentOf h (some c) = none ∨
        parentOf h (parentOf h (some c)) = none ∨
        parentOf h (parentOf h (parentOf h (some c))) = none) ∧
      (∀ j, j < k → countOf h (ancestor h j (some n)) < thr ∧
        parentOf h (parentOf h (parentOf h (ancestor h j (some n)))) ≠ none) ∧
      (thr ≤ countOf h (some n) → c = n) := by
  obtain ⟨k, g, hk, hg, _, hpick, hstop, hbefore, _⟩ := pickGroup_spec h thr n d fuel hd hf
  refine ⟨k, g, hk, hg, hpick, (climbs_false_iff h thr g).1 hstop, ?_, ?_⟩
  · intro j hj
    have := (climbs_true_iff _ _ _).1 (hbefore j hj)
    exact ⟨this.2.2.2.2, this.2.2.2.1⟩
  · intro hthr
    cases k with
    | zero => simpa [ancestor] using hg.symm
    | succ k =>
      have := (climbs_true_iff _ _ _).1 (hbefore 0 (by omega))
      simp only [ancestor] at this
      omega

theorem chainHeap_depth :
    IsDepth chainHeap 0 0 ∧ IsDepth chainHeap 1 1 ∧ IsDepth chainHeap 2 2 ∧
      IsDepth chainHeap 3 3 := by
  have h0 : IsDepth chainHeap 0 0 := IsDepth.root (by decide) (by decide)
  have h1 : IsDepth chainHeap 1 1 := IsDepth.step (by decide) h0
  have h2 : IsDepth chainHeap 2 2 := IsDepth.step (by decide) h1
  exact ⟨h0, h1, h2, IsDepth.step (by decide) h2⟩

/-- C5, witness: the node `a/b/c` of the tree holding that single path, threshold 75. -/
theorem pickGroup_first_stop_witness :
    IsDepth chainHeap 3 3 ∧ 3 < 4 ∧
    ∃ k c, k ≤ 3 ∧ ancestor chainHeap k (some 3) = some c ∧
      pickGroup chainHeap (some 3) 75 4 = some (some c) ∧
      ((75 : Int) ≤ countOf chainHeap (some c) ∨ parentOf chainHeap (some c) = none ∨
        parentOf chainHeap (parentOf chainHeap (some c)) = none ∨
        parentOf chainHeap (parentOf chainHeap (parentOf chainHeap (some c))) = none) ∧
      (∀ j, j < k → countOf chainHeap (ancestor chainHeap j (some 3)) < 75 ∧
        parentOf chainHeap (parentOf chainHeap (parentOf chainHeap
          (ancestor chainHeap j (some 3)))) ≠ none) ∧
      ((75 : Int) ≤ countOf chainHeap (some 3) → c = 3) :=
  ⟨chainHeap_depth.2.2.2, by decide,
    pickGroup_first_stop chainHeap 3 3 4 75 chainHeap_depth.2.2.2 (by decide)⟩

/-- C1, counterexample: in the tree holding the single path `a/b/c`, the node `a/b/c` is at
depth 3 and `pickGroup` with threshold 75 returns `a/b`, a node at depth 2. -/
theorem pickGroup_promotes_to_depth_two :
    IsDepth chainHeap 3 3 ∧ pickGroup chainHeap (some 3) 75 4 = some (some 2) ∧
      IsDepth chainHeap 2 2 :=
  ⟨chainHeap_depth.2.2.2, by decide, chainHeap_depth.2.2.1⟩

/-- C1, amended: on a node `n` of depth `d` and for every threshold, `pickGroup` returns
(given more than `d` units of fuel) a node `g` of depth `dg` with `dg ≤ d`; `g` is at depth
0 or 1 only when it is `n` itself, and every `n` at depth 0, 1 or 2 is returned unchanged;
a climb ends at depth 2 or deeper. -/
theorem pickGroup_floor (h : Heap) (n d fuel : Nat) (thr : Int)
    (hd : IsDepth h n d) (hf : d < fuel) :
    ∃ g dg, pickGroup h (some n) thr fuel = some (some g) ∧ IsDepth h g dg ∧ dg ≤ d ∧
      (dg ≤ 1 → g = n) ∧ (d ≤ 2 → g = n) ∧ (g ≠ n → 2 ≤ dg) := by
  obtain ⟨k, g, hk, hg, hdg, hpick, _, _, hdeep⟩ := pickGroup_spec h thr n d fuel hd hf
  have hk0 : k = 0 → g = n := by
    rintro rfl
    simpa [ancestor] using hg.symm
  refine ⟨g, d - k, hpick, hdg, by omega, ?_, ?_, ?_⟩
  · intro h1
    apply hk0
    by_contra hne
    have := hdeep (by omega)
    omega
  · intro h2
    apply hk0
    by_contra hne
    have := hdeep (by omega)
    omega
  · intro hne
    apply hdeep
    by_contra h0
    exact hne (hk0 (by omega))


/-- C1, witness of the amended claim: the node `a/b/c` of the tree holding that single path,
threshold 75. -/
theorem pickGroup_floor_witness :
    IsDepth chainHeap 3 3 ∧ 3 < 4 ∧
    ∃ g dg, pickGroup chainHeap (some 3) 75 4 = some (some g) ∧ IsDepth chainHeap g dg ∧
      dg ≤ 3 ∧ (dg ≤ 1 → g = 3) ∧ (3 ≤ 2 → g = 3) ∧ (g ≠ 3 → 2 ≤ dg) :=
  ⟨chainHeap_depth.2.2.2, by decide,
    pickGroup_floor chainHeap 3 3 4 75 chainHeap_depth.2.2.2 (by decide)⟩

/-! ## Lowercasing -/

theorem char_toLower_cases (c : Char) :
    Char.toLower c = c ∨
      (65 ≤ c.toNat ∧ c.toNat ≤ 90 ∧ (Char.toLower c).toNat = c.toNat + 32) := by
  unfold Char.toLower
  by_cases hup : c.toNat ≥ 65 ∧ c.toNat ≤ 90
  · right
    rw [if_pos hup]
    obtain ⟨h1, h2⟩ := hup
    refine ⟨h1, h2, ?_⟩
    generalize c.toNat = n at h1 h2
    interval_cases n <;> rfl
  · left
    rw [if_neg hup]

/-- Lowercasing leaves an ASCII character that is not a letter as it is. -/
theorem lower_symbol (L : Lowering) (x : Char) (hx : isAsciiSymbol x) : L.lower x = x := by
  rw [L.ascii x hx.1]
  rcases char_toLower_cases x with h | ⟨h1, h2, _⟩
  · exact h
  · exact absurd (Or.inl ⟨h1, h2⟩) hx.2

/-- Lowercasing neither produces nor removes an ASCII character that is not a letter. -/
theorem lower_eq_iff (L : Lowering) (c x : Char) (hx : isAsciiSymbol x) :
    L.lower c = x ↔ c = x := by
  constructor
  · exact L.plain c x hx
  · intro h
    rw [h]
    exact lower_symbol L x hx

/-- A string of ASCII characters that are not letters is its own lowercase. -/
theorem toLower_symbols (L : Lowering) (w : String) (hw : ∀ x ∈ w.data, isAsciiSymbol x) :
    toLower L w = w := by
  apply String.ext
  show w.data.map L.lower = w.data
  have : w.data.map L.lower = w.data.map id :=
    List.map_congr_left fun x hx => lower_symbol L x (hw x hx)
  rw [this, List.map_id]

/-- On a string of ASCII characters every lowercasing is the ASCII one. -/
theorem toLower_ascii (L : Lowering) (s : String) (h : ∀ c ∈ s.data, c.toNat < 128) :
    toLower L s = String.mk (s.data.map Char.toLower) := by
  apply String.ext
  exact List.map_congr_left fun c hc => L.ascii c (h c hc)

/-! ## Naming: every call registers a fresh name -/

theorem lowerDigitValue_digitChar (k : Nat) (hk : k < 10) :
    lowerDigitValue (Nat.digitChar k) = k := by
  interval_cases k <;> rfl

theorem digitsValue_toDigitsCore (fuel : Nat) :
    ∀ (n : Nat) (ds : List Char), n < fuel →
      (Nat.toDigitsCore 10 fuel n ds).length = (Nat.toDigitsCore 10 fuel n []).length + ds.length ∧
      digitsValue lowerDigitValue (Nat.toDigitsCore 10 fuel n ds) =
        n * 10 ^ ds.length + digitsValue lowerDigitValue ds := by
  induction fuel with
  | zero => intro n ds hn; omega
  | succ fuel ih =>
    intro n ds hn
    by_cases h0 : n / 10 = 0
    · have hlt : n < 10 := by omega
      have hmod : n % 10 = n := Nat.mod_eq_of_lt hlt
      simp only [Nat.toDigitsCore, h0, if_true, hmod, digitsValue, List.length_cons,
        lowerDigitValue_digitChar n hlt, List.length_nil]
      exact ⟨by omega, trivial⟩
    · have hdiv : n / 10 < fuel := by omega
      simp only [Nat.toDigitsCore, h0, if_false]
      obtain ⟨hlen, hval⟩ := ih (n / 10) (Nat.digitChar (n % 10) :: ds) hdiv
      obtain ⟨hlen1, _⟩ := ih (n / 10) [Nat.digitChar (n % 10)] hdiv
      refine ⟨?_, ?_⟩
      · rw [hlen, hlen1]; simp only [List.length_cons, List.length_nil]; omega
      · rw [hval]
        simp only [digitsValue, List.length_cons,
          lowerDigitValue_digitChar (n % 10) (Nat.mod_lt _ (by decide))]
        have hn : n = 10 * (n / 10) + n % 10 := (Nat.div_add_mod n 10).symm
        generalize n / 10 = q at hn
        generalize n % 10 = r at hn
        subst hn
        ring

theorem digitsValue_map_toLower (cs : List Char) :
    digitsValue (fun c => c.toNat - 48) (cs.map Char.toLower) =
      digitsValue lowerDigitValue cs := by
  induction cs with
  | nil => rfl
  | cons c cs ih => simp only [List.map_cons, digitsValue, List.length_map, ih, lowerDigitValue]

/-- Lowercasing the decimal representation loses nothing: the number can be read back. -/
theorem digitsValue_repr (n : Nat) :
    digitsValue (fun c => c.toNat - 48) ((Nat.repr n).data.map Char.toLower) = n := by
  rw [digitsValue_map_toLower]
  have := (digitsValue_toDigitsCore (n + 1) n [] (by omega)).2
  simpa [Nat.repr, Nat.toDigits, digitsValue, List.asString] using this

theorem toDigitsCore_ascii (fuel : Nat) : ∀ (n : Nat) (ds : List Char),
    (∀ c ∈ ds, c.toNat < 128) → ∀ c ∈ Nat.toDigitsCore 10 fuel n ds, c.toNat < 128 := by
  induction fuel with
  | zero => intro n ds hds; simpa [Nat.toDigitsCore] using hds
  | succ fuel ih =>
    intro n ds hds
    have hd : ∀ c ∈ Nat.digitChar (n % 10) :: ds, c.toNat < 128 := by
      intro c hc
      rcases List.mem_cons.1 hc with h | h
      · rw [h]
        have hlt : n % 10 < 10 := Nat.mod_lt _ (by decide)
        generalize n % 10 = k at hlt
        interval_cases k <;> decide
      · exact hds c h
    by_cases h0 : n / 10 = 0
    · simpa [Nat.toDigitsCore, h0] using hd
    · simp only [Nat.toDigitsCore, h0, if_false]
      exact ih (n / 10) _ hd

/-- On a decimal representation every lowercasing is the ASCII one. -/
theorem map_lower_repr (L : Lowering) (n : Nat) :
    (Nat.repr n).data.map L.lower = (Nat.repr n).data.map Char.toLower := by
  apply List.map_congr_left
  intro c hc
  exact L.ascii c (toDigitsCore_ascii (n + 1) n [] (by simp) c hc)

/-- The lowercased suffix names `base_1, base_2, ...` are pairwise different. -/
theorem toLower_suffixName_injective (L : Lowering) (base : String) (i j : Nat)
    (hij : toLower L (suffixName base i) = toLower L (suffixName base j)) : i = j := by
  have hdata := congrArg String.data hij
  simp only [toLower, suffixName, String.data_append, List.map_append] at hdata
  have hrepr := List.append_cancel_left hdata
  rw [map_lower_repr, map_lower_repr] at hrepr
  have hv := congrArg (digitsValue fun c => c.toNat - 48) hrepr
  rwa [digitsValue_repr, digitsValue_repr] at hv

/-- The suffix loop, started at `i` with `fuel` iterations allowed, returns the name of the
least `j ≥ i` whose lowercased name is unregistered, when there is one below `i + fuel`. -/
theorem suffixLoop_least (L : Lowering) (base : String) (used : Registry) (fuel : Nat) :
    ∀ (i j : Nat), i ≤ j → j < i + fuel → toLower L (suffixName base j) ∉ used →
      ∃ m, i ≤ m ∧ m ≤ j ∧ suffixLoop L base used fuel i = some (suffixName base m) ∧
        toLower L (suffixName base m) ∉ used ∧
        ∀ m', i ≤ m' → m' < m → toLower L (suffixName base m') ∈ used := by
  induction fuel with
  | zero => intro i j hij hj; omega
  | succ fuel ih =>
    intro i j hij hj hfree
    by_cases hi : toLower L (suffixName base i) ∈ used
    · have hne : i ≠ j := by
        rintro rfl
        exact hfree hi
      obtain ⟨m, hm1, hm2, hloop, hmfree, hleast⟩ := ih (i + 1) j (by omega) (by omega) hfree
      refine ⟨m, by omega, hm2, ?_, hmfree, ?_⟩
      · simp only [suffixLoop, hi, if_true]; exact hloop
      · intro m' h1 h2
        by_cases hm' : m' = i
        · rw [hm']; exact hi
        · exact hleast m' (by omega) h2
    · exact ⟨i, le_refl _, hij, by simp only [suffixLoop, hi, if_false], hi,
        by intro m' h1 h2; omega⟩

/-- Among the names `base_1 .. base_(n+1)` one is unregistered, when the registry holds `n`
keys. -/
theorem exists_free_suffix (L : Lowering) (base : String) (used : Registry) :
    ∃ j, 1 ≤ j ∧ j ≤ used.length + 1 ∧ toLower L (suffixName base j) ∉ used := by
  by_contra hall
  push_neg at hall
  have hcard : (Finset.Icc 1 (used.length + 1)).card ≤ used.toFinset.card := by
    apply Finset.card_le_card_of_injOn (fun j => toLower L (suffixName base j))
    · intro j hj
      have := Finset.mem_Icc.1 hj
      exact List.mem_toFinset.2 (hall j this.1 this.2)
    · intro a _ b _ hab
      exact toLower_suffixName_injective L base a b hab
  have h1 : (Finset.Icc 1 (used.length + 1)).card = used.length + 1 := by simp
  have h2 := List.toFinset_card_le used
  omega

/-- One call of `uniqueDisplayName` with more fuel than the registry has keys: it returns
a name whose lowercase is unregistered and registers exactly that key. -/
theorem uniqueDisplayName_fresh (L : Lowering) (sep : Char) (base relPath : String)
    (used : Registry)
    (fuel : Nat) (hf : used.length < fuel) :
    ∃ name, uniqueDisplayName L sep base relPath used fuel = some (name, toLower L name :: used) ∧
      toLower L name ∉ used := by
  unfold uniqueDisplayName
  by_cases hb : toLower L base ∈ used
  · by_cases hc : candidateName L sep base relPath ≠ "" ∧
        toLower L (candidateName L sep base relPath) ∉ used
    · exact ⟨candidateName L sep base relPath, by simp [hb, hc], hc.2⟩
    · obtain ⟨j, hj1, hj2, hfree⟩ := exists_free_suffix L base used
      obtain ⟨m, _, _, hloop, hmfree, _⟩ :=
        suffixLoop_least L base used fuel 1 j hj1 (by omega) hfree
      refine ⟨suffixName base m, ?_, hmfree⟩
      simp only [hb, not_true_eq_false, if_false, hc, hloop, Option.map_some']
  · exact ⟨base, by simp [hb], hb⟩

/-- A sequence of calls on a shared registry, with more fuel than the starting registry has
keys plus the number of calls: all calls return, the lowercased names are unregistered at
the start and pairwise different, and the final registry is the starting one plus them. -/
theorem uniqueDisplayNames_fresh (L : Lowering) (sep : Char) (calls : List (String × String)) :
    ∀ (used : Registry) (fuel : Nat), used.length + calls.length < fuel →
      ∃ names, uniqueDisplayNames L sep calls used fuel =
          some (names, (names.map (toLower L)).reverse ++ used) ∧
        names.length = calls.length ∧
        (∀ name ∈ names, toLower L name ∉ used) ∧ (names.map (toLower L)).Nodup := by
  induction calls with
  | nil => intro used fuel _; exact ⟨[], by simp [uniqueDisplayNames]⟩
  | cons c rest ih =>
    intro used fuel hf
    obtain ⟨base, relPath⟩ := c
    simp only [List.length_cons] at hf
    obtain ⟨name, hcall, hfresh⟩ :=
      uniqueDisplayName_fresh L sep base relPath used fuel (by omega)
    obtain ⟨names, hrest, hlen, hnew, hnodup⟩ :=
      ih (toLower L name :: used) fuel (by simp only [List.length_cons]; omega)
    refine ⟨name :: names, ?_, by simp [hlen], ?_, ?_⟩
    · simp [uniqueDisplayNames, hcall, hrest]
    · intro x hx
      rcases List.mem_cons.1 hx with rfl | hx
      · exact hfresh
      · exact fun hmem => hnew x hx (List.mem_cons_of_mem _ hmem)
    · rw [List.map_cons, List.nodup_cons]
      refine ⟨?_, hnodup⟩
      intro hmem
      obtain ⟨y, hy, hyx⟩ := List.mem_map.1 hmem
      exact hnew y hy (by rw [hyx]; exact List.mem_cons_self _ _)


/-- C2: for every starting registry `used` and every finite sequence `calls` of
`uniqueDisplayName` calls sharing it (with more fuel than `used` has keys plus the number of
calls), every single call, whatever the registry `reg` it finds, returns a name whose
lowercase is not in `reg` and leaves the registry `reg` plus exactly that key; hence the
whole sequence returns, its names are pairwise different after lowercasing and unregistered
at the start, and the final registry is `used` plus their lowercase forms. -/
theorem uniqueDisplayName_registers_fresh (L : Lowering) (sep : Char)
    (calls : List (String × String))
    (used : Registry) (fuel : Nat) (hf : used.length + calls.length < fuel) :
    (∀ (base relPath : String) (reg : Registry), reg.length < fuel →
      ∃ name, uniqueDisplayName L sep base relPath reg fuel = some (name, toLower L name :: reg) ∧
        toLower L name ∉ reg) ∧
    ∃ names, uniqueDisplayNames L sep calls used fuel =
        some (names, (names.map (toLower L)).reverse ++ used) ∧
      names.length = calls.length ∧
      (∀ name ∈ names, toLower L name ∉ used) ∧ (names.map (toLower L)).Nodup :=
  ⟨fun base relPath reg hreg => uniqueDisplayName_fresh L sep base relPath reg fuel hreg,
    uniqueDisplayNames_fresh L sep calls used fuel hf⟩

/-- C2, witness: two files named `house` (in different letter case) on an empty registry. -/
theorem uniqueDisplayName_registers_fresh_witness :
    ([] : Registry).length + [("house", "dz/a/house.p3d"), ("House", "dz/b/House.p3d")].length
        < 3 ∧
    ((∀ (base relPath : String) (reg : Registry), reg.length < 3 →
      ∃ name, uniqueDisplayName sampleL '/' base relPath reg 3 = some
          (name, toLower sampleL name :: reg) ∧
        toLower sampleL name ∉ reg) ∧
    ∃ names, uniqueDisplayNames sampleL '/'
        [("house", "dz/a/house.p3d"), ("House", "dz/b/House.p3d")]
          [] 3 = some (names, (names.map (toLower sampleL)).reverse ++ []) ∧
      names.length = [("house", "dz/a/house.p3d"), ("House", "dz/b/House.p3d")].length ∧
      (∀ name ∈ names, toLower sampleL name ∉ ([] : Registry)) ∧
          (names.map (toLower sampleL)).Nodup) :=
  ⟨by decide, uniqueDisplayName_registers_fresh sampleL '/'
    [("house", "dz/a/house.p3d"), ("House", "dz/b/House.p3d")] [] 3 (by decide)⟩


/-! ## The heap after `insert`, field by field -/

theorem getElem?_incCount (h : Heap) (n i : Nat) :
    (incCount h n)[i]? =
      (h[i]?).map fun nd => if i = n then { nd with Count := nd.Count + 1 } else nd := by
  unfold incCount
  cases hn : h[n]? with
  | none =>
    by_cases hin : i = n
    · subst hin; simp [hn]
    · cases h[i]? <;> simp [hin]
  | some nd =>
    by_cases hin : i = n
    · subst hin
      have hlt : i < h.length := by
        by_contra hge
        rw [List.getElem?_eq_none (by omega)] at hn
        cases hn
      simp [List.getElem?_set_self hlt, hn]
    · rw [List.getElem?_set_ne (Ne.symm hin)]
      cases h[i]? <;> simp [hin]

theorem getElem?_setChild (h : Heap) (n : Nat) (s : String) (ch i : Nat) :
    (setChild h n s ch)[i]? =
      (h[i]?).map fun nd =>
        if i = n then { nd with Children := (s, ch) :: nd.Children } else nd := by
  unfold setChild
  cases hn : h[n]? with
  | none =>
    by_cases hin : i = n
    · subst hin; simp [hn]
    · cases h[i]? <;> simp [hin]
  | some nd =>
    by_cases hin : i = n
    · subst hin
      have hlt : i < h.length := by
        by_contra hge
        rw [List.getElem?_eq_none (by omega)] at hn
        cases hn
      simp [List.getElem?_set_self hlt, hn]
    · rw [List.getElem?_set_ne (Ne.symm hin)]
      cases h[i]? <;> simp [hin]

theorem length_incCount (h : Heap) (n : Nat) : (incCount h n).length = h.length := by
  unfold incCount
  cases h[n]? <;> simp

theorem length_setChild (h : Heap) (n : Nat) (s : String) (ch : Nat) :
    (setChild h n s ch).length = h.length := by
  unfold setChild
  cases h[n]? <;> simp

theorem parentOf_incCount (h : Heap) (n : Nat) (p : Ptr) :
    parentOf (incCount h n) p = parentOf h p := by
  cases p with
  | none => rfl
  | some i =>
    simp only [parentOf, deref, Option.bind, getElem?_incCount]
    cases h[i]? with
    | none => rfl
    | some nd => by_cases hin : i = n <;> simp [hin]

theorem nameOf_incCount (h : Heap) (n : Nat) (p : Ptr) :
    nameOf (incCount h n) p = nameOf h p := by
  cases p with
  | none => rfl
  | some i =>
    simp only [nameOf, deref, Option.bind, getElem?_incCount]
    cases h[i]? with
    | none => rfl
    | some nd => by_cases hin : i = n <;> simp [hin]

theorem childOf_incCount (h : Heap) (n i : Nat) (s : String) :
    childOf (incCount h n) i s = childOf h i s := by
  simp only [childOf, getElem?_incCount]
  cases h[i]? with
  | none => rfl
  | some nd => by_cases hin : i = n <;> simp [hin]

theorem childKeys_incCount (h : Heap) (n i : Nat) :
    childKeys (incCount h n) i = childKeys h i := by
  simp only [childKeys, getElem?_incCount]
  cases h[i]? with
  | none => rfl
  | some nd => by_cases hin : i = n <;> simp [hin]

theorem countOf_incCount (h : Heap) (n i : Nat) (hn : n < h.length) :
    countOf (incCount h n) (some i) = countOf h (some i) + if i = n then 1 else 0 := by
  simp only [countOf, deref, Option.bind, getElem?_incCount]
  cases hi : h[i]? with
  | none =>
    have : i ≠ n := by
      rintro rfl
      rw [List.getElem?_eq_none_iff] at hi
      omega
    simp [this]
  | some nd => by_cases hin : i = n <;> simp [hin]

/-- The heap after `ch = newNode(s, n); n.Children[s] = ch`, before the count is raised. -/
theorem getElem?_addChild (h : Heap) (n : Nat) (s : String) (i : Nat) (hn : n < h.length) :
    (setChild (h ++ [newNode s (some n)]) n s h.length)[i]? =
      if i = h.length then some (newNode s (some n))
      else (h[i]?).map fun nd =>
        if i = n then { nd with Children := (s, h.length) :: nd.Children } else nd := by
  rw [getElem?_setChild, List.getElem?_append]
  by_cases hi : i < h.length
  · have h1 : i ≠ h.length := by omega
    simp [hi, h1]
  · by_cases h2 : i = h.length
    · have h3 : i ≠ n := by omega
      simp [h2, h3]
      intro h4; omega
    · have h3 : i ≠ n := by omega
      have h4 : h[i]? = none := List.getElem?_eq_none (by omega)
      have h5 : ([newNode s (some n)] : List Node)[i - h.length]? = none :=
        List.getElem?_eq_none (by simp; omega)
      simp [hi, h2, h4, h5]

theorem length_addChild (h : Heap) (n : Nat) (s : String) :
    (setChild (h ++ [newNode s (some n)]) n s h.length).length = h.length + 1 := by
  rw [length_setChild]; simp

theorem parentOf_addChild (h : Heap) (n : Nat) (s : String) (i : Nat) (hn : n < h.length) :
    parentOf (setChild (h ++ [newNode s (some n)]) n s h.length) (some i) =
      if i = h.length then some n else parentOf h (some i) := by
  simp only [parentOf, deref, Option.bind, getElem?_addChild h n s i hn]
  by_cases hi : i = h.length
  · simp [hi, newNode]
  · simp only [hi, if_false]
    cases h[i]? with
    | none => rfl
    | some nd => by_cases hin : i = n <;> simp [hin]

theorem nameOf_addChild (h : Heap) (n : Nat) (s : String) (i : Nat) (hn : n < h.length) :
    nameOf (setChild (h ++ [newNode s (some n)]) n s h.length) (some i) =
      if i = h.length then s else nameOf h (some i) := by
  simp only [nameOf, deref, Option.bind, getElem?_addChild h n s i hn]
  by_cases hi : i = h.length
  · simp [hi, newNode]
  · simp only [hi, if_false]
    cases h[i]? with
    | none => rfl
    | some nd => by_cases hin : i = n <;> simp [hin]

theorem countOf_addChild (h : Heap) (n : Nat) (s : String) (i : Nat) (hn : n < h.length) :
    countOf (setChild (h ++ [newNode s (some n)]) n s h.length) (some i) =
      countOf h (some i) := by
  simp only [countOf, deref, Option.bind, getElem?_addChild h n s i hn]
  by_cases hi : i = h.length
  · have : h[i]? = none := List.getElem?_eq_none (by omega)
    simp [hi, newNode]
  · simp only [hi, if_false]
    cases h[i]? with
    | none => rfl
    | some nd => by_cases hin : i = n <;> simp [hin]

theorem childOf_addChild (h : Heap) (n : Nat) (s : String) (i : Nat) (t : String)
    (hn : n < h.length) :
    childOf (setChild (h ++ [newNode s (some n)]) n s h.length) i t =
      if i = n ∧ t = s then some h.length else childOf h i t := by
  simp only [childOf, getElem?_addChild h n s i hn]
  by_cases hi : i = h.length
  · have h1 : h[i]? = none := List.getElem?_eq_none (by omega)
    have h2 : i ≠ n := by omega
    subst hi
    simp [newNode, h2, h1]
  · simp only [hi, if_false]
    cases hh : h[i]? with
    | none =>
      have : i ≠ n := by
        rintro rfl
        rw [List.getElem?_eq_none_iff] at hh
        omega
      simp [this]
    | some nd =>
      by_cases hin : i = n
      · by_cases hts : t = s
        · simp [hin, hts, List.lookup_cons]
        · have hbeq : (t == s) = false := by simpa using hts
          simp [hin, hts, List.lookup_cons, hbeq]
      · simp [hin]

theorem childKeys_addChild (h : Heap) (n : Nat) (s : String) (i : Nat) (hn : n < h.length) :
    childKeys (setChild (h ++ [newNode s (some n)]) n s h.length) i =
      if i = n then s :: childKeys h i else childKeys h i := by
  simp only [childKeys, getElem?_addChild h n s i hn]
  by_cases hi : i = h.length
  · have h1 : h[i]? = none := List.getElem?_eq_none (by omega)
    have h2 : i ≠ n := by omega
    subst hi
    simp [newNode, h2, h1]
  · simp only [hi, if_false]
    cases hh : h[i]? with
    | none =>
      have : i ≠ n := by
        rintro rfl
        rw [List.getElem?_eq_none_iff] at hh
        omega
      simp [this]
    | some nd => by_cases hin : i = n <;> simp [hin]


theorem childOf_valid {h : Heap} {i c : Nat} {s : String} (hc : childOf h i s = some c) :
    i < h.length := by
  by_contra hlt
  have : h[i]? = none := List.getElem?_eq_none (by omega)
  simp [childOf, this] at hc

theorem childOf_none_not_mem_keys {h : Heap} {i : Nat} {s : String}
    (hc : childOf h i s = none) : s ∉ childKeys h i := by
  unfold childOf at hc
  unfold childKeys
  cases hh : h[i]? with
  | none => simp
  | some nd =>
    rw [hh] at hc
    simp only [List.lookup_eq_none_iff] at hc
    intro hmem
    obtain ⟨⟨k, v⟩, hkv, hk⟩ := List.mem_map.1 hmem
    simp only at hk
    subst hk
    have := hc (k, v) hkv
    simp at this

/-- One iteration of the loop of `insert` on a well-formed tree meets `StepSpec`. -/
theorem insertLoop_step {h : Heap} {r : Nat} (hwf : WellFormed h r) (n : Nat)
    (hn : n < h.length) (s : String) (rest : List String) :
    ∃ h1 c, insertLoop h n (s :: rest) = insertLoop h1 c rest ∧ StepSpec h n s h1 c := by
  cases hc : childOf h n s with
  | some c =>
    have hcv : c < h.length := parentOf_valid (hwf.child_ok n s c hc).1
    refine ⟨incCount h c, c, by simp only [insertLoop, hc], ?_⟩
    exact {
      length_le := by rw [length_incCount]
      parent_eq := fun i _ => parentOf_incCount h c (some i)
      name_eq := fun i _ => nameOf_incCount h c (some i)
      child_eq := by
        intro i t
        rw [childOf_incCount]
        by_cases hit : i = n ∧ t = s
        · rw [if_pos hit, hit.1, hit.2, hc]
        · rw [if_neg hit]
      count_eq := fun i => countOf_incCount h c i hcv
      keys_eq := fun i => Or.inl (childKeys_incCount h c i)
      old_or_new := Or.inl ⟨hc, length_incCount h c⟩ }
  | none =>
    refine ⟨incCount (setChild (h ++ [newNode s (some n)]) n s h.length) h.length, h.length,
      by simp only [insertLoop, hc], ?_⟩
    have hlen := length_addChild h n s
    exact {
      length_le := by rw [length_incCount, hlen]; omega
      parent_eq := by
        intro i hi
        rw [parentOf_incCount, parentOf_addChild h n s i hn, if_neg (by omega)]
      name_eq := by
        intro i hi
        rw [nameOf_incCount, nameOf_addChild h n s i hn, if_neg (by omega)]
      child_eq := by
        intro i t
        rw [childOf_incCount, childOf_addChild h n s i t hn]
      count_eq := by
        intro i
        rw [countOf_incCount _ _ _ (by rw [hlen]; omega), countOf_addChild h n s i hn]
      keys_eq := by
        intro i
        rw [childKeys_incCount, childKeys_addChild h n s i hn]
        by_cases hin : i = n
        · right
          exact ⟨hin, hc, by rw [if_pos hin]⟩
        · left
          rw [if_neg hin]
      old_or_new := Or.inr ⟨hc, rfl, by rw [length_incCount, hlen],
        by rw [parentOf_incCount, parentOf_addChild h n s _ hn, if_pos rfl],
        by rw [nameOf_incCount, nameOf_addChild h n s _ hn, if_pos rfl]⟩ }

/-- Depths are kept when the heap grows and the old parent pointers stay. -/
theorem IsDepth.mono {h h1 : Heap} (hlen : h.length ≤ h1.length)
    (hpar : ∀ i, i < h.length → parentOf h1 (some i) = parentOf h (some i))
    {i d : Nat} (hd : IsDepth h i d) : IsDepth h1 i d := by
  induction hd with
  | root hi hp => exact IsDepth.root (by omega) (by rw [hpar _ hi]; exact hp)
  | step hp _ ih => exact IsDepth.step (by rw [hpar _ (parentOf_valid hp)]; exact hp) ih

theorem StepSpec.valid_child {h h1 : Heap} {n c r : Nat} {s : String}
    (hs : StepSpec h n s h1 c) (hwf : WellFormed h r) : c < h1.length := by
  rcases hs.old_or_new with ⟨hc, hl⟩ | ⟨_, hc, hl, _, _⟩
  · rw [hl]; exact parentOf_valid (hwf.child_ok n s c hc).1
  · omega

/-- One iteration of the loop of `insert` keeps the tree well-formed. -/
theorem StepSpec.wellFormed {h h1 : Heap} {n c r : Nat} {s : String}
    (hs : StepSpec h n s h1 c) (hwf : WellFormed h r) (hn : n < h.length) :
    WellFormed h1 r := by
  have hlen := hs.length_le
  have hvalid : ∀ i, i < h1.length → i < h.length ∨
      (i = c ∧ parentOf h1 (some c) = some n ∧ nameOf h1 (some c) = s ∧
        childOf h n s = none ∧ c = h.length) := by
    intro i hi
    rcases hs.old_or_new with ⟨_, hl⟩ | ⟨hnone, hc, hl, hp, hnm⟩
    · left; omega
    · by_cases hic : i = c
      · right; exact ⟨hic, hp, hnm, hnone, hc⟩
      · left; omega
  refine ⟨by have := hwf.root_valid; omega, ?_, ?_, ?_, ?_, ?_, ?_⟩
  · rw [hs.parent_eq r hwf.root_valid]; exact hwf.root_parent
  · intro i hi hp
    rcases hvalid i hi with hold | ⟨hic, hpc, _, _, _⟩
    · rw [hs.parent_eq i hold] at hp
      exact hwf.only_root i hold hp
    · rw [hic, hpc] at hp; cases hp
  · intro i t c' hch
    rw [hs.child_eq] at hch
    by_cases hit : i = n ∧ t = s
    · rw [if_pos hit] at hch
      cases hch
      obtain ⟨rfl, rfl⟩ := hit
      rcases hs.old_or_new with ⟨hc, _⟩ | ⟨_, _, _, hp, hnm⟩
      · have hok := hwf.child_ok i t c hc
        have hcv := parentOf_valid hok.1
        rw [hs.parent_eq c hcv, hs.name_eq c hcv]
        exact hok
      · exact ⟨hp, hnm⟩
    · rw [if_neg hit] at hch
      have hok := hwf.child_ok i t c' hch
      have hcv := parentOf_valid hok.1
      rw [hs.parent_eq c' hcv, hs.name_eq c' hcv]
      exact hok
  · intro i p hp
    rcases hvalid i (parentOf_valid hp) with hold | ⟨hic, hpc, hnm, _, _⟩
    · rw [hs.parent_eq i hold] at hp
      rw [hs.name_eq i hold, hs.child_eq]
      have hpo := hwf.parent_ok i p hp
      by_cases hit : p = n ∧ nameOf h (some i) = s
      · rw [if_pos hit]
        rcases hs.old_or_new with ⟨hc, _⟩ | ⟨hnone, _, _, _, _⟩
        · rw [hit.1, hit.2, hc] at hpo; exact hpo
        · rw [hit.1, hit.2, hnone] at hpo; cases hpo
      · rw [if_neg hit]; exact hpo
    · subst hic
      rw [hpc] at hp
      cases hp
      rw [hnm, hs.child_eq, if_pos ⟨rfl, rfl⟩]
  · intro i
    rcases hs.keys_eq i with hk | ⟨_, hnone, hk⟩
    · rw [hk]; exact hwf.keys_nodup i
    · rw [hk]
      refine List.nodup_cons.2 ⟨?_, hwf.keys_nodup i⟩
      subst_vars
      exact childOf_none_not_mem_keys hnone
  · intro i hi
    have hmono : ∀ {j d}, IsDepth h j d → IsDepth h1 j d :=
      fun hd => hd.mono hlen hs.parent_eq
    rcases hvalid i hi with hold | ⟨hic, hpc, _, _, _⟩
    · obtain ⟨d, hd⟩ := hwf.has_depth i hold
      exact ⟨d, hmono hd⟩
    · obtain ⟨d, hd⟩ := hwf.has_depth n hn
      exact ⟨d + 1, IsDepth.step (by rw [hic]; exact hpc) (hmono hd)⟩


/-! ## Paths in a well-formed tree -/

theorem descend_nil (h : Heap) (n : Nat) : descend h n [] = some n := rfl

theorem descend_snoc (h : Heap) (n : Nat) (q : List String) (s : String) :
    descend h n (q ++ [s]) = (descend h n q).bind fun i => childOf h i s := by
  simp [descend, List.foldl_append]

theorem foldl_child_none (h : Heap) (q : List String) :
    q.foldl (fun (p : Ptr) s => p.bind fun i => childOf h i s) none = none := by
  induction q with
  | nil => rfl
  | cons s q ih => simpa [List.foldl_cons] using ih

theorem descend_cons (h : Heap) (n : Nat) (s : String) (q : List String) :
    descend h n (s :: q) = (childOf h n s).bind fun c => descend h c q := by
  simp only [descend, List.foldl_cons, Option.some_bind]
  cases childOf h n s with
  | none => simpa using foldl_child_none h q
  | some c => rfl

theorem WellFormed.no_self_parent {h : Heap} {r : Nat} (hwf : WellFormed h r) (i : Nat) :
    parentOf h (some i) ≠ some i := by
  intro hp
  obtain ⟨d, hd⟩ := hwf.has_depth i (parentOf_valid hp)
  have := hd.unique (IsDepth.step hp hd)
  omega

/-- The last step of a path: the node reached has the node before it as parent and the
last segment as name. -/
theorem WellFormed.descend_snoc_some {h : Heap} {r : Nat} (hwf : WellFormed h r)
    {n : Nat} {q : List String} {s : String} {i : Nat}
    (hq : descend h n (q ++ [s]) = some i) :
    ∃ a, descend h n q = some a ∧ childOf h a s = some i ∧
      parentOf h (some i) = some a ∧ nameOf h (some i) = s := by
  rw [descend_snoc] at hq
  cases ha : descend h n q with
  | none => rw [ha] at hq; cases hq
  | some a =>
    rw [ha] at hq
    have hc : childOf h a s = some i := hq
    exact ⟨a, rfl, hc, hwf.child_ok a s i hc⟩

/-- A node reached from a node on the heap is on the heap. -/
theorem WellFormed.descend_valid {h : Heap} {r : Nat} (hwf : WellFormed h r)
    {n : Nat} (hn : n < h.length) {q : List String} {i : Nat}
    (hq : descend h n q = some i) : i < h.length := by
  induction q using List.reverseRecOn generalizing i with
  | nil => simp only [descend_nil, Option.some.injEq] at hq; omega
  | append_singleton q s _ =>
    obtain ⟨a, _, _, hp, _⟩ := hwf.descend_snoc_some hq
    exact parentOf_valid hp

/-- A node has one directory path only. -/
theorem WellFormed.path_unique {h : Heap} {r : Nat} (hwf : WellFormed h r)
    {q1 q2 : List String} {i : Nat}
    (h1 : descend h r q1 = some i) (h2 : descend h r q2 = some i) : q1 = q2 := by
  induction q1 using List.reverseRecOn generalizing q2 i with
  | nil =>
    simp only [descend_nil, Option.some.injEq] at h1
    subst h1
    induction q2 using List.reverseRecOn with
    | nil => rfl
    | append_singleton q2 s _ =>
      obtain ⟨a, _, _, hp, _⟩ := hwf.descend_snoc_some h2
      rw [hwf.root_parent] at hp; cases hp
  | append_singleton q1 s1 ih =>
    obtain ⟨a1, ha1, _, hp1, hn1⟩ := hwf.descend_snoc_some h1
    induction q2 using List.reverseRecOn with
    | nil =>
      simp only [descend_nil, Option.some.injEq] at h2
      subst h2
      rw [hwf.root_parent] at hp1; cases hp1
    | append_singleton q2 s2 _ =>
      obtain ⟨a2, ha2, _, hp2, hn2⟩ := hwf.descend_snoc_some h2
      rw [hp1] at hp2
      cases hp2
      rw [ih ha1 ha2, ← hn1, ← hn2]

/-- The node with path `q` is at depth `|q|`. -/
theorem WellFormed.descend_depth {h : Heap} {r : Nat} (hwf : WellFormed h r)
    {q : List String} {i : Nat} (hq : descend h r q = some i) : IsDepth h i q.length := by
  induction q using List.reverseRecOn generalizing i with
  | nil =>
    simp only [descend_nil, Option.some.injEq] at hq
    subst hq
    exact IsDepth.root hwf.root_valid hwf.root_parent
  | append_singleton q s ih =>
    obtain ⟨a, ha, _, hp, _⟩ := hwf.descend_snoc_some hq
    rw [List.length_append]
    exact IsDepth.step hp (ih ha)

/-- Every node of the heap has a directory path. -/
theorem WellFormed.reachable {h : Heap} {r : Nat} (hwf : WellFormed h r)
    {i : Nat} (hi : i < h.length) : ∃ q, descend h r q = some i := by
  obtain ⟨d, hd⟩ := hwf.has_depth i hi
  clear hi
  induction hd with
  | root hv hp => exact ⟨[], by rw [descend_nil, hwf.only_root _ hv hp]⟩
  | @step j p _ hp _ ih =>
    obtain ⟨q, hq⟩ := ih
    refine ⟨q ++ [nameOf h (some j)], ?_⟩
    rw [descend_snoc, hq]
    exact hwf.parent_ok j p hp

/-- The tree after one iteration of the loop of `insert` at the node with path `p0`: the
path `p0 ++ [s]` leads to the child moved to, every other path leads where it led. -/
theorem StepSpec.descend_eq {h h1 : Heap} {n c r : Nat} {s : String}
    (hs : StepSpec h n s h1 c) (hwf : WellFormed h r) {p0 : List String}
    (hp0 : descend h r p0 = some n) (q : List String) :
    descend h1 r q = if q = p0 ++ [s] then some c else descend h r q := by
  have hcn : c ≠ n := by
    rcases hs.old_or_new with ⟨hc, _⟩ | ⟨_, hc, _, _, _⟩
    · rintro rfl
      exact hwf.no_self_parent c (hwf.child_ok c s c hc).1
    · have := hwf.descend_valid hwf.root_valid hp0
      omega
  induction q using List.reverseRecOn with
  | nil => simp [descend_nil]
  | append_singleton q t ih =>
    rw [descend_snoc, ih, descend_snoc]
    by_cases hq : q = p0 ++ [s]
    · have hne : q ++ [t] ≠ p0 ++ [s] := by
        intro heq
        have := congrArg List.length heq
        rw [hq] at this
        simp at this
      rw [if_pos hq, if_neg hne, Option.some_bind, hs.child_eq, if_neg (by simp [hcn])]
      rcases hs.old_or_new with ⟨hc, _⟩ | ⟨hnone, _, _, _, _⟩
      · rw [hq, descend_snoc, hp0, Option.some_bind, hc, Option.some_bind]
      · rw [hq, descend_snoc, hp0, Option.some_bind, hnone, Option.none_bind]
        cases hct : childOf h c t with
        | none => rfl
        | some x =>
          have := childOf_valid hct
          have := hs.old_or_new
          rcases hs.old_or_new with ⟨hc, _⟩ | ⟨_, hc, _, _, _⟩
          · rw [hnone] at hc; cases hc
          · omega
    · rw [if_neg hq]
      cases hd : descend h r q with
      | none =>
        have hne : q ++ [t] ≠ p0 ++ [s] := by
          intro heq
          have := (List.append_inj' heq rfl).1
          rw [this, hp0] at hd
          cases hd
        rw [if_neg hne, Option.none_bind, Option.none_bind]
      | some i =>
        rw [Option.some_bind, Option.some_bind, hs.child_eq]
        by_cases hit : i = n ∧ t = s
        · obtain ⟨rfl, rfl⟩ := hit
          have := hwf.path_unique hd hp0
          rw [if_pos ⟨rfl, rfl⟩, if_pos (by rw [this])]
        · have hne : q ++ [t] ≠ p0 ++ [s] := by
            intro heq
            have h1 := (List.append_inj' heq rfl).1
            have h2 := (List.append_inj' heq rfl).2
            simp only [List.cons.injEq, and_true] at h2
            rw [h1, hp0] at hd
            cases hd
            exact hit ⟨rfl, h2⟩
          rw [if_neg hit, if_neg hne]


theorem countOf_invalid {h : Heap} {i : Nat} (hi : h.length ≤ i) : countOf h (some i) = 0 := by
  have : h[i]? = none := List.getElem?_eq_none hi
  simp [countOf, deref, this]

/-- The counts by path after one iteration of the loop of `insert` at the node with path
`p0`: the count at `p0 ++ [s]` is raised by one (from 0 when the node is new), every other
path keeps its count. -/
theorem StepSpec.pathCount_eq {h h1 : Heap} {n c r : Nat} {s : String}
    (hs : StepSpec h n s h1 c) (hwf : WellFormed h r) {p0 : List String}
    (hp0 : descend h r p0 = some n) (q : List String) :
    pathCount h1 r q =
      if q = p0 ++ [s] then some ((pathCount h r q).getD 0 + 1) else pathCount h r q := by
  unfold pathCount
  rw [hs.descend_eq hwf hp0 q]
  by_cases hq : q = p0 ++ [s]
  · rw [if_pos hq, if_pos hq, Option.map_some', hs.count_eq, if_pos rfl]
    rcases hs.old_or_new with ⟨hc, _⟩ | ⟨hnone, hc, _, _, _⟩
    · rw [hq, descend_snoc, hp0, Option.some_bind, hc]; rfl
    · rw [hq, descend_snoc, hp0, Option.some_bind, hnone, countOf_invalid (by omega)]; rfl
  · rw [if_neg hq, if_neg hq]
    cases hd : descend h r q with
    | none => rfl
    | some i =>
      have hic : i ≠ c := by
        rintro rfl
        rcases hs.old_or_new with ⟨hc, _⟩ | ⟨_, hc, _, _, _⟩
        · have : descend h r (p0 ++ [s]) = some i := by
            rw [descend_snoc, hp0, Option.some_bind, hc]
          exact hq (hwf.path_unique hd this)
        · have := hwf.descend_valid hwf.root_valid hd
          omega
      simp only [Option.map_some', hs.count_eq, if_neg hic, add_zero]

theorem StepSpec.extends {h h1 : Heap} {n c : Nat} {s : String}
    (hs : StepSpec h n s h1 c) : Extends h h1 := by
  refine ⟨hs.length_le, hs.parent_eq, hs.name_eq, ?_⟩
  intro i t x hx
  rw [hs.child_eq]
  by_cases hit : i = n ∧ t = s
  · rw [if_pos hit]
    obtain ⟨rfl, rfl⟩ := hit
    rcases hs.old_or_new with ⟨hc, _⟩ | ⟨hnone, _, _, _, _⟩
    · rw [hc] at hx; exact hx
    · rw [hnone] at hx; cases hx
  · rw [if_neg hit]; exact hx

theorem Extends.refl (h : Heap) : Extends h h :=
  ⟨le_refl _, fun _ _ => rfl, fun _ _ => rfl, fun _ _ _ hx => hx⟩

theorem Extends.trans {h h1 h2 : Heap} (h01 : Extends h h1) (h12 : Extends h1 h2) :
    Extends h h2 := by
  have hl := h01.length_le
  refine ⟨le_trans h01.length_le h12.length_le, ?_, ?_, ?_⟩
  · intro i hi
    rw [h12.parent_eq i (by omega), h01.parent_eq i hi]
  · intro i hi
    rw [h12.name_eq i (by omega), h01.name_eq i hi]
  · intro i t c hc
    exact h12.child_mono i t c (h01.child_mono i t c hc)

/-- A path of the old tree leads to the same node in the extended one. -/
theorem Extends.descend_mono {h h1 : Heap} (hext : Extends h h1) {n : Nat}
    {q : List String} {i : Nat} (hq : descend h n q = some i) : descend h1 n q = some i := by
  induction q using List.reverseRecOn generalizing i with
  | nil => exact hq
  | append_singleton q s ih =>
    rw [descend_snoc] at hq ⊢
    cases ha : descend h n q with
    | none => rw [ha] at hq; cases hq
    | some a =>
      rw [ha] at hq
      rw [ih ha]
      exact hext.child_mono a s i hq

theorem prefix_next {p0 rest q : List String} {s : String}
    (hq : q <+: p0 ++ s :: rest) (hlen : q.length = p0.length + 1) : q = p0 ++ [s] := by
  have h1 : p0 ++ [s] <+: p0 ++ s :: rest := by
    refine ⟨rest, by simp⟩
  exact (List.prefix_of_prefix_length_le hq h1 (by simp [hlen])).eq_of_length (by simp [hlen])

/-- The loop of `insert`, started at the node `n` with path `p0` of a well-formed tree:
it ends at the node with path `p0 ++ segs`, keeps the tree well-formed and every old node,
and raises by one the count of exactly the paths that extend `p0` properly and are
prefixes of `p0 ++ segs`. -/
theorem insertLoop_spec {r : Nat} (segs : List String) :
    ∀ (h : Heap) (n : Nat) (p0 : List String), WellFormed h r → descend h r p0 = some n →
      ∃ h1 x, insertLoop h n segs = (h1, x) ∧ WellFormed h1 r ∧ Extends h h1 ∧
        descend h1 r (p0 ++ segs) = some x ∧
        ∀ q, pathCount h1 r q =
          if p0.length < q.length ∧ q <+: p0 ++ segs then
            some ((pathCount h r q).getD 0 + 1)
          else pathCount h r q := by
  induction segs with
  | nil =>
    intro h n p0 hwf hp0
    refine ⟨h, n, rfl, hwf, Extends.refl h, by simpa using hp0, ?_⟩
    intro q
    have : ¬ (p0.length < q.length ∧ q <+: p0 ++ []) := by
      rintro ⟨h1, h2⟩
      have := h2.length_le
      simp at this
      omega
    rw [if_neg this]
  | cons s rest ih =>
    intro h n p0 hwf hp0
    have hn := hwf.descend_valid hwf.root_valid hp0
    obtain ⟨h1, c, hloop, hs⟩ := insertLoop_step hwf n hn s rest
    have hwf1 := hs.wellFormed hwf hn
    have hp1 : descend h1 r (p0 ++ [s]) = some c := by
      rw [hs.descend_eq hwf hp0, if_pos rfl]
    obtain ⟨h2, x, hrest, hwf2, hext, hx, hcount⟩ := ih h1 c (p0 ++ [s]) hwf1 hp1
    refine ⟨h2, x, by rw [hloop, hrest], hwf2, hs.extends.trans hext,
      by simpa using hx, ?_⟩
    intro q
    rw [hcount q, hs.pathCount_eq hwf hp0 q]
    have happ : p0 ++ [s] ++ rest = p0 ++ s :: rest := by simp
    rw [happ]
    by_cases hq : q = p0 ++ [s]
    · have h1 : ¬ ((p0 ++ [s]).length < q.length ∧ q <+: p0 ++ s :: rest) := by
        rw [hq]; simp
      have h2 : p0.length < q.length ∧ q <+: p0 ++ s :: rest := by
        rw [hq]
        exact ⟨by simp, ⟨rest, by simp⟩⟩
      rw [if_neg h1, if_pos hq, if_pos h2]
    · rw [if_neg hq]
      by_cases h1 : (p0 ++ [s]).length < q.length ∧ q <+: p0 ++ s :: rest
      · have h2 : p0.length < q.length ∧ q <+: p0 ++ s :: rest := by
          refine ⟨?_, h1.2⟩
          have := h1.1
          simp at this
          omega
        rw [if_pos h1, if_pos h2]
      · have h2 : ¬ (p0.length < q.length ∧ q <+: p0 ++ s :: rest) := by
          rintro ⟨h3, h4⟩
          by_cases h5 : q.length = p0.length + 1
          · exact hq (prefix_next h4 h5)
          · exact h1 ⟨by simp; omega, h4⟩
        rw [if_neg h1, if_neg h2]


/-- Raising a count keeps the tree well-formed. -/
theorem WellFormed.incCount {h : Heap} {r : Nat} (hwf : WellFormed h r) (n : Nat) :
    WellFormed (TmlGen.incCount h n) r := by
  have hlen := length_incCount h n
  refine ⟨by rw [hlen]; exact hwf.root_valid, ?_, ?_, ?_, ?_, ?_, ?_⟩
  · rw [parentOf_incCount]; exact hwf.root_parent
  · intro i hi hp
    rw [parentOf_incCount] at hp
    exact hwf.only_root i (by omega) hp
  · intro i t c hc
    rw [childOf_incCount] at hc
    rw [parentOf_incCount, nameOf_incCount]
    exact hwf.child_ok i t c hc
  · intro i p hp
    rw [parentOf_incCount] at hp
    rw [nameOf_incCount, childOf_incCount]
    exact hwf.parent_ok i p hp
  · intro i
    rw [childKeys_incCount]; exact hwf.keys_nodup i
  · intro i hi
    obtain ⟨d, hd⟩ := hwf.has_depth i (by omega)
    exact ⟨d, hd.mono (by omega) (fun j _ => parentOf_incCount h n (some j))⟩

theorem extends_incCount (h : Heap) (n : Nat) : Extends h (incCount h n) :=
  ⟨by rw [length_incCount], fun i _ => parentOf_incCount h n (some i),
    fun i _ => nameOf_incCount h n (some i),
    fun i t c hc => by rw [childOf_incCount]; exact hc⟩

theorem descend_incCount (h : Heap) (n r : Nat) (q : List String) :
    descend (incCount h n) r q = descend h r q := by
  induction q using List.reverseRecOn with
  | nil => rfl
  | append_singleton q s ih =>
    rw [descend_snoc, descend_snoc, ih]
    cases descend h r q with
    | none => rfl
    | some a => simp only [Option.some_bind, childOf_incCount]

/-- The whole of `insert` on a well-formed tree, by directory paths: the call returns the
node with path `segs`, keeps the tree well-formed and every old node, raises by one the
count of every prefix of `segs` (the root's included; from 0 for a path that had no node)
and leaves every other path as it was. -/
theorem insert_spec {h : Heap} {r : Nat} (hwf : WellFormed h r) (segs : List String) :
    ∃ h1 x, insert h r segs = (h1, x) ∧ WellFormed h1 r ∧ Extends h h1 ∧
      descend h1 r segs = some x ∧
      ∀ q, pathCount h1 r q =
        if q <+: segs then some ((pathCount h r q).getD 0 + 1) else pathCount h r q := by
  have hwf0 := hwf.incCount r
  obtain ⟨h1, x, hloop, hwf1, hext, hx, hcount⟩ :=
    insertLoop_spec segs (incCount h r) r [] hwf0 (descend_nil _ _)
  refine ⟨h1, x, by rw [insert, hloop], hwf1, (extends_incCount h r).trans hext,
    by simpa using hx, ?_⟩
  intro q
  rw [hcount q]
  have hroot : ∀ q, pathCount (incCount h r) r q =
      if q = [] then some ((pathCount h r q).getD 0 + 1) else pathCount h r q := by
    intro q
    unfold pathCount
    rw [descend_incCount]
    by_cases hq : q = []
    · subst hq
      simp [descend_nil, countOf_incCount h r r hwf.root_valid]
    · rw [if_neg hq]
      cases hd : descend h r q with
      | none => rfl
      | some i =>
        have hir : i ≠ r := by
          rintro rfl
          exact hq (hwf.path_unique hd (descend_nil h i))
        simp [countOf_incCount h r i hwf.root_valid, hir]
  simp only [List.length_nil, List.nil_append]
  by_cases hq : q = []
  · subst hq
    simp [hroot]
  · have hpos : 0 < q.length := List.length_pos.2 hq
    rw [hroot q, if_neg hq]
    simp only [hpos, true_and]

/-! ## `insert`: the contract -/

theorem wellFormed_freshHeap : WellFormed freshHeap 0 := by
  have hvalid : ∀ i, i < freshHeap.length → i = 0 := by
    intro i hi
    simp [freshHeap] at hi
    exact hi
  have hchild : ∀ i t, childOf freshHeap i t = none := by
    intro i t
    cases i with
    | zero => rfl
    | succ i => rfl
  have hparent : ∀ i, parentOf freshHeap (some i) = none := by
    intro i
    cases i with
    | zero => rfl
    | succ i => rfl
  refine ⟨by decide, rfl, fun i hi _ => hvalid i hi, ?_, ?_, ?_, ?_⟩
  · intro i t c hc
    rw [hchild] at hc; cases hc
  · intro i p hp
    rw [hparent] at hp; cases hp
  · intro i
    cases i with
    | zero => simp [childKeys, freshHeap, newNode]
    | succ i => simp [childKeys, freshHeap]
  · intro i hi
    rw [hvalid i hi]
    exact ⟨0, IsDepth.root (by decide) rfl⟩

/-- C3: on a well-formed tree with root `r`, `insert(r, segs)` returns the node `x` reached
by descending from `r` through `segs` in the tree after the call, which is well-formed
again; every node of that descent has its segment as name and the node above it as parent,
and is new only where the child was missing; no node is removed (old nodes keep address,
parent, name and children, so every old path leads where it led); the count of every node
of the descent, `r` and `x` included, is raised by exactly 1 (a new node, whose old count
reads 0, gets count 1) and the count of every other node is unchanged. -/
theorem insert_contract (h : Heap) (r : Nat) (segs : List String) (hwf : WellFormed h r) :
    ∃ h1 x, insert h r segs = (h1, x) ∧ WellFormed h1 r ∧
      descend h1 r segs = some x ∧
      (∀ p s, p ++ [s] <+: segs → ∃ a c, descend h1 r p = some a ∧
        descend h1 r (p ++ [s]) = some c ∧ parentOf h1 (some c) = some a ∧
        nameOf h1 (some c) = s ∧ (h.length ≤ c → childOf h a s = none)) ∧
      Extends h h1 ∧
      (∀ q i, descend h r q = some i → descend h1 r q = some i) ∧
      (∀ p i, p <+: segs → descend h1 r p = some i →
        countOf h1 (some i) = countOf h (some i) + 1) ∧
      (∀ i, i < h1.length → (∀ p, p <+: segs → descend h1 r p ≠ some i) →
        countOf h1 (some i) = countOf h (some i)) := by
  obtain ⟨h1, x, hins, hwf1, hext, hx, hcount⟩ := insert_spec hwf segs
  have hprefix : ∀ p, p <+: segs → ∃ a, descend h1 r p = some a := by
    intro p hp
    obtain ⟨t, rfl⟩ := hp
    cases hd : descend h1 r p with
    | some a => exact ⟨a, rfl⟩
    | none =>
      have : descend h1 r (p ++ t) = none := by
        unfold descend at hd ⊢
        rw [List.foldl_append, hd]
        exact foldl_child_none h1 t
      rw [this] at hx; cases hx
  refine ⟨h1, x, hins, hwf1, hx, ?_, hext, fun q i hq => hext.descend_mono hq, ?_, ?_⟩
  · intro p s hps
    obtain ⟨c, hc⟩ := hprefix (p ++ [s]) hps
    obtain ⟨a, ha, hac, hpar, hname⟩ := hwf1.descend_snoc_some hc
    refine ⟨a, c, ha, hc, hpar, hname, ?_⟩
    intro hnew
    cases hold : childOf h a s with
    | none => rfl
    | some c' =>
      have h2 := hext.child_mono a s c' hold
      rw [hac] at h2
      cases h2
      have := parentOf_valid (hwf.child_ok a s c hold).1
      omega
  · intro p i hp hi
    have h1c := hcount p
    rw [if_pos hp] at h1c
    unfold pathCount at h1c
    rw [hi, Option.map_some', Option.some.injEq] at h1c
    rw [h1c]
    cases hd : descend h r p with
    | some j =>
      have := hext.descend_mono hd
      rw [hi] at this
      cases this
      rfl
    | none =>
      have hnew : h.length ≤ i := by
        by_contra hlt
        obtain ⟨q, hq⟩ := hwf.reachable (i := i) (by omega)
        have hq1 := hext.descend_mono hq
        rw [hwf1.path_unique hq1 hi, hd] at hq
        cases hq
      rw [countOf_invalid hnew]
      rfl
  · intro i hi hnot
    obtain ⟨q, hq⟩ := hwf1.reachable hi
    have hqs : ¬ q <+: segs := fun hp => hnot q hp hq
    have h1c := hcount q
    rw [if_neg hqs] at h1c
    unfold pathCount at h1c
    rw [hq, Option.map_some'] at h1c
    cases hd : descend h r q with
    | none => rw [hd] at h1c; cases h1c
    | some j =>
      have := hext.descend_mono hd
      rw [hq] at this
      cases this
      rw [hd, Option.map_some', Option.some.injEq] at h1c
      exact h1c

/-- C3, witness: the path `a/b` inserted into the fresh tree. -/
theorem insert_contract_witness :
    WellFormed freshHeap 0 ∧
    ∃ h1 x, insert freshHeap 0 ["a", "b"] = (h1, x) ∧ WellFormed h1 0 ∧
      descend h1 0 ["a", "b"] = some x ∧
      (∀ p s, p ++ [s] <+: ["a", "b"] → ∃ a c, descend h1 0 p = some a ∧
        descend h1 0 (p ++ [s]) = some c ∧ parentOf h1 (some c) = some a ∧
        nameOf h1 (some c) = s ∧ (freshHeap.length ≤ c → childOf freshHeap a s = none)) ∧
      Extends freshHeap h1 ∧
      (∀ q i, descend freshHeap 0 q = some i → descend h1 0 q = some i) ∧
      (∀ p i, p <+: ["a", "b"] → descend h1 0 p = some i →
        countOf h1 (some i) = countOf freshHeap (some i) + 1) ∧
      (∀ i, i < h1.length → (∀ p, p <+: ["a", "b"] → descend h1 0 p ≠ some i) →
        countOf h1 (some i) = countOf freshHeap (some i)) :=
  ⟨wellFormed_freshHeap, insert_contract freshHeap 0 ["a", "b"] wellFormed_freshHeap⟩

/-! ## Sequences of `insert` calls -/

theorem insertAll_cons (h : Heap) (r : Nat) (segs : List String) (paths : List (List String)) :
    insertAll h r (segs :: paths) = insertAll (insert h r segs).1 r paths := rfl

theorem prefixCount_cons (segs : List String) (paths : List (List String)) (q : List String) :
    prefixCount (segs :: paths) q = prefixCount paths q + if q <+: segs then 1 else 0 := by
  unfold prefixCount
  rw [List.countP_cons]
  simp only [List.isPrefixOf_iff_prefix]

/-- The tree after a sequence of `insert` calls on a well-formed tree, by directory paths:
it is well-formed, keeps every old node, and the count of each path is raised by the number
of inserted paths it is a prefix of; a path that is a prefix of none is as it was. -/
theorem insertAll_spec {r : Nat} (paths : List (List String)) :
    ∀ (h : Heap), WellFormed h r →
      WellFormed (insertAll h r paths) r ∧ Extends h (insertAll h r paths) ∧
      ∀ q, pathCount (insertAll h r paths) r q =
        if 0 < prefixCount paths q then
          some ((pathCount h r q).getD 0 + (prefixCount paths q : Int))
        else pathCount h r q := by
  induction paths with
  | nil =>
    intro h hwf
    exact ⟨hwf, Extends.refl h, fun q => by simp [prefixCount, insertAll]⟩
  | cons segs paths ih =>
    intro h hwf
    obtain ⟨h1, x, hins, hwf1, hext, _, hcount⟩ := insert_spec hwf segs
    have h1eq : (insert h r segs).1 = h1 := by rw [hins]
    rw [insertAll_cons, h1eq]
    obtain ⟨hwf2, hext2, hcount2⟩ := ih h1 hwf1
    refine ⟨hwf2, hext.trans hext2, ?_⟩
    intro q
    rw [hcount2 q, hcount q, prefixCount_cons]
    by_cases hq : q <+: segs
    · simp only [hq, if_true, Option.getD_some]
      by_cases hp : 0 < prefixCount paths q
      · simp only [hp, if_true]
        have : 0 < prefixCount paths q + 1 := by omega
        simp only [this, if_true, Option.some.injEq]
        push_cast
        ring
      · have h0 : prefixCount paths q = 0 := by omega
        simp [h0]
    · simp only [hq, if_false, add_zero]

theorem pathCount_freshHeap (q : List String) :
    pathCount freshHeap 0 q = if q = [] then some 0 else none := by
  induction q using List.reverseRecOn with
  | nil => rfl
  | append_singleton q s ih =>
    have hne : q ++ [s] ≠ [] := by simp
    rw [if_neg hne]
    unfold pathCount
    rw [descend_snoc]
    cases hd : descend freshHeap 0 q with
    | none => rfl
    | some a =>
      have : childOf freshHeap a s = none := by
        cases a with
        | zero => rfl
        | succ a => rfl
      simp [this]

theorem prefixCount_nil_path (paths : List (List String)) :
    prefixCount paths [] = paths.length := by
  unfold prefixCount
  rw [List.countP_eq_length]
  intro segs _
  simp

/-- The tree built from a fresh root: it is well-formed, and a directory path has a node
exactly when it is empty or a prefix of an inserted path; the count of that node is the
number of inserted paths it is a prefix of. -/
theorem buildTree_spec (paths : List (List String)) :
    WellFormed (buildTree paths) 0 ∧
    ∀ q, pathCount (buildTree paths) 0 q =
      if q = [] ∨ 0 < prefixCount paths q then some (prefixCount paths q : Int) else none := by
  obtain ⟨hwf, _, hcount⟩ := insertAll_spec (r := 0) paths freshHeap wellFormed_freshHeap
  refine ⟨hwf, ?_⟩
  intro q
  show pathCount (insertAll freshHeap 0 paths) 0 q = _
  rw [hcount q, pathCount_freshHeap]
  by_cases hq : q = []
  · subst hq
    by_cases hp : 0 < prefixCount paths []
    · simp [hp]
    · have h0 : prefixCount paths [] = 0 := by omega
      simp [h0]
  · by_cases hp : 0 < prefixCount paths q
    · simp [hp, hq]
    · simp [hp, hq]


theorem lookup_of_mem_nodup_keys {l : List (String × Nat)} (hl : (l.map Prod.fst).Nodup)
    {s : String} {c : Nat} (hm : (s, c) ∈ l) : l.lookup s = some c := by
  induction l with
  | nil => cases hm
  | cons e l ih =>
    obtain ⟨k, v⟩ := e
    rw [List.map_cons, List.nodup_cons] at hl
    rcases List.mem_cons.1 hm with heq | hm'
    · cases heq
      simp
    · have hne : s ≠ k := by
        rintro rfl
        exact hl.1 (List.mem_map.2 ⟨(s, c), hm', rfl⟩)
      have hbeq : (s == k) = false := by simpa using hne
      rw [List.lookup_cons, hbeq]
      exact ih hl.2 hm'

theorem prefix_indicator_sum_le (q segs : List String) (keys : List String)
    (hk : keys.Nodup) :
    (keys.map fun s => if q ++ [s] <+: segs then (1 : Int) else 0).sum ≤
      if q <+: segs then 1 else 0 := by
  induction keys with
  | nil => simp; split <;> simp
  | cons s keys ih =>
    rw [List.nodup_cons] at hk
    rw [List.map_cons, List.sum_cons]
    by_cases hs : q ++ [s] <+: segs
    · have hq : q <+: segs := (List.prefix_append q [s]).trans hs
      have hzero : (keys.map fun s => if q ++ [s] <+: segs then (1 : Int) else 0).sum = 0 := by
        apply List.sum_eq_zero
        intro x hx
        obtain ⟨s', hs', rfl⟩ := List.mem_map.1 hx
        have hne : ¬ q ++ [s'] <+: segs := by
          intro hs2
          have heq := (List.prefix_of_prefix_length_le hs hs2 (by simp)).eq_of_length (by simp)
          have := List.append_cancel_left heq
          simp only [List.cons.injEq, and_true] at this
          rw [this] at hk
          exact hk.1 hs'
        rw [if_neg hne]
      rw [if_pos hs, if_pos hq, hzero]
      simp
    · rw [if_neg hs, zero_add]
      exact ih hk.2

theorem prefixCount_children_sum_le (paths : List (List String)) (q : List String)
    (keys : List String) (hk : keys.Nodup) :
    (keys.map fun s => (prefixCount paths (q ++ [s]) : Int)).sum ≤ prefixCount paths q := by
  induction paths with
  | nil => simp [prefixCount]
  | cons segs paths ih =>
    have hsplit : (keys.map fun s => (prefixCount (segs :: paths) (q ++ [s]) : Int)) =
        keys.map fun s => (prefixCount paths (q ++ [s]) : Int) +
          (if q ++ [s] <+: segs then (1 : Int) else 0) := by
      apply List.map_congr_left
      intro s _
      rw [prefixCount_cons]
      push_cast
      split <;> simp
    rw [hsplit, List.sum_map_add, prefixCount_cons]
    have h2 := prefix_indicator_sum_le q segs keys hk
    push_cast
    omega

/-- In a tree built from a fresh root, the node with directory path `q` has as count the
number of inserted paths with prefix `q`. -/
theorem buildTree_count (paths : List (List String)) {q : List String} {i : Nat}
    (hq : descend (buildTree paths) 0 q = some i) :
    countOf (buildTree paths) (some i) = prefixCount paths q ∧
      (q = [] ∨ 0 < prefixCount paths q) := by
  have h1 := (buildTree_spec paths).2 q
  unfold pathCount at h1
  rw [hq, Option.map_some'] at h1
  by_cases hc : q = [] ∨ 0 < prefixCount paths q
  · rw [if_pos hc, Option.some.injEq] at h1
    exact ⟨h1, hc⟩
  · rw [if_neg hc] at h1; cases h1

/-- C6: in the tree built from a fresh root by any sequence of `insert` calls, every node
has a directory path and its count is the number of inserted paths that have this path as
a prefix; the root's count is the number of inserts, every other node has count at least 1,
and the count of every node is at least the sum of the counts of its children. -/
theorem count_is_prefix_count (paths : List (List String)) :
    (∀ i, i < (buildTree paths).length → ∃ q, descend (buildTree paths) 0 q = some i) ∧
    (∀ q i, descend (buildTree paths) 0 q = some i →
      countOf (buildTree paths) (some i) = prefixCount paths q) ∧
    countOf (buildTree paths) (some 0) = paths.length ∧
    (∀ i, i < (buildTree paths).length → i ≠ 0 → 1 ≤ countOf (buildTree paths) (some i)) ∧
    (∀ i, i < (buildTree paths).length →
      childCountSum (buildTree paths) i ≤ countOf (buildTree paths) (some i)) := by
  have hwf := (buildTree_spec paths).1
  refine ⟨fun i hi => hwf.reachable hi, fun q i hq => (buildTree_count paths hq).1, ?_, ?_, ?_⟩
  · rw [(buildTree_count paths (descend_nil _ 0)).1, prefixCount_nil_path]
  · intro i hi hne
    obtain ⟨q, hq⟩ := hwf.reachable hi
    obtain ⟨hc, hpos⟩ := buildTree_count paths hq
    rw [hc]
    rcases hpos with rfl | hpos
    · rw [descend_nil] at hq
      cases hq
      exact absurd rfl hne
    · exact_mod_cast hpos
  · intro i hi
    obtain ⟨q, hq⟩ := hwf.reachable hi
    rw [(buildTree_count paths hq).1]
    have hkeys := hwf.keys_nodup i
    unfold childCountSum
    unfold childKeys at hkeys
    cases hnd : (buildTree paths)[i]? with
    | none => simp
    | some nd =>
      rw [hnd] at hkeys
      simp only
      have hmap : (nd.Children.map fun sc => countOf (buildTree paths) (some sc.2)) =
          (nd.Children.map Prod.fst).map fun s => (prefixCount paths (q ++ [s]) : Int) := by
        rw [List.map_map]
        apply List.map_congr_left
        intro sc hsc
        have hch : childOf (buildTree paths) i sc.1 = some sc.2 := by
          unfold childOf
          rw [hnd]
          exact lookup_of_mem_nodup_keys hkeys hsc
        have hd : descend (buildTree paths) 0 (q ++ [sc.1]) = some sc.2 := by
          rw [descend_snoc, hq]
          exact hch
        exact (buildTree_count paths hd).1
      rw [hmap]
      exact prefixCount_children_sum_le paths q _ hkeys

/-- C4: two lists of directory paths that are permutations of each other build, from a
fresh root, the same tree: a directory path has a node in one tree exactly when it has
one in the other, with the same count, and every node of one tree has a node with the
same path, name and count in the other. -/
theorem insert_order_independent (l1 l2 : List (List String)) (hp : l1.Perm l2) :
    (∀ q, (descend (buildTree l1) 0 q).isSome = (descend (buildTree l2) 0 q).isSome ∧
      pathCount (buildTree l1) 0 q = pathCount (buildTree l2) 0 q) ∧
    (∀ i, i < (buildTree l1).length → ∃ q j, descend (buildTree l1) 0 q = some i ∧
      descend (buildTree l2) 0 q = some j ∧
      nameOf (buildTree l1) (some i) = nameOf (buildTree l2) (some j) ∧
      countOf (buildTree l1) (some i) = countOf (buildTree l2) (some j)) ∧
    (∀ j, j < (buildTree l2).length → ∃ q i, descend (buildTree l2) 0 q = some j ∧
      descend (buildTree l1) 0 q = some i ∧
      nameOf (buildTree l2) (some j) = nameOf (buildTree l1) (some i) ∧
      countOf (buildTree l2) (some j) = countOf (buildTree l1) (some i)) := by
  have key : ∀ (a b : List (List String)), a.Perm b →
      (∀ q, pathCount (buildTree a) 0 q = pathCount (buildTree b) 0 q) := by
    intro a b hab q
    have hcnt : prefixCount a q = prefixCount b q := hab.countP_eq _
    rw [(buildTree_spec a).2 q, (buildTree_spec b).2 q, hcnt]
  have name_of_path : ∀ (a : List (List String)) (q : List String) (i : Nat),
      descend (buildTree a) 0 q = some i →
      nameOf (buildTree a) (some i) = (q.getLast?).getD "" := by
    intro a q i hq
    induction q using List.reverseRecOn generalizing i with
    | nil =>
      rw [descend_nil] at hq
      cases hq
      have hext := (insertAll_spec (r := 0) a freshHeap wellFormed_freshHeap).2.1
      exact hext.name_eq 0 (by decide)
    | append_singleton q s _ =>
      obtain ⟨_, _, _, _, hname⟩ := (buildTree_spec a).1.descend_snoc_some hq
      simp [hname]
  have half : ∀ (a b : List (List String)), a.Perm b →
      ∀ i, i < (buildTree a).length → ∃ q j, descend (buildTree a) 0 q = some i ∧
        descend (buildTree b) 0 q = some j ∧
        nameOf (buildTree a) (some i) = nameOf (buildTree b) (some j) ∧
        countOf (buildTree a) (some i) = countOf (buildTree b) (some j) := by
    intro a b hab i hi
    obtain ⟨q, hq⟩ := (buildTree_spec a).1.reachable hi
    have hk := key a b hab q
    unfold pathCount at hk
    rw [hq, Option.map_some'] at hk
    cases hj : descend (buildTree b) 0 q with
    | none => rw [hj] at hk; cases hk
    | some j =>
      rw [hj, Option.map_some', Option.some.injEq] at hk
      exact ⟨q, j, hq, hj, by rw [name_of_path a q i hq, name_of_path b q j hj], hk⟩
  refine ⟨?_, half l1 l2 hp, half l2 l1 hp.symm⟩
  intro q
  have hk := key l1 l2 hp q
  refine ⟨?_, hk⟩
  have := congrArg Option.isSome hk
  simpa [pathCount] using this

/-- C4, witness: the paths `a/b`, `a/c`, `a/b` in two orders. -/
theorem insert_order_independent_witness :
    List.Perm [["a", "b"], ["a", "c"], ["a", "b"]] [["a", "c"], ["a", "b"], ["a", "b"]] ∧
    ((∀ q, (descend (buildTree [["a", "b"], ["a", "c"], ["a", "b"]]) 0 q).isSome =
        (descend (buildTree [["a", "c"], ["a", "b"], ["a", "b"]]) 0 q).isSome ∧
      pathCount (buildTree [["a", "b"], ["a", "c"], ["a", "b"]]) 0 q =
        pathCount (buildTree [["a", "c"], ["a", "b"], ["a", "b"]]) 0 q) ∧
    (∀ i, i < (buildTree [["a", "b"], ["a", "c"], ["a", "b"]]).length → ∃ q j,
      descend (buildTree [["a", "b"], ["a", "c"], ["a", "b"]]) 0 q = some i ∧
      descend (buildTree [["a", "c"], ["a", "b"], ["a", "b"]]) 0 q = some j ∧
      nameOf (buildTree [["a", "b"], ["a", "c"], ["a", "b"]]) (some i) =
        nameOf (buildTree [["a", "c"], ["a", "b"], ["a", "b"]]) (some j) ∧
      countOf (buildTree [["a", "b"], ["a", "c"], ["a", "b"]]) (some i) =
        countOf (buildTree [["a", "c"], ["a", "b"], ["a", "b"]]) (some j)) ∧
    (∀ j, j < (buildTree [["a", "c"], ["a", "b"], ["a", "b"]]).length → ∃ q i,
      descend (buildTree [["a", "c"], ["a", "b"], ["a", "b"]]) 0 q = some j ∧
      descend (buildTree [["a", "b"], ["a", "c"], ["a", "b"]]) 0 q = some i ∧
      nameOf (buildTree [["a", "c"], ["a", "b"], ["a", "b"]]) (some j) =
        nameOf (buildTree [["a", "b"], ["a", "c"], ["a", "b"]]) (some i) ∧
      countOf (buildTree [["a", "c"], ["a", "b"], ["a", "b"]]) (some j) =
        countOf (buildTree [["a", "b"], ["a", "c"], ["a", "b"]]) (some i))) :=
  ⟨by decide, insert_order_independent _ _ (by decide)⟩

/-! ## Group keys -/

/-- The first loop of `nodeKey` on the node with directory path `q` collects the segments
of `q`, last first. -/
theorem WellFormed.nodeKeyParts_eq {h : Heap} {r : Nat} (hwf : WellFormed h r)
    {q : List String} {i : Nat} (hq : descend h r q = some i) (fuel : Nat)
    (hf : q.length < fuel) : nodeKeyParts h fuel (some i) = some q.reverse := by
  induction q using List.reverseRecOn generalizing i fuel with
  | nil =>
    rw [descend_nil] at hq
    cases hq
    obtain ⟨f, rfl⟩ : ∃ f, fuel = f + 1 := ⟨fuel - 1, by simp at hf; omega⟩
    simp [nodeKeyParts, hwf.root_parent]
  | append_singleton q s ih =>
    obtain ⟨a, ha, _, hp, hname⟩ := hwf.descend_snoc_some hq
    rw [List.length_append, List.length_singleton] at hf
    obtain ⟨f, rfl⟩ : ∃ f, fuel = f + 1 := ⟨fuel - 1, by omega⟩
    simp [nodeKeyParts, hp, ih ha f (by omega), hname]

/-- The key of the node with directory path `q`: the sentinel for the root, otherwise the
segments of `q` joined with underscores. -/
theorem WellFormed.nodeKey_eq {h : Heap} {r : Nat} (hwf : WellFormed h r)
    {q : List String} {i : Nat} (hq : descend h r q = some i) (fuel : Nat)
    (hf : q.length < fuel) :
    nodeKey h (some i) fuel = some (if q = [] then "root" else Join q "_") := by
  unfold nodeKey
  induction q using List.reverseRecOn with
  | nil =>
    rw [descend_nil] at hq
    cases hq
    simp [hwf.root_parent]
  | append_singleton q s _ =>
    obtain ⟨a, _, _, hp, _⟩ := hwf.descend_snoc_some hq
    simp [hp, hwf.nodeKeyParts_eq hq fuel hf]

/-- C7: for every tree built from a fresh root and every segment list `segs`, the key of
the node returned by `insert(root, segs)` is, given more fuel than `segs` has segments, the
segments of `segs` joined in root-to-leaf order with an underscore when `segs` is not
empty, and the sentinel `root` when it is; the key of `nil` is `root` as well. -/
theorem nodeKey_of_insert (paths : List (List String)) (segs : List String) (fuel : Nat)
    (hf : segs.length < fuel) :
    nodeKey (insert (buildTree paths) 0 segs).1 (some (insert (buildTree paths) 0 segs).2) fuel
        = some (if segs = [] then "root" else Join segs "_") ∧
    parentOf (insert (buildTree paths) 0 []).1 (some (insert (buildTree paths) 0 []).2) = none ∧
    ∀ (h : Heap) (fuel1 : Nat), nodeKey h none fuel1 = some "root" := by
  have hwf := (buildTree_spec paths).1
  refine ⟨?_, ?_, fun h fuel1 => by simp [nodeKey]⟩
  · obtain ⟨h1, x, hins, hwf1, _, hx, _⟩ := insert_spec hwf segs
    rw [hins]
    exact hwf1.nodeKey_eq hx fuel hf
  · obtain ⟨h1, x, hins, hwf1, _, hx, _⟩ := insert_spec hwf []
    rw [hins]
    rw [descend_nil] at hx
    cases hx
    exact hwf1.root_parent

/-- C7, witness: the path `a/b` inserted into the tree that holds `a/c`. -/
theorem nodeKey_of_insert_witness :
    ["a", "b"].length < 3 ∧
    (nodeKey (insert (buildTree [["a", "c"]]) 0 ["a", "b"]).1
        (some (insert (buildTree [["a", "c"]]) 0 ["a", "b"]).2) 3
        = some (if ["a", "b"] = [] then "root" else Join ["a", "b"] "_") ∧
    parentOf (insert (buildTree [["a", "c"]]) 0 []).1
      (some (insert (buildTree [["a", "c"]]) 0 []).2) = none ∧
    ∀ (h : Heap) (fuel1 : Nat), nodeKey h none fuel1 = some "root") :=
  ⟨by decide, nodeKey_of_insert [["a", "c"]] ["a", "b"] 3 (by decide)⟩

theorem append_sep_inj {c : Char} {l1 l2 x y : List Char} (h1 : c ∉ l1) (h2 : c ∉ l2)
    (heq : l1 ++ c :: x = l2 ++ c :: y) : l1 = l2 ∧ x = y := by
  induction l1 generalizing l2 with
  | nil =>
    cases l2 with
    | nil => simpa using heq
    | cons b l2 =>
      simp only [List.nil_append, List.cons_append, List.cons.injEq] at heq
      simp only [List.mem_cons, not_or] at h2
      exact absurd heq.1 h2.1
  | cons a l1 ih =>
    cases l2 with
    | nil =>
      simp only [List.nil_append, List.cons_append, List.cons.injEq] at heq
      simp only [List.mem_cons, not_or] at h1
      exact absurd heq.1.symm h1.1
    | cons b l2 =>
      simp only [List.cons_append, List.cons.injEq] at heq
      simp only [List.mem_cons, not_or] at h1 h2
      obtain ⟨hl, hx⟩ := ih h1.2 h2.2 heq.2
      exact ⟨by rw [heq.1, hl], hx⟩

theorem Join_cons_cons_data (a b : String) (rest : List String) :
    (Join (a :: b :: rest) "_").data = a.data ++ '_' :: (Join (b :: rest) "_").data := by
  simp [Join, String.data_append]

/-- Joining with underscores loses nothing when no segment holds an underscore. -/
theorem Join_injective : ∀ (q1 q2 : List String), q1 ≠ [] → q2 ≠ [] →
    (∀ s ∈ q1, '_' ∉ s.data) → (∀ s ∈ q2, '_' ∉ s.data) →
    Join q1 "_" = Join q2 "_" → q1 = q2
  | [], _, h1, _, _, _, _ => absurd rfl h1
  | _ :: _, [], _, h2, _, _, _ => absurd rfl h2
  | [a], [b], _, _, _, _, heq => by simpa [Join] using heq
  | [a], b :: b1 :: r2, _, _, ha, _, heq => by
    have hd := congrArg String.data heq
    rw [Join_cons_cons_data] at hd
    simp only [Join] at hd
    have : '_' ∈ a.data := by rw [hd]; simp
    exact absurd this (ha a (List.mem_singleton.2 rfl))
  | a :: a1 :: r1, [b], _, _, _, hb, heq => by
    have hd := congrArg String.data heq
    rw [Join_cons_cons_data] at hd
    simp only [Join] at hd
    have : '_' ∈ b.data := by rw [← hd]; simp
    exact absurd this (hb b (List.mem_singleton.2 rfl))
  | a :: a1 :: r1, b :: b1 :: r2, _, _, ha, hb, heq => by
    have hd := congrArg String.data heq
    rw [Join_cons_cons_data, Join_cons_cons_data] at hd
    obtain ⟨hab, hrest⟩ := append_sep_inj (ha a (List.mem_cons_self _ _))
      (hb b (List.mem_cons_self _ _)) hd
    have hab2 : a = b := String.ext hab
    have hrest2 : Join (a1 :: r1) "_" = Join (b1 :: r2) "_" := String.ext hrest
    have := Join_injective (a1 :: r1) (b1 :: r2) (by simp) (by simp)
      (fun s hs => ha s (List.mem_cons_of_mem _ hs))
      (fun s hs => hb s (List.mem_cons_of_mem _ hs)) hrest2
    rw [hab2, this]

theorem toLower_append (L : Lowering) (a b : String) : toLower L (a ++ b) = toLower L a ++ toLower L
    b := by
  apply String.ext
  simp [toLower, String.data_append]

theorem toLower_Join (L : Lowering) :
    ∀ (q : List String), toLower L (Join q "_") = Join (q.map (toLower L)) "_"
  | [] => String.ext (by simp [toLower, Join])
  | [a] => rfl
  | a :: b :: rest => by
    have ih := toLower_Join L (b :: rest)
    simp only [Join, List.map_cons, toLower_append] at ih ⊢
    rw [ih, toLower_symbols L "_" (by decide)]

theorem toLower_no_underscore (L : Lowering) {s : String} (hs : '_' ∉ s.data) : '_' ∉
    (toLower L s).data := by
  intro hmem
  simp only [toLower, List.mem_map] at hmem
  obtain ⟨c, hc, hcl⟩ := hmem
  have hne : c ≠ '_' := by
    rintro rfl
    exact hs hc
  exact hne (L.plain c '_' (by decide) hcl)


theorem descend_prefix_some {h : Heap} {r : Nat} {p t : List String} {i : Nat}
    (hq : descend h r (p ++ t) = some i) : ∃ a, descend h r p = some a := by
  cases hd : descend h r p with
  | some a => exact ⟨a, rfl⟩
  | none =>
    have : descend h r (p ++ t) = none := by
      unfold descend at hd ⊢
      rw [List.foldl_append, hd]
      exact foldl_child_none h t
    rw [this] at hq; cases hq

/-- A directory path is shorter than the number of nodes: the nodes along it are pairwise
different. -/
theorem WellFormed.path_length_lt {h : Heap} {r : Nat} (hwf : WellFormed h r)
    {q : List String} {i : Nat} (hq : descend h r q = some i) : q.length < h.length := by
  have hsome : ∀ k, ∃ a, descend h r (q.take k) = some a := by
    intro k
    have : descend h r (q.take k ++ q.drop k) = some i := by rw [List.take_append_drop]; exact hq
    exact descend_prefix_some this
  have hcard : (Finset.range (q.length + 1)).card ≤ (Finset.range h.length).card := by
    apply Finset.card_le_card_of_injOn (fun k => (descend h r (q.take k)).getD 0)
    · intro k _
      obtain ⟨a, ha⟩ := hsome k
      simp only [ha, Option.getD_some]
      exact Finset.mem_range.2 (hwf.descend_valid hwf.root_valid ha)
    · intro k1 hk1 k2 hk2 heq
      obtain ⟨a1, ha1⟩ := hsome k1
      obtain ⟨a2, ha2⟩ := hsome k2
      simp only [ha1, ha2, Option.getD_some] at heq
      rw [heq] at ha1
      have htake := hwf.path_unique ha1 ha2
      have hlen := congrArg List.length htake
      simp only [List.length_take] at hlen
      simp only [Finset.coe_range, Set.mem_Iio] at hk1 hk2
      omega
  simp only [Finset.card_range] at hcard
  omega

/-- C8, counterexample: the directory `a_b` and the directory `b` inside `a` are two
distinct nodes of one tree with the same key `a_b`, hence the same lowercased key,
whatever the lowercasing `L` is. -/
theorem nodeKey_collision :
    descend underscoreTree 0 ["a_b"] = some 1 ∧ descend underscoreTree 0 ["a", "b"] = some 3 ∧
      (1 : Nat) ≠ 3 ∧
      nodeKey underscoreTree (some 1) 4 = some "a_b" ∧
      nodeKey underscoreTree (some 3) 4 = some "a_b" ∧
      ∀ L : Lowering,
        (nodeKey underscoreTree (some 1) 4).map (toLower L) =
          (nodeKey underscoreTree (some 3) 4).map (toLower L) := by
  have h1 : nodeKey underscoreTree (some 1) 4 = some "a_b" := by decide
  have h3 : nodeKey underscoreTree (some 3) 4 = some "a_b" := by decide
  refine ⟨by decide, by decide, by decide, h1, h3, fun L => ?_⟩
  rw [h1, h3]

/-- C8, amended: in a tree built by `insert` from a fresh root, two distinct nodes have two
different directory paths and the key of each (given as much fuel as the tree has nodes) is
the sentinel `root` for the root and the join of its path otherwise; for two distinct nodes
below the root whose path segments hold no underscore the keys differ, and the lowercased
keys differ too when the lowercased paths do. -/
theorem nodeKey_injective_without_underscore (L : Lowering) (paths : List (List String))
    (i j fuel : Nat)
    (hi : i < (buildTree paths).length) (hj : j < (buildTree paths).length) (hij : i ≠ j)
    (hf : (buildTree paths).length ≤ fuel) :
    ∃ qi qj, descend (buildTree paths) 0 qi = some i ∧ descend (buildTree paths) 0 qj = some j ∧
      qi ≠ qj ∧
      nodeKey (buildTree paths) (some i) fuel = some (if qi = [] then "root" else Join qi "_") ∧
      nodeKey (buildTree paths) (some j) fuel = some (if qj = [] then "root" else Join qj "_") ∧
      (i ≠ 0 → j ≠ 0 → (∀ s ∈ qi ++ qj, '_' ∉ s.data) →
        nodeKey (buildTree paths) (some i) fuel ≠ nodeKey (buildTree paths) (some j) fuel ∧
        (qi.map (toLower L) ≠ qj.map (toLower L) →
          (nodeKey (buildTree paths) (some i) fuel).map (toLower L) ≠
            (nodeKey (buildTree paths) (some j) fuel).map (toLower L))) := by
  have hwf := (buildTree_spec paths).1
  obtain ⟨qi, hqi⟩ := hwf.reachable hi
  obtain ⟨qj, hqj⟩ := hwf.reachable hj
  have hne : qi ≠ qj := by
    rintro rfl
    rw [hqi] at hqj
    cases hqj
    exact hij rfl
  have hki := hwf.nodeKey_eq hqi fuel (lt_of_lt_of_le (hwf.path_length_lt hqi) hf)
  have hkj := hwf.nodeKey_eq hqj fuel (lt_of_lt_of_le (hwf.path_length_lt hqj) hf)
  refine ⟨qi, qj, hqi, hqj, hne, hki, hkj, ?_⟩
  intro hi0 hj0 hus
  have hqi0 : qi ≠ [] := by
    rintro rfl
    rw [descend_nil] at hqi
    cases hqi
    exact hi0 rfl
  have hqj0 : qj ≠ [] := by
    rintro rfl
    rw [descend_nil] at hqj
    cases hqj
    exact hj0 rfl
  rw [hki, hkj, if_neg hqi0, if_neg hqj0]
  have husi : ∀ s ∈ qi, '_' ∉ s.data := fun s hs => hus s (List.mem_append_left _ hs)
  have husj : ∀ s ∈ qj, '_' ∉ s.data := fun s hs => hus s (List.mem_append_right _ hs)
  refine ⟨?_, ?_⟩
  · intro heq
    exact hne (Join_injective qi qj hqi0 hqj0 husi husj (Option.some.inj heq))
  · intro hlow heq
    simp only [Option.map_some', Option.some.injEq, toLower_Join] at heq
    refine hlow (Join_injective _ _ (by simpa using hqi0) (by simpa using hqj0) ?_ ?_ heq)
    · intro s hs
      obtain ⟨s0, hs0, rfl⟩ := List.mem_map.1 hs
      exact toLower_no_underscore L (husi s0 hs0)
    · intro s hs
      obtain ⟨s0, hs0, rfl⟩ := List.mem_map.1 hs
      exact toLower_no_underscore L (husj s0 hs0)

/-- C8, witness of the amended claim: the nodes `a` and `a/b` of the tree built from the
paths `a_b` and `a/b`. -/
theorem nodeKey_injective_without_underscore_witness :
    2 < underscoreTree.length ∧ 3 < underscoreTree.length ∧ 2 ≠ 3 ∧
    underscoreTree.length ≤ 4 ∧
    ∃ qi qj, descend (buildTree [["a_b"], ["a", "b"]]) 0 qi = some 2 ∧
      descend (buildTree [["a_b"], ["a", "b"]]) 0 qj = some 3 ∧
      qi ≠ qj ∧
      nodeKey (buildTree [["a_b"], ["a", "b"]]) (some 2) 4
        = some (if qi = [] then "root" else Join qi "_") ∧
      nodeKey (buildTree [["a_b"], ["a", "b"]]) (some 3) 4
        = some (if qj = [] then "root" else Join qj "_") ∧
      (2 ≠ 0 → 3 ≠ 0 → (∀ s ∈ qi ++ qj, '_' ∉ s.data) →
        nodeKey (buildTree [["a_b"], ["a", "b"]]) (some 2) 4 ≠
          nodeKey (buildTree [["a_b"], ["a", "b"]]) (some 3) 4 ∧
        (qi.map (toLower sampleL) ≠ qj.map (toLower sampleL) →
          (nodeKey (buildTree [["a_b"], ["a", "b"]]) (some 2) 4).map (toLower sampleL) ≠
            (nodeKey (buildTree [["a_b"], ["a", "b"]]) (some 3) 4).map (toLower sampleL))) :=
  ⟨by decide, by decide, by decide, by decide,
    nodeKey_injective_without_underscore sampleL [["a_b"], ["a", "b"]] 2 3 4
      (by decide) (by decide) (by decide) (by decide)⟩

/-- Two directories that differ in the case of a letter outside ASCII, `É/x` and `é/x`: two
nodes, two keys, one lowercased key under the sample lowercasing; the lowercased paths are
equal, so the amended claim says nothing about this pair. -/
theorem nodeKey_beyond_ascii :
    nodeKey (buildTree [["É", "x"], ["é", "x"]]) (some 2) 5 = some "É_x" ∧
      nodeKey (buildTree [["É", "x"], ["é", "x"]]) (some 4) 5 = some "é_x" ∧
      (nodeKey (buildTree [["É", "x"], ["é", "x"]]) (some 2) 5).map (toLower sampleL) =
        (nodeKey (buildTree [["É", "x"], ["é", "x"]]) (some 4) 5).map (toLower sampleL) ∧
      ["É", "x"].map (toLower sampleL) = ["é", "x"].map (toLower sampleL) := by
  decide

/-! ## Sorting and grouping -/

theorem sortStrings_sorted (l : List String) : List.Sorted strLE (sortStrings l) :=
  List.sorted_insertionSort strLE l

theorem sortStrings_perm (l : List String) : (sortStrings l).Perm l :=
  List.perm_insertionSort strLE l

/-- Sorting forgets the order of arrival. -/
theorem sortStrings_eq_of_perm {l1 l2 : List String} (hp : l1.Perm l2) :
    sortStrings l1 = sortStrings l2 :=
  List.eq_of_perm_of_sorted
    ((sortStrings_perm l1).trans (hp.trans (sortStrings_perm l2).symm))
    (sortStrings_sorted l1) (sortStrings_sorted l2)

theorem lookup_appendToGroup (g : Groups) (key rel k : String) :
    ((appendToGroup g key rel).lookup k).getD [] =
      (g.lookup k).getD [] ++ if k = key then [rel] else [] := by
  induction g with
  | nil =>
    by_cases hk : k = key
    · subst hk; simp [appendToGroup]
    · have hb : (k == key) = false := by simpa using hk
      simp [appendToGroup, List.lookup_cons, hb, hk]
  | cons e g ih =>
    obtain ⟨k0, l0⟩ := e
    by_cases h0 : k0 = key
    · subst h0
      by_cases hk : k = k0
      · subst hk; simp [appendToGroup]
      · have hb : (k == k0) = false := by simpa using hk
        simp [appendToGroup, List.lookup_cons, hb, hk]
    · by_cases hk : k = k0
      · subst hk
        have hne : k ≠ key := h0
        simp [appendToGroup, h0, hne]
      · have hb : (k == k0) = false := by simpa using hk
        simp only [appendToGroup, h0, if_false, List.lookup_cons, hb]
        exact ih

theorem keys_appendToGroup (g : Groups) (key rel : String) :
    (appendToGroup g key rel).map Prod.fst =
      if key ∈ g.map Prod.fst then g.map Prod.fst else g.map Prod.fst ++ [key] := by
  induction g with
  | nil => simp [appendToGroup]
  | cons e g ih =>
    obtain ⟨k0, l0⟩ := e
    by_cases h0 : k0 = key
    · subst h0; simp [appendToGroup]
    · have hne : key ≠ k0 := fun h => h0 h.symm
      simp only [appendToGroup, h0, if_false, List.map_cons, ih, List.mem_cons, hne, false_or]
      split <;> simp

/-- The map built from a list of `(key, path)` pairs, from the map `g` on. -/
theorem foldl_appendToGroup_lookup (pairs : List (String × String)) :
    ∀ (g : Groups) (k : String),
      ((pairs.foldl (fun g p => appendToGroup g p.1 p.2) g).lookup k).getD [] =
        (g.lookup k).getD [] ++ (pairs.filter fun p => p.1 = k).map Prod.snd := by
  induction pairs with
  | nil => intro g k; simp
  | cons p pairs ih =>
    intro g k
    rw [List.foldl_cons, ih, lookup_appendToGroup]
    by_cases hk : k = p.1
    · subst hk; simp
    · have hne : ¬ p.1 = k := fun h => hk h.symm
      simp [hk, hne]

theorem foldl_appendToGroup_keys (pairs : List (String × String)) :
    ∀ (g : Groups), (g.map Prod.fst).Nodup →
      ((pairs.foldl (fun g p => appendToGroup g p.1 p.2) g).map Prod.fst).Nodup ∧
      ∀ k, k ∈ (pairs.foldl (fun g p => appendToGroup g p.1 p.2) g).map Prod.fst ↔
        k ∈ g.map Prod.fst ∨ k ∈ pairs.map Prod.fst := by
  induction pairs with
  | nil => intro g hg; simp [hg]
  | cons p pairs ih =>
    intro g hg
    have hnd : ((appendToGroup g p.1 p.2).map Prod.fst).Nodup := by
      rw [keys_appendToGroup]
      split
      · exact hg
      · rename_i hnot
        exact List.Nodup.append hg (List.nodup_singleton _) (by simpa using hnot)
    obtain ⟨h1, h2⟩ := ih (appendToGroup g p.1 p.2) hnd
    rw [List.foldl_cons]
    refine ⟨h1, ?_⟩
    intro k
    rw [h2 k, keys_appendToGroup]
    by_cases hmem : p.1 ∈ g.map Prod.fst
    · rw [if_pos hmem]
      simp only [List.map_cons, List.mem_cons]
      constructor
      · rintro (h | h)
        · exact Or.inl h
        · exact Or.inr (Or.inr h)
      · rintro (h | h | h)
        · exact Or.inl h
        · exact Or.inl (h ▸ hmem)
        · exact Or.inr h
    · rw [if_neg hmem]
      simp only [List.map_cons, List.mem_cons, List.mem_append, List.mem_singleton]
      tauto

/-! ## The scan, by directory paths -/

theorem insertAll_append (h : Heap) (r : Nat) (l1 l2 : List (List String)) :
    insertAll h r (l1 ++ l2) = insertAll (insertAll h r l1) r l2 := by
  simp [insertAll, List.foldl_append]

theorem buildTree_snoc (paths : List (List String)) (segs : List String) :
    buildTree (paths ++ [segs]) = (insert (buildTree paths) 0 segs).1 := by
  simp [buildTree, insertAll_append, insertAll]

theorem scan_snoc (sep : Char) (rels : List String) (rel : String) :
    scan sep (rels ++ [rel]) = scanStep sep (scan sep rels) rel := by
  simp [scan, List.foldl_append]

theorem scanned_snoc (sep : Char) (rels : List String) (rel : String) :
    scanned sep (rels ++ [rel]) =
      if (splitSegs sep rel).length = 0 then scanned sep rels else scanned sep rels ++ [rel] := by
  unfold scanned
  rw [List.filter_append]
  by_cases h0 : (splitSegs sep rel).length = 0
  · rw [if_pos h0, List.filter_singleton]
    simp only [ne_eq, h0, not_true_eq_false, decide_False]
    simp
  · rw [if_neg h0, List.filter_singleton]
    simp only [ne_eq, h0, not_false_eq_true, decide_True]
    simp

/-- The scan of the queue items `rels`: the tree is the one built from the directory
segments of the items that have segments, in order, and the records are, in the same
order, these items with the node their directory path leads to in the final tree. -/
theorem scan_spec (sep : Char) (rels : List String) :
    (scan sep rels).1 = buildTree ((scanned sep rels).map (dirSegsOf sep)) ∧
    (scan sep rels).2 = (scanned sep rels).map (fun rel =>
      { DirNode := descend (scan sep rels).1 0 (dirSegsOf sep rel),
        RelPath := ToSlash sep rel }) ∧
    ∀ rel ∈ scanned sep rels, ∃ x, descend (scan sep rels).1 0 (dirSegsOf sep rel) = some x := by
  induction rels using List.reverseRecOn with
  | nil => exact ⟨rfl, rfl, by intro rel hrel; cases hrel⟩
  | append_singleton rels rel ih =>
    obtain ⟨ihtree, ihrecs, ihnodes⟩ := ih
    rw [scan_snoc, scanned_snoc]
    by_cases h0 : (splitSegs sep rel).length = 0
    · have hstep : scanStep sep (scan sep rels) rel = scan sep rels := by
        simp [scanStep, h0]
      rw [hstep, if_pos h0]
      exact ⟨ihtree, ihrecs, ihnodes⟩
    · have hstep : scanStep sep (scan sep rels) rel =
          ((insert (scan sep rels).1 0 (dirSegsOf sep rel)).1,
            (scan sep rels).2 ++ [{ DirNode := some (insert (scan sep rels).1 0
              (dirSegsOf sep rel)).2, RelPath := ToSlash sep rel }]) := by
        simp [scanStep, h0, dirSegsOf]
      rw [hstep, if_neg h0]
      have hwf : WellFormed (scan sep rels).1 0 := by
        rw [ihtree]; exact (buildTree_spec _).1
      obtain ⟨h1, x, hins, hwf1, hext, hx, _⟩ := insert_spec hwf (dirSegsOf sep rel)
      rw [hins]
      simp only
      refine ⟨?_, ?_, ?_⟩
      · rw [List.map_append, List.map_singleton, buildTree_snoc, ← ihtree, hins]
      · rw [List.map_append, List.map_singleton, hx, ihrecs]
        congr 1
        apply List.map_congr_left
        intro r hr
        obtain ⟨y, hy⟩ := ihnodes r hr
        rw [hy, hext.descend_mono hy]
      · intro r hr
        rcases List.mem_append.1 hr with hr | hr
        · obtain ⟨y, hy⟩ := ihnodes r hr
          exact ⟨y, hext.descend_mono hy⟩
        · rw [List.mem_singleton.1 hr]
          exact ⟨x, hx⟩

/-! ## The grouping decision, by directory paths -/

/-- On a node with a finite parent chain the final guard of `pickGroup` changes nothing:
the result is the value of `cur` at the end of the loop. -/
theorem pickGroup_eq_loop (h : Heap) (thr : Int) (n d fuel : Nat) (hd : IsDepth h n d)
    (hf : d < fuel) :
    pickGroup h (some n) thr fuel = pickGroupLoop h thr fuel (some n) := by
  obtain ⟨k, hk, hloop, _, hbefore⟩ := pickGroupLoop_spec h thr d n fuel hd hf
  obtain ⟨g, hg, hdg⟩ := hd.ancestor k hk
  rw [pickGroup, hloop, hg]
  simp only [Option.map_some', Option.some.injEq]
  cases k with
  | zero =>
    have : g = n := by simpa [ancestor] using hg.symm
    subst this
    simp
  | succ j =>
    obtain ⟨c, hc, hdc⟩ := hd.ancestor j (by omega)
    have hcl := hbefore j (by omega)
    rw [hc, climbs_true_iff] at hcl
    have h3 := hdc.three_le hcl.2.2.2.1
    obtain ⟨e, he⟩ : ∃ e, d - (j + 1) = e + 1 := ⟨d - (j + 1) - 1, by omega⟩
    rw [he] at hdg
    obtain ⟨p, hp, _⟩ := hdg.parent_succ
    simp [hp]

/-- The loop condition of `pickGroup` at the node with directory path `q`: the path has
three segments or more and the count is below the threshold. -/
theorem WellFormed.climbs_iff {h : Heap} {r : Nat} (hwf : WellFormed h r)
    {q : List String} {i : Nat} (hq : descend h r q = some i) (thr : Int) :
    climbs h thr (some i) = true ↔ 3 ≤ q.length ∧ (pathCount h r q).getD 0 < thr := by
  have hd := hwf.descend_depth hq
  have hcount : (pathCount h r q).getD 0 = countOf h (some i) := by
    simp [pathCount, hq]
  rw [climbs_true_iff, hcount]
  constructor
  · rintro ⟨_, _, _, h3, hc⟩
    exact ⟨hd.three_le h3, hc⟩
  · rintro ⟨h3, hc⟩
    obtain ⟨g, hg, _⟩ := hd.ancestor 3 h3
    have hppp : parentOf h (parentOf h (parentOf h (some i))) = some g := hg
    refine ⟨by simp, ?_, ?_, by rw [hppp]; simp, hc⟩
    · intro hnone
      rw [hnone] at hppp
      cases hppp
    · intro hnone
      rw [hnone] at hppp
      cases hppp

theorem pickPath_snoc (cnt : List String → Option Int) (thr : Int) (q : List String)
    (s : String) :
    pickPath cnt thr (q ++ [s]) =
      if 3 ≤ (q ++ [s]).length ∧ (cnt (q ++ [s])).getD 0 < thr then pickPath cnt thr q
      else q ++ [s] := by
  unfold pickPath
  rw [List.reverse_append, List.reverse_singleton, List.singleton_append, pickPathRev]
  simp only [List.length_reverse, List.reverse_cons, List.reverse_reverse, List.length_append,
    List.length_singleton]
  split <;> simp

/-- The loop of `pickGroup`, started at the node with directory path `q`, ends at the node
with directory path `pickPath q`. -/
theorem WellFormed.pickGroupLoop_path {h : Heap} {r : Nat} (hwf : WellFormed h r)
    (thr : Int) (q : List String) :
    ∀ (i fuel : Nat), descend h r q = some i → q.length < fuel →
      ∃ g, pickGroupLoop h thr fuel (some i) = some (some g) ∧
        descend h r (pickPath (pathCount h r) thr q) = some g := by
  induction q using List.reverseRecOn with
  | nil =>
    intro i fuel hq hf
    obtain ⟨f, rfl⟩ : ∃ f, fuel = f + 1 := ⟨fuel - 1, by simp at hf; omega⟩
    have hc : climbs h thr (some i) = false := by
      rw [← Bool.not_eq_true, hwf.climbs_iff hq]
      simp
    exact ⟨i, by simp [pickGroupLoop, hc], by simpa [pickPath, pickPathRev] using hq⟩
  | append_singleton q s ih =>
    intro i fuel hq hf
    rw [List.length_append, List.length_singleton] at hf
    obtain ⟨f, rfl⟩ : ∃ f, fuel = f + 1 := ⟨fuel - 1, by omega⟩
    obtain ⟨a, ha, _, hp, _⟩ := hwf.descend_snoc_some hq
    rw [pickPath_snoc]
    by_cases hc : climbs h thr (some i) = true
    · rw [if_pos ((hwf.climbs_iff hq thr).1 hc)]
      obtain ⟨g, hg, hgp⟩ := ih a f ha (by omega)
      exact ⟨g, by simp only [pickGroupLoop, hc, if_true, hp]; exact hg, hgp⟩
    · rw [if_neg (fun hcond => hc ((hwf.climbs_iff hq thr).2 hcond))]
      have hc2 : climbs h thr (some i) = false := by simpa using hc
      exact ⟨i, by simp [pickGroupLoop, hc2], hq⟩

/-- The key of a record whose node has directory path `q`, given as much fuel as the tree
has nodes: the key of the path `pickPath q`. -/
theorem WellFormed.groupKey_eq {h : Heap} {r : Nat} (hwf : WellFormed h r) (thr : Int)
    {q : List String} {i : Nat} (hq : descend h r q = some i) (fuel : Nat)
    (hf : h.length ≤ fuel) (rel : String) :
    groupKey h thr fuel { DirNode := descend h r q, RelPath := rel } =
      some (keyOfPath (pickPath (pathCount h r) thr q)) := by
  have hlen := hwf.path_length_lt hq
  obtain ⟨g, hg, hgp⟩ := hwf.pickGroupLoop_path thr q i fuel hq (by omega)
  have hpick : pickGroup h (some i) thr fuel = some (some g) := by
    rw [pickGroup_eq_loop h thr i q.length fuel (hwf.descend_depth hq) (by omega), hg]
  have hkey := hwf.nodeKey_eq hgp fuel (lt_of_lt_of_le (hwf.path_length_lt hgp) hf)
  simp only [groupKey, hq, hpick, Option.some_bind, hkey, keyOfPath]

/-! ## The post-scan phase -/

/-- The grouping loop, when every record has a key: the map built from the `(key, path)`
pairs of the records. -/
theorem groupRecs_eq (h : Heap) (thr : Int) (fuel : Nat) (K : Rec → String) :
    ∀ (recs : List Rec) (g : Groups), (∀ r ∈ recs, groupKey h thr fuel r = some (K r)) →
      groupRecs h thr fuel recs g =
        some ((recs.map fun r => (K r, r.RelPath)).foldl
          (fun g p => appendToGroup g p.1 p.2) g) := by
  intro recs
  induction recs with
  | nil => intro g _; rfl
  | cons r recs ih =>
    intro g hk
    rw [groupRecs, hk r (List.mem_cons_self _ _)]
    simp only [List.map_cons, List.foldl_cons]
    exact ih _ (fun r' hr' => hk r' (List.mem_cons_of_mem _ hr'))

/-- The writer returns for every member list when the fuel exceeds the registry size plus
the number of members; the registry grows by at most one key per member. -/
theorem writeTML_total (L : Lowering) (sep : Char) (lst : List String) :
    ∀ (used : Registry) (fuel : Nat), used.length + lst.length < fuel →
      ∃ ts used1, writeTML L sep lst used fuel = some (ts, used1) ∧
        used1.length ≤ used.length + lst.length := by
  induction lst with
  | nil => intro used fuel _; exact ⟨[], used, rfl, by simp⟩
  | cons rel rest ih =>
    intro used fuel hf
    simp only [List.length_cons] at hf
    cases hlast : (splitSegs sep rel).getLast? with
    | none =>
      obtain ⟨ts, used1, hw, hlen⟩ := ih used fuel (by omega)
      exact ⟨ts, used1, by simp only [writeTML, hlast]; exact hw,
        by simp only [List.length_cons]; omega⟩
    | some fileName =>
      obtain ⟨name, hname, _⟩ := uniqueDisplayName_fresh L sep
        (TrimSuffix fileName (Ext sep fileName)) rel used fuel (by omega)
      obtain ⟨ts, used1, hw, hlen⟩ := ih (toLower L name :: used) fuel
        (by simp only [List.length_cons]; omega)
      refine ⟨{ Name := name, File := toBackslashes sep (Join (splitSegs sep rel) "/") } :: ts,
        used1, by simp only [writeTML, hlast, hname, hw, Option.map_some'], ?_⟩
      simp only [List.length_cons] at hlen ⊢
      omega

theorem length_sortStrings (l : List String) : (sortStrings l).length = l.length :=
  (sortStrings_perm l).length_eq

/-- The loop over the keys returns when the fuel exceeds the registry size plus the number
of members of all groups; it yields one library per key, in key order, with the sorted
members of the group. -/
theorem writeLibraries_total (L : Lowering) (sep : Char) (groups : Groups) (ks : List String) :
    ∀ (used : Registry) (fuel : Nat),
      used.length + (ks.map fun k => ((groups.lookup k).getD []).length).sum < fuel →
      ∃ libs, writeLibraries L sep groups ks used fuel = some libs ∧
        libs.map Library.Key = ks ∧
        ∀ lib ∈ libs, lib.Members = sortStrings ((groups.lookup lib.Key).getD []) := by
  induction ks with
  | nil => intro used fuel _; exact ⟨[], rfl, rfl, by intro lib hl; cases hl⟩
  | cons k ks ih =>
    intro used fuel hf
    simp only [List.map_cons, List.sum_cons] at hf
    obtain ⟨ts, used1, hw, hlen⟩ := writeTML_total L sep
      (sortStrings ((groups.lookup k).getD [])) used fuel
      (by rw [length_sortStrings]; omega)
    rw [length_sortStrings] at hlen
    obtain ⟨libs, hlibs, hkeys, hmem⟩ := ih used1 fuel (by omega)
    refine ⟨Library.mk k (toLower L k) (sortStrings ((groups.lookup k).getD [])) ts :: libs,
      by simp only [writeLibraries, hw, hlibs, Option.map_some'], ?_, ?_⟩
    · simp [hkeys]
    · intro lib hl
      rcases List.mem_cons.1 hl with rfl | hl
      · rfl
      · exact hmem lib hl

/-- The loop over the keys only reads the sorted member list of each key. -/
theorem writeLibraries_congr (L : Lowering) (sep : Char) (g1 g2 : Groups) (ks : List String)
    (hsame : ∀ k ∈ ks, sortStrings ((g1.lookup k).getD []) =
      sortStrings ((g2.lookup k).getD [])) :
    ∀ (used : Registry) (fuel : Nat),
      writeLibraries L sep g1 ks used fuel = writeLibraries L sep g2 ks used fuel := by
  induction ks with
  | nil => intro used fuel; rfl
  | cons k ks ih =>
    intro used fuel
    simp only [writeLibraries, hsame k (List.mem_cons_self _ _)]
    cases writeTML L sep (sortStrings ((g2.lookup k).getD [])) used fuel with
    | none => rfl
    | some r =>
      simp only
      rw [ih (fun k' hk' => hsame k' (List.mem_cons_of_mem _ hk'))]

theorem filter_key_sum_le (pairs : List (String × String)) (keys : List String)
    (hk : keys.Nodup) :
    (keys.map fun k => ((pairs.filter fun p => p.1 = k).map Prod.snd).length).sum
      ≤ pairs.length := by
  induction pairs with
  | nil => simp
  | cons p pairs ih =>
    have hsplit : (keys.map fun k =>
        (((p :: pairs).filter fun p => p.1 = k).map Prod.snd).length) =
        keys.map fun k => ((pairs.filter fun p => p.1 = k).map Prod.snd).length +
          (if k = p.1 then 1 else 0) := by
      apply List.map_congr_left
      intro k _
      by_cases hpk : p.1 = k
      · simp [List.filter_cons, hpk]
      · have : ¬ k = p.1 := fun h => hpk h.symm
        simp [List.filter_cons, hpk, this]
    rw [hsplit, List.sum_map_add, List.length_cons]
    have hone : (keys.map fun k => if k = p.1 then 1 else 0).sum ≤ 1 := by
      have hcount : (keys.map fun k => if k = p.1 then 1 else 0).sum = keys.count p.1 := by
        clear hk hsplit ih
        induction keys with
        | nil => rfl
        | cons k keys ih2 =>
          rw [List.map_cons, List.sum_cons, ih2, List.count_cons]
          by_cases hkp : k = p.1
          · simp [hkp]; omega
          · simp [hkp]
      rw [hcount]
      exact List.nodup_iff_count_le_one.1 hk p.1
    omega

theorem length_scanned_le (sep : Char) (rels : List String) :
    (scanned sep rels).length ≤ rels.length :=
  List.length_filter_le _ _

/-- Every record of a scan has as key the key computed from the directory paths. -/
theorem scan_groupKey (sep : Char) (rels : List String) (thr : Int) (fuel : Nat)
    (hf : (scan sep rels).1.length ≤ fuel) :
    ∀ rel ∈ scanned sep rels,
      groupKey (scan sep rels).1 thr fuel
          { DirNode := descend (scan sep rels).1 0 (dirSegsOf sep rel),
            RelPath := ToSlash sep rel } =
        some (keyOfPath (pickPath (pathCount (buildTree ((scanned sep rels).map
          (dirSegsOf sep))) 0) thr (dirSegsOf sep rel))) := by
  intro rel hrel
  obtain ⟨htree, _, hnodes⟩ := scan_spec sep rels
  obtain ⟨x, hx⟩ := hnodes rel hrel
  have hwf : WellFormed (scan sep rels).1 0 := by
    rw [htree]; exact (buildTree_spec _).1
  rw [hwf.groupKey_eq thr hx fuel hf, htree]

/-- The grouping loop on the records of a scan builds the map of `scanPairs`. -/
theorem scan_groupRecs (sep : Char) (rels : List String) (thr : Int) (fuel : Nat)
    (hf : (scan sep rels).1.length ≤ fuel) :
    groupRecs (scan sep rels).1 thr fuel (scan sep rels).2 [] =
      some (groupPairs (scanPairs sep rels thr)) := by
  have hkeys := scan_groupKey sep rels thr fuel hf
  obtain ⟨_, hrecs, _⟩ := scan_spec sep rels
  rw [hrecs]
  generalize scan sep rels = st at hkeys
  unfold groupPairs scanPairs
  generalize pathCount (buildTree ((scanned sep rels).map (dirSegsOf sep))) 0 = cnt at hkeys ⊢
  generalize ([] : Groups) = g
  generalize scanned sep rels = l at hkeys ⊢
  induction l generalizing g with
  | nil => rfl
  | cons rel l ih =>
    simp only [List.map_cons, List.foldl_cons, groupRecs, hkeys rel (List.mem_cons_self _ _)]
    exact ih _ (fun r hr => hkeys r (List.mem_cons_of_mem _ hr))

theorem groupPairs_lookup (pairs : List (String × String)) (k : String) :
    ((groupPairs pairs).lookup k).getD [] = (pairs.filter fun p => p.1 = k).map Prod.snd := by
  unfold groupPairs
  rw [foldl_appendToGroup_lookup]
  simp

theorem groupPairs_keys (pairs : List (String × String)) :
    ((groupPairs pairs).map Prod.fst).Nodup ∧
      ∀ k, k ∈ (groupPairs pairs).map Prod.fst ↔ k ∈ pairs.map Prod.fst := by
  obtain ⟨h1, h2⟩ := foldl_appendToGroup_keys pairs [] (by simp)
  refine ⟨h1, ?_⟩
  intro k
  have := h2 k
  simpa [groupPairs] using this

/-- The run on the queue items `rels`, with more fuel than the tree has nodes plus the
number of items: it returns one library per group key, the keys sorted, each with the
sorted paths of the pairs of `scanPairs` that carry its key. -/
theorem run_spec (L : Lowering) (sep : Char) (rels : List String) (thr : Int) (fuel : Nat)
    (hf : (scan sep rels).1.length + rels.length < fuel) :
    run L sep rels thr fuel =
        writeLibraries L sep (groupPairs (scanPairs sep rels thr))
          (sortStrings ((groupPairs (scanPairs sep rels thr)).map Prod.fst)) [] fuel ∧
    ∃ libs, run L sep rels thr fuel = some libs ∧
      libs.map Library.Key = sortStrings ((groupPairs (scanPairs sep rels thr)).map Prod.fst) ∧
      ∀ lib ∈ libs, lib.Members =
        sortStrings (((scanPairs sep rels thr).filter fun p => p.1 = lib.Key).map Prod.snd) := by
  have hrun : run L sep rels thr fuel =
      writeLibraries L sep (groupPairs (scanPairs sep rels thr))
        (sortStrings ((groupPairs (scanPairs sep rels thr)).map Prod.fst)) [] fuel := by
    simp only [run, postScan, scan_groupRecs sep rels thr fuel (by omega)]
  refine ⟨hrun, ?_⟩
  rw [hrun]
  have hnodup := (groupPairs_keys (scanPairs sep rels thr)).1
  have hsum : ((sortStrings ((groupPairs (scanPairs sep rels thr)).map Prod.fst)).map fun k =>
      (((groupPairs (scanPairs sep rels thr)).lookup k).getD []).length).sum ≤ rels.length := by
    have h1 := filter_key_sum_le (scanPairs sep rels thr)
      (sortStrings ((groupPairs (scanPairs sep rels thr)).map Prod.fst))
      ((sortStrings_perm _).nodup_iff.2 hnodup)
    have h2 : (scanPairs sep rels thr).length ≤ rels.length := by
      unfold scanPairs
      rw [List.length_map]
      exact length_scanned_le sep rels
    simp only [groupPairs_lookup]
    omega
  obtain ⟨libs, hlibs, hkeys, hmem⟩ := writeLibraries_total L sep
    (groupPairs (scanPairs sep rels thr))
    (sortStrings ((groupPairs (scanPairs sep rels thr)).map Prod.fst)) [] fuel
    (by simp only [List.length_nil]; omega)
  refine ⟨libs, hlibs, hkeys, ?_⟩
  intro lib hl
  rw [hmem lib hl, groupPairs_lookup]

theorem scanPairs_perm (sep : Char) (rels1 rels2 : List String) (thr : Int)
    (hp : rels1.Perm rels2) : (scanPairs sep rels1 thr).Perm (scanPairs sep rels2 thr) := by
  have hs : (scanned sep rels1).Perm (scanned sep rels2) := hp.filter _
  have hcnt : pathCount (buildTree ((scanned sep rels1).map (dirSegsOf sep))) 0 =
      pathCount (buildTree ((scanned sep rels2).map (dirSegsOf sep))) 0 := by
    funext q
    have hc : prefixCount ((scanned sep rels1).map (dirSegsOf sep)) q =
        prefixCount ((scanned sep rels2).map (dirSegsOf sep)) q :=
      (hs.map (dirSegsOf sep)).countP_eq _
    rw [(buildTree_spec _).2 q, (buildTree_spec _).2 q, hc]
  unfold scanPairs
  rw [hcnt]
  exact hs.map _

/-- C9: the output of the post-scan phase depends on the multiset of scanned paths only:
for two lists of queue items that are permutations of each other, each scanned into a
fresh tree in its own order, the run (with more fuel than the tree has nodes plus the
number of items) returns one and the same list of libraries, so the same group keys in the
same order, the same sorted member list for each group and the same display name for each
member. -/
theorem run_order_independent (L : Lowering) (sep : Char) (rels1 rels2 : List String) (thr : Int)
    (fuel : Nat) (hp : rels1.Perm rels2)
    (hf1 : (scan sep rels1).1.length + rels1.length < fuel)
    (hf2 : (scan sep rels2).1.length + rels2.length < fuel) :
    ∃ libs, run L sep rels1 thr fuel = some libs ∧ run L sep rels2 thr fuel = some libs := by
  obtain ⟨hrun1, libs, hlibs, _, _⟩ := run_spec L sep rels1 thr fuel hf1
  obtain ⟨hrun2, _⟩ := run_spec L sep rels2 thr fuel hf2
  have hpairs := scanPairs_perm sep rels1 rels2 thr hp
  generalize scanPairs sep rels1 thr = pairs1 at hrun1 hpairs
  generalize scanPairs sep rels2 thr = pairs2 at hrun2 hpairs
  obtain ⟨hnd1, hmem1⟩ := groupPairs_keys pairs1
  obtain ⟨hnd2, hmem2⟩ := groupPairs_keys pairs2
  have hkeys : ((groupPairs pairs1).map Prod.fst).Perm ((groupPairs pairs2).map Prod.fst) := by
    rw [List.perm_ext_iff_of_nodup hnd1 hnd2]
    intro k
    rw [hmem1, hmem2]
    exact (hpairs.map Prod.fst).mem_iff
  have hsame : writeLibraries L sep (groupPairs pairs2)
      (sortStrings ((groupPairs pairs2).map Prod.fst)) [] fuel =
      writeLibraries L sep (groupPairs pairs1)
        (sortStrings ((groupPairs pairs2).map Prod.fst)) [] fuel := by
    apply (writeLibraries_congr L)
    intro k _
    rw [groupPairs_lookup, groupPairs_lookup]
    exact sortStrings_eq_of_perm ((hpairs.symm.filter _).map _)
  refine ⟨libs, hlibs, ?_⟩
  rw [hrun2, hsame, ← sortStrings_eq_of_perm hkeys, ← hrun1]
  exact hlibs

/-- C9, witness: three files of two directories, in two orders. -/
theorem run_order_independent_witness :
    List.Perm ["a/b/x.p3d", "a/c/x.p3d", "a/b/y.p3d"] ["a/b/y.p3d", "a/b/x.p3d", "a/c/x.p3d"] ∧
    (scan '/' ["a/b/x.p3d", "a/c/x.p3d", "a/b/y.p3d"]).1.length +
      ["a/b/x.p3d", "a/c/x.p3d", "a/b/y.p3d"].length < 8 ∧
    (scan '/' ["a/b/y.p3d", "a/b/x.p3d", "a/c/x.p3d"]).1.length +
      ["a/b/y.p3d", "a/b/x.p3d", "a/c/x.p3d"].length < 8 ∧
    ∃ libs, run sampleL '/' ["a/b/x.p3d", "a/c/x.p3d", "a/b/y.p3d"] 75 8 = some libs ∧
      run sampleL '/' ["a/b/y.p3d", "a/b/x.p3d", "a/c/x.p3d"] 75 8 = some libs :=
  ⟨by decide, by decide, by decide,
    run_order_independent sampleL '/' ["a/b/x.p3d", "a/c/x.p3d", "a/b/y.p3d"]
      ["a/b/y.p3d", "a/b/x.p3d", "a/c/x.p3d"] 75 8 (by decide) (by decide) (by decide)⟩

/-- C10, counterexample: two queue items with one and the same path (a file below two
overlapping scan roots is walked twice) give a member list that holds the path twice: the
run evaluated with the sample lowercasing, and, for every lowercasing `L`, the one library
`a_b` of the run with its member list. -/
theorem members_not_deduplicated :
    run sampleL '/' ["a/b/x.p3d", "a/b/x.p3d"] 75 6 =
      some [{ Key := "a_b", LibName := "a_b", Members := ["a/b/x.p3d", "a/b/x.p3d"],
              Templates := [{ Name := "x", File := "a\\b\\x.p3d" },
                            { Name := "x_a", File := "a\\b\\x.p3d" }] }] ∧
    ¬ (["a/b/x.p3d", "a/b/x.p3d"] : List String).Nodup ∧
    ∀ L : Lowering, ∃ libs, run L '/' ["a/b/x.p3d", "a/b/x.p3d"] 75 6 = some libs ∧
      libs.map Library.Key = ["a_b"] ∧
      ∀ lib ∈ libs, lib.Members = ["a/b/x.p3d", "a/b/x.p3d"] := by
  refine ⟨by decide, by decide, fun L => ?_⟩
  obtain ⟨_, libs, hlibs, hkeys, hmem⟩ :=
    run_spec L '/' ["a/b/x.p3d", "a/b/x.p3d"] 75 6 (by decide)
  have hk : libs.map Library.Key = ["a_b"] := hkeys.trans (by decide)
  refine ⟨libs, hlibs, hk, fun lib hl => ?_⟩
  have hkey : lib.Key = "a_b" := by
    have : lib.Key ∈ libs.map Library.Key := List.mem_map_of_mem _ hl
    rw [hk] at this
    exact List.mem_singleton.1 this
  rw [hmem lib hl, hkey]
  decide

/-- C10, amended: for every list of queue items the run (with more fuel than the tree has
nodes plus the number of items) returns, and the member list of each library handed to the
writer is sorted lexicographically and holds exactly the paths of the records whose group
key is the library's, each as often as it was recorded; it holds no path twice when no
path was recorded twice. -/
theorem members_sorted (L : Lowering) (sep : Char) (rels : List String) (thr : Int) (fuel : Nat)
    (hf : (scan sep rels).1.length + rels.length < fuel) :
    ∃ libs, run L sep rels thr fuel = some libs ∧
      ∀ lib ∈ libs, List.Sorted strLE lib.Members ∧
        lib.Members.Perm (((scan sep rels).2.filter fun r =>
          groupKey (scan sep rels).1 thr fuel r = some lib.Key).map Rec.RelPath) ∧
        (((scan sep rels).2.map Rec.RelPath).Nodup → lib.Members.Nodup) := by
  obtain ⟨_, libs, hlibs, _, hmem⟩ := run_spec L sep rels thr fuel hf
  refine ⟨libs, hlibs, ?_⟩
  intro lib hl
  have hkeys := scan_groupKey sep rels thr fuel (by omega)
  obtain ⟨_, hrecs, _⟩ := scan_spec sep rels
  have hlist : (((scan sep rels).2.filter fun r =>
      groupKey (scan sep rels).1 thr fuel r = some lib.Key).map Rec.RelPath) =
      ((scanPairs sep rels thr).filter fun p => p.1 = lib.Key).map Prod.snd := by
    conv_lhs => rw [hrecs]
    unfold scanPairs
    rw [List.filter_map, List.filter_map, List.map_map, List.map_map]
    have hfilter : (scanned sep rels).filter ((fun r : Rec =>
          decide (groupKey (scan sep rels).1 thr fuel r = some lib.Key)) ∘ fun rel =>
            { DirNode := descend (scan sep rels).1 0 (dirSegsOf sep rel),
              RelPath := ToSlash sep rel }) =
        (scanned sep rels).filter ((fun p : String × String => decide (p.1 = lib.Key)) ∘
          fun rel => (keyOfPath (pickPath (pathCount (buildTree ((scanned sep rels).map
            (dirSegsOf sep))) 0) thr (dirSegsOf sep rel)), ToSlash sep rel)) := by
      apply List.filter_congr
      intro rel hrel
      simp only [Function.comp, hkeys rel hrel, Option.some.injEq]
    rw [hfilter]
    rfl
  have hm := hmem lib hl
  refine ⟨by rw [hm]; exact sortStrings_sorted _, ?_, ?_⟩
  · rw [hm, hlist]
    exact sortStrings_perm _
  · intro hnd
    have hsub : (((scan sep rels).2.filter fun r =>
        groupKey (scan sep rels).1 thr fuel r = some lib.Key).map Rec.RelPath).Sublist
        ((scan sep rels).2.map Rec.RelPath) := (List.filter_sublist _).map _
    rw [hm, (sortStrings_perm _).nodup_iff, ← hlist]
    exact hnd.sublist hsub

/-- C10, witness of the amended claim: three files of two directories. -/
theorem members_sorted_witness :
    (scan '/' ["a/b/y.p3d", "a/c/x.p3d", "a/b/x.p3d"]).1.length +
      ["a/b/y.p3d", "a/c/x.p3d", "a/b/x.p3d"].length < 8 ∧
    ∃ libs, run sampleL '/' ["a/b/y.p3d", "a/c/x.p3d", "a/b/x.p3d"] 75 8 = some libs ∧
      ∀ lib ∈ libs, List.Sorted strLE lib.Members ∧
        lib.Members.Perm (((scan '/' ["a/b/y.p3d", "a/c/x.p3d", "a/b/x.p3d"]).2.filter fun r =>
          groupKey (scan '/' ["a/b/y.p3d", "a/c/x.p3d", "a/b/x.p3d"]).1 75 8 r
            = some lib.Key).map Rec.RelPath) ∧
        (((scan '/' ["a/b/y.p3d", "a/c/x.p3d", "a/b/x.p3d"]).2.map Rec.RelPath).Nodup →
          lib.Members.Nodup) :=
  ⟨by decide, members_sorted sampleL '/' ["a/b/y.p3d", "a/c/x.p3d", "a/b/x.p3d"] 75 8 (by decide)⟩

/-! ## Naming: the three outcomes of a call -/

/-- C11: with `L` the lowercasing of the Go library, when the lowercase of `base` is not registered, `uniqueDisplayName` returns `base`
itself, letter case kept, whatever the fuel, and the registry afterwards is the old one
plus the single key `lowercase(base)`; the relative path (and the platform separator used
to read it) has no influence on the result. -/
theorem uniqueDisplayName_unused_base (L : Lowering) (sep : Char) (base relPath : String)
    (used : Registry)
    (fuel : Nat) (hb : toLower L base ∉ used) :
    uniqueDisplayName L sep base relPath used fuel = some (base, toLower L base :: used) ∧
    ∀ (sep2 : Char) (relPath2 : String) (fuel2 : Nat),
      uniqueDisplayName L sep2 base relPath2 used fuel2 =
        uniqueDisplayName L sep base relPath used fuel := by
  have h : ∀ (s : Char) (r : String) (f : Nat),
      uniqueDisplayName L s base r used f = some (base, toLower L base :: used) := by
    intro s r f
    simp [uniqueDisplayName, hb]
  exact ⟨h sep relPath fuel, fun s r f => by rw [h s r f, h sep relPath fuel]⟩

/-- C11, witness: the first call of the repository's test, on the empty registry. -/
theorem uniqueDisplayName_unused_base_witness :
    toLower sampleL "house" ∉ ([] : Registry) ∧
    (uniqueDisplayName sampleL '/' "house" "dz/structures/house.p3d" [] 0
        = some ("house", toLower sampleL "house" :: []) ∧
    ∀ (sep2 : Char) (relPath2 : String) (fuel2 : Nat),
      uniqueDisplayName sampleL sep2 "house" relPath2 [] fuel2 =
        uniqueDisplayName sampleL '/' "house" "dz/structures/house.p3d" [] 0) :=
  ⟨by decide, uniqueDisplayName_unused_base sampleL '/' "house" "dz/structures/house.p3d" [] 0
    (by decide)⟩

/-- Evaluations of the naming on letters outside ASCII, with the sample lowercasing: the
base `Ä` collides with the registered `ä` and gets the suffix; the Kelvin sign in `WRECKS`
lowercases to `k`, so that the keyword `wrecks` is found; three files `house`, the second
one below such a directory, are named `house`, `house_wreck` and `house_1`. -/
theorem uniqueDisplayName_beyond_ascii :
    toLower sampleL "ÄÉ" = "äé" ∧
    uniqueDisplayName sampleL '/' "Ä" "dz/a/Ä.p3d" ["ä"] 2 =
      some ("Ä_1", ["ä_1", "ä"]) ∧
    candidateName sampleL '/' "house" "dz/WREC\u212AS/house.p3d" = "house_wreck" ∧
    uniqueDisplayNames sampleL '/'
        [("house", "dz/a/house.p3d"), ("house", "dz/WREC\u212AS/house.p3d"),
          ("house", "dz/c/house.p3d")] [] 3 =
      some (["house", "house_wreck", "house_1"], ["house_1", "house_wreck", "house"]) := by
  decide

/-- The integer-suffix fallback of a call: the name `base_i` for the least `i ≥ 1` whose
lowercased name is unregistered. -/
theorem uniqueDisplayName_fallback (L : Lowering) (sep : Char) (base relPath : String)
    (used : Registry)
    (fuel : Nat) (hb : toLower L base ∈ used)
    (hc : candidateName L sep base relPath = "" ∨
      toLower L (candidateName L sep base relPath) ∈ used)
    (i : Nat) (hi : 1 ≤ i) (hfuel : i ≤ fuel) (hfree : toLower L (suffixName base i) ∉ used)
    (hused : ∀ j, 1 ≤ j → j < i → toLower L (suffixName base j) ∈ used) :
    uniqueDisplayName L sep base relPath used fuel =
      some (suffixName base i, toLower L (suffixName base i) :: used) := by
  obtain ⟨m, hm1, hm2, hloop, hmfree, _⟩ :=
    suffixLoop_least L base used fuel 1 i hi (by omega) hfree
  have hmi : m = i := by
    by_contra hne
    exact hmfree (hused m hm1 (by omega))
  subst hmi
  have hcand : ¬ (candidateName L sep base relPath ≠ "" ∧
      toLower L (candidateName L sep base relPath) ∉ used) := by
    rintro ⟨h1, h2⟩
    rcases hc with h | h
    · exact h1 h
    · exact h2 h
  simp only [uniqueDisplayName, hb, not_true_eq_false, if_false, hcand, hloop,
    Option.map_some']

/-- C12: with `L` the lowercasing of the Go library, when the lowercase of `base` is registered and the disambiguation candidate is
absent or registered (case-insensitively), `uniqueDisplayName` (with more fuel than the
registry has keys) returns `base`, an underscore and `i` written in decimal, where `i` is
the smallest positive integer for which the lowercase of that name is not in the registry,
and registers that lowercase. -/
theorem uniqueDisplayName_smallest_suffix (L : Lowering) (sep : Char) (base relPath : String)
    (used : Registry) (fuel : Nat) (hb : toLower L base ∈ used)
    (hc : candidateName L sep base relPath = "" ∨
      toLower L (candidateName L sep base relPath) ∈ used)
    (hf : used.length < fuel) :
    ∃ i, 1 ≤ i ∧
      uniqueDisplayName L sep base relPath used fuel =
        some (base ++ "_" ++ Nat.repr i, toLower L (base ++ "_" ++ Nat.repr i) :: used) ∧
      toLower L (base ++ "_" ++ Nat.repr i) ∉ used ∧
      ∀ j, 1 ≤ j → j < i → toLower L (base ++ "_" ++ Nat.repr j) ∈ used := by
  obtain ⟨j, hj1, hj2, hfree⟩ := exists_free_suffix L base used
  obtain ⟨m, hm1, hm2, _, hmfree, hleast⟩ :=
    suffixLoop_least L base used fuel 1 j hj1 (by omega) hfree
  exact ⟨m, hm1,
    uniqueDisplayName_fallback L sep base relPath used fuel hb hc m hm1 (by omega) hmfree hleast,
    hmfree, hleast⟩

/-- C12, witness: the second call of the repository's test: the registry holds `house` and
`house_wreck`, the path offers the candidate `house_wreck`, the result is `house_1`. -/
theorem uniqueDisplayName_smallest_suffix_witness :
    toLower sampleL "house" ∈ (["house", "house_wreck"] : Registry) ∧
    (candidateName sampleL '/' "house" "dz/structures/wrecks/house.p3d" = "" ∨
      toLower sampleL (candidateName sampleL '/' "house" "dz/structures/wrecks/house.p3d") ∈
        (["house", "house_wreck"] : Registry)) ∧
    (["house", "house_wreck"] : Registry).length < 3 ∧
    (∃ i, 1 ≤ i ∧
      uniqueDisplayName sampleL '/' "house" "dz/structures/wrecks/house.p3d"
          ["house", "house_wreck"] 3 =
        some ("house" ++ "_" ++ Nat.repr i,
          toLower sampleL ("house" ++ "_" ++ Nat.repr i) :: ["house", "house_wreck"]) ∧
      toLower sampleL ("house" ++ "_" ++ Nat.repr i) ∉ (["house", "house_wreck"] : Registry) ∧
      ∀ j, 1 ≤ j → j < i →
        toLower sampleL ("house" ++ "_" ++ Nat.repr j) ∈ (["house", "house_wreck"] : Registry)) ∧
    uniqueDisplayName sampleL '/' "house" "dz/structures/wrecks/house.p3d"
        ["house", "house_wreck"] 3 =
      some ("house_1", ["house_1", "house", "house_wreck"]) :=
  ⟨by decide, by decide, by decide,
    uniqueDisplayName_smallest_suffix sampleL '/' "house" "dz/structures/wrecks/house.p3d"
      ["house", "house_wreck"] 3 (by decide) (by decide) (by decide),
    by decide⟩

theorem mem_registryAfter (L : Lowering) (base : String) (k : Nat) (x : String) :
    x ∈ registryAfter L base k ↔
      (1 ≤ k ∧ x = toLower L base) ∨ ∃ j, 1 ≤ j ∧ j < k ∧ x = toLower L (suffixName base j) := by
  induction k using Nat.strongRecOn with
  | _ k ih =>
    match k with
    | 0 => simp [registryAfter]
    | 1 =>
      simp only [registryAfter, List.mem_singleton, le_refl, true_and]
      constructor
      · exact fun h => Or.inl h
      · rintro (h | ⟨j, h1, h2, _⟩)
        · exact h
        · omega
    | k + 2 =>
      simp only [registryAfter, List.mem_cons, ih (k + 1) (by omega)]
      constructor
      · rintro (h | ⟨_, h⟩ | ⟨j, h1, h2, h3⟩)
        · exact Or.inr ⟨k + 1, by omega, by omega, h⟩
        · exact Or.inl ⟨by omega, h⟩
        · exact Or.inr ⟨j, h1, by omega, h3⟩
      · rintro (⟨_, h⟩ | ⟨j, h1, h2, h3⟩)
        · exact Or.inr (Or.inl ⟨by omega, h⟩)
        · by_cases hj : j = k + 1
          · subst hj; exact Or.inl h3
          · exact Or.inr (Or.inr ⟨j, h1, by omega, h3⟩)

theorem length_registryAfter (L : Lowering) (base : String) (k : Nat) :
    (registryAfter L base k).length = k := by
  induction k using Nat.strongRecOn with
  | _ k ih =>
    match k with
    | 0 => rfl
    | 1 => rfl
    | k + 2 => simp [registryAfter, ih (k + 1) (by omega)]

theorem registryAfter_succ (L : Lowering) (base : String) (k : Nat) (hk : 1 ≤ k) :
    registryAfter L base (k + 1) = toLower L (suffixName base k) :: registryAfter L base k := by
  obtain ⟨j, rfl⟩ : ∃ j, k = j + 1 := ⟨k - 1, by omega⟩
  rfl

/-- A suffixed name never lowercases to the lowercase of the plain base: it is longer. -/
theorem toLower_suffixName_ne_base (L : Lowering) (base : String) (i : Nat) :
    toLower L (suffixName base i) ≠ toLower L base := by
  intro h
  have hlen := congrArg (fun s => s.data.length) h
  simp [toLower, suffixName, String.data_append] at hlen

theorem candidateName_of_noDisambiguation (L : Lowering) (sep : Char) (base relPath : String)
    (h : noDisambiguation L sep relPath) : candidateName L sep base relPath = "" := by
  obtain ⟨hseg, hkw⟩ := h
  have hk : keywordCandidate base (toLower L (ToSlash sep relPath)) = "" := by
    have h1 := hkw ("wrecks", "wreck") (by decide)
    have h2 := hkw ("ruins", "ruin") (by decide)
    have h3 := hkw ("bliss", "bliss") (by decide)
    have h4 := hkw ("sakhal", "sakhal") (by decide)
    have h5 := hkw ("proxy", "proxy") (by decide)
    have h6 := hkw ("military", "military") (by decide)
    have h7 := hkw ("furniture", "furniture") (by decide)
    have h8 := hkw ("residential", "residential") (by decide)
    have h9 := hkw ("industrial", "industrial") (by decide)
    simp only at h1 h2 h3 h4 h5 h6 h7 h8 h9
    simp [keywordCandidate, h1, h2, h3, h4, h5, h6, h7, h8, h9]
  unfold candidateName
  cases hs : splitSegs sep relPath with
  | nil => rw [hs] at hseg; simp at hseg
  | cons seg0 rest =>
    rw [hs] at hseg
    simp only [List.head?_cons, Option.map_some', Option.some.injEq] at hseg
    simp [hseg, hk]

/-- Calls number `k+1`, `k+2`, ... with one base on paths without disambiguation, after
`k ≥ 1` such calls: they return `base_k`, `base_(k+1)`, ... -/
theorem uniqueDisplayNames_suffix_run (L : Lowering) (sep : Char) (base : String) (fuel : Nat)
    (paths : List String) :
    ∀ (k : Nat), 1 ≤ k → (∀ rel ∈ paths, noDisambiguation L sep rel) →
      k + paths.length ≤ fuel + 1 →
      uniqueDisplayNames L sep (paths.map fun rel => (base, rel)) (registryAfter L base k) fuel =
        some ((List.range paths.length).map (fun j => suffixName base (k + j)),
          registryAfter L base (k + paths.length)) := by
  induction paths with
  | nil => intro k _ _ _; rfl
  | cons rel rest ih =>
    intro k hk hno hf
    simp only [List.length_cons] at hf
    have hcall : uniqueDisplayName L sep base rel (registryAfter L base k) fuel =
        some (suffixName base k, toLower L (suffixName base k) :: registryAfter L base k) := by
      apply uniqueDisplayName_fallback L sep base rel _ fuel
      · exact (mem_registryAfter L base k _).2 (Or.inl ⟨hk, rfl⟩)
      · exact Or.inl (candidateName_of_noDisambiguation L sep base rel
          (hno rel (List.mem_cons_self _ _)))
      · exact hk
      · omega
      · intro hmem
        rcases (mem_registryAfter L base k _).1 hmem with ⟨_, h⟩ | ⟨j, _, h2, h3⟩
        · exact toLower_suffixName_ne_base L base k h
        · have := toLower_suffixName_injective L base k j h3
          omega
      · intro j hj1 hj2
        exact (mem_registryAfter L base k _).2 (Or.inr ⟨j, hj1, hj2, rfl⟩)
    have hrest := ih (k + 1) (by omega)
      (fun r hr => hno r (List.mem_cons_of_mem _ hr)) (by omega)
    rw [registryAfter_succ L base k hk] at hrest
    simp only [List.map_cons, uniqueDisplayNames, hcall, hrest, Option.map_some',
      List.length_cons]
    have hreg : k + 1 + rest.length = k + (rest.length + 1) := by omega
    rw [hreg, List.range_succ_eq_map, List.map_cons, List.map_map]
    have hmap : List.map (fun j => suffixName base (k + 1 + j)) (List.range rest.length) =
        List.map ((fun j => suffixName base (k + j)) ∘ Nat.succ) (List.range rest.length) := by
      apply List.map_congr_left
      intro j _
      simp only [Function.comp, Nat.succ_eq_add_one]
      congr 1
      omega
    rw [hmap]
    rfl

/-- C13: for every base and every non-empty list of `N` relative paths that offer no usable
disambiguation (first segment `dz` up to letter case, no keyword in the lowercased path),
`N` successive calls of `uniqueDisplayName` with that base on the empty registry (with `N`
units of fuel or more) return, in call order, `base`, `base_1`, ..., `base_(N-1)`; so a
second call returns a non-empty name different from the first. -/
theorem uniqueDisplayNames_same_base (L : Lowering) (sep : Char) (base : String)
    (paths : List String)
    (fuel : Nat) (hne : paths ≠ []) (hno : ∀ rel ∈ paths, noDisambiguation L sep rel)
    (hf : paths.length ≤ fuel) :
    uniqueDisplayNames L sep (paths.map fun rel => (base, rel)) [] fuel =
      some (base :: (List.range (paths.length - 1)).map
          (fun j => base ++ "_" ++ Nat.repr (j + 1)),
        registryAfter L base paths.length) ∧
    (2 ≤ paths.length →
      base ++ "_" ++ Nat.repr 1 ≠ "" ∧ base ++ "_" ++ Nat.repr 1 ≠ base) := by
  refine ⟨?_, ?_⟩
  · cases paths with
    | nil => exact absurd rfl hne
    | cons rel rest =>
      simp only [List.length_cons] at hf
      have hfirst : uniqueDisplayName L sep base rel [] fuel = some
          (base, registryAfter L base 1) := by
        simp [uniqueDisplayName, registryAfter]
      have hrest := uniqueDisplayNames_suffix_run L sep base fuel rest 1 (le_refl _)
        (fun r hr => hno r (List.mem_cons_of_mem _ hr)) (by omega)
      simp only [List.map_cons, uniqueDisplayNames, hfirst, hrest, Option.map_some',
        List.length_cons, Nat.add_sub_cancel]
      have hreg : 1 + rest.length = rest.length + 1 := by omega
      rw [hreg]
      congr 3
      apply List.map_congr_left
      intro j _
      show suffixName base (1 + j) = suffixName base (j + 1)
      rw [Nat.add_comm]
  · intro _
    have hlen : (base ++ "_" ++ Nat.repr 1).data.length = base.data.length + 2 := by
      simp [String.data_append]
      rfl
    refine ⟨?_, ?_⟩
    · intro h
      rw [h] at hlen
      simp at hlen
    · intro h
      rw [h] at hlen
      omega

/-- C13, witness: three files named `house` below `dz`, none with a keyword. -/
theorem uniqueDisplayNames_same_base_witness :
    ["dz/a/house.p3d", "DZ/b/house.p3d", "dz/c/house.p3d"] ≠ [] ∧
    (∀ rel ∈ ["dz/a/house.p3d", "DZ/b/house.p3d", "dz/c/house.p3d"],
      noDisambiguation sampleL '/' rel) ∧
    ["dz/a/house.p3d", "DZ/b/house.p3d", "dz/c/house.p3d"].length ≤ 3 ∧
    (uniqueDisplayNames sampleL '/'
        (["dz/a/house.p3d", "DZ/b/house.p3d", "dz/c/house.p3d"].map fun rel => ("House", rel))
        [] 3 =
      some ("House" :: (List.range
          (["dz/a/house.p3d", "DZ/b/house.p3d", "dz/c/house.p3d"].length - 1)).map
          (fun j => "House" ++ "_" ++ Nat.repr (j + 1)),
        registryAfter sampleL "House"
            ["dz/a/house.p3d", "DZ/b/house.p3d", "dz/c/house.p3d"].length) ∧
    (2 ≤ ["dz/a/house.p3d", "DZ/b/house.p3d", "dz/c/house.p3d"].length →
      "House" ++ "_" ++ Nat.repr 1 ≠ "" ∧ "House" ++ "_" ++ Nat.repr 1 ≠ "House")) ∧
    uniqueDisplayNames sampleL '/'
        (["dz/a/house.p3d", "DZ/b/house.p3d", "dz/c/house.p3d"].map fun rel => ("House", rel))
        [] 3 = some (["House", "House_1", "House_2"], ["house_2", "house_1", "house"]) :=
  ⟨by decide, by decide, by decide,
    uniqueDisplayNames_same_base sampleL '/' "House"
      ["dz/a/house.p3d", "DZ/b/house.p3d", "dz/c/house.p3d"] 3 (by decide) (by decide)
      (by decide),
    by decide⟩

theorem append_underscore_tag (base tag : String) :
    base ++ "_" ++ tag = base ++ ("_" ++ tag) := String.append_assoc _ _ _

/-- The keyword branches of the source pick the tag of the first keyword of the table that
occurs in the lowercased path. -/
theorem keywordCandidate_eq_find (base lowerPath : String) :
    keywordCandidate base lowerPath =
      match categoryKeywords.find? (fun kt => Contains lowerPath kt.1) with
      | some kt => base ++ "_" ++ kt.2
      | none => "" := by
  unfold keywordCandidate categoryKeywords
  simp only [List.find?, append_underscore_tag]
  cases Contains lowerPath "wrecks"
  · cases Contains lowerPath "ruins"
    · cases Contains lowerPath "bliss"
      · cases Contains lowerPath "sakhal"
        · cases Contains lowerPath "proxy"
          · cases Contains lowerPath "military"
            · cases Contains lowerPath "furniture"
              · cases Contains lowerPath "residential"
                · cases Contains lowerPath "industrial"
                  · rfl
                  · rfl
                · rfl
              · rfl
            · rfl
          · rfl
        · rfl
      · rfl
    · rfl
  · rfl

/-- C14: with `L` the lowercasing of the Go library, in a call of `uniqueDisplayName` whose lowercased base is registered, the
disambiguation candidate is, when the path has a first segment that is not `dz` up to
letter case, `base`, an underscore and that segment (whatever keywords the path holds);
otherwise it is `base`, an underscore and the tag of the first keyword, in the order
wrecks, ruins, bliss, sakhal, proxy, military, furniture, residential, industrial, that
occurs in the lowercased path, and there is no candidate when none occurs; a candidate
whose lowercase is unregistered is the returned name, and that lowercase is registered. -/
theorem candidate_priority (L : Lowering) (sep : Char) (base relPath : String) (used : Registry)
    (fuel : Nat) (hb : toLower L base ∈ used) :
    (∀ seg0 rest, splitSegs sep relPath = seg0 :: rest → toLower L seg0 ≠ "dz" →
      candidateName L sep base relPath = base ++ "_" ++ seg0) ∧
    ((splitSegs sep relPath = [] ∨
        ∃ seg0 rest, splitSegs sep relPath = seg0 :: rest ∧ toLower L seg0 = "dz") →
      candidateName L sep base relPath =
        match categoryKeywords.find? (fun kt => Contains (toLower L (ToSlash sep relPath)) kt.1)
        with
        | some kt => base ++ "_" ++ kt.2
        | none => "") ∧
    (candidateName L sep base relPath ≠ "" →
      toLower L (candidateName L sep base relPath) ∉ used →
      uniqueDisplayName L sep base relPath used fuel =
        some (candidateName L sep base relPath,
          toLower L (candidateName L sep base relPath) :: used)) := by
  refine ⟨?_, ?_, ?_⟩
  · intro seg0 rest hs hne
    simp [candidateName, hs, hne]
  · intro hcase
    rw [← keywordCandidate_eq_find]
    rcases hcase with hs | ⟨seg0, rest, hs, hdz⟩
    · simp [candidateName, hs]
    · simp [candidateName, hs, hdz]
  · intro h1 h2
    simp [uniqueDisplayName, hb, h1, h2]

/-- C14, witness: `house` is registered; a path below `mods` yields `house_mods` although
it holds the keyword `wrecks`, a path below `dz` with `ruins` before `wrecks` in the text
yields the tag of `wrecks`, the first keyword of the table. -/
theorem candidate_priority_witness :
    toLower sampleL "house" ∈ (["house"] : Registry) ∧
    ((∀ seg0 rest, splitSegs '/' "dz/ruins/wrecks/house.p3d" = seg0 :: rest →
      toLower sampleL seg0 ≠ "dz" →
      candidateName sampleL '/' "house" "dz/ruins/wrecks/house.p3d" = "house" ++ "_" ++ seg0) ∧
    ((splitSegs '/' "dz/ruins/wrecks/house.p3d" = [] ∨
        ∃ seg0 rest, splitSegs '/' "dz/ruins/wrecks/house.p3d" = seg0 :: rest ∧
          toLower sampleL seg0 = "dz") →
      candidateName sampleL '/' "house" "dz/ruins/wrecks/house.p3d" =
        match categoryKeywords.find?
          (fun kt => Contains (toLower sampleL (ToSlash '/' "dz/ruins/wrecks/house.p3d")) kt.1) with
        | some kt => "house" ++ "_" ++ kt.2
        | none => "") ∧
    (candidateName sampleL '/' "house" "dz/ruins/wrecks/house.p3d" ≠ "" →
      toLower sampleL (candidateName sampleL '/' "house" "dz/ruins/wrecks/house.p3d") ∉
        (["house"] : Registry) →
      uniqueDisplayName sampleL '/' "house" "dz/ruins/wrecks/house.p3d" ["house"] 0 =
        some (candidateName sampleL '/' "house" "dz/ruins/wrecks/house.p3d",
          toLower sampleL (candidateName sampleL '/' "house" "dz/ruins/wrecks/house.p3d") ::
              ["house"]))) ∧
    uniqueDisplayName sampleL '/' "house" "dz/ruins/wrecks/house.p3d" ["house"] 0 =
      some ("house_wreck", ["house_wreck", "house"]) ∧
    uniqueDisplayName sampleL '/' "house" "mods/wrecks/house.p3d" ["house"] 0 =
      some ("house_mods", ["house_mods", "house"]) :=
  ⟨by decide, candidate_priority sampleL '/' "house" "dz/ruins/wrecks/house.p3d" ["house"] 0
    (by decide), by decide, by decide⟩

/-- The suffix loop finds an unregistered name among `base_1 .. base_(n+1)`, where `n` is
the number of different keys of the registry. -/
theorem exists_free_suffix_card (L : Lowering) (base : String) (used : Registry) :
    ∃ j, 1 ≤ j ∧ j ≤ used.toFinset.card + 1 ∧ toLower L (suffixName base j) ∉ used := by
  by_contra hall
  push_neg at hall
  have hcard : (Finset.Icc 1 (used.toFinset.card + 1)).card ≤ used.toFinset.card := by
    apply Finset.card_le_card_of_injOn (fun j => toLower L (suffixName base j))
    · intro j hj
      have := Finset.mem_Icc.1 hj
      exact List.mem_toFinset.2 (hall j this.1 this.2)
    · intro a _ b _ hab
      exact toLower_suffixName_injective L base a b hab
  have h1 : (Finset.Icc 1 (used.toFinset.card + 1)).card = used.toFinset.card + 1 := by simp
  omega

/-- C15: `uniqueDisplayName` returns for every base, path and registry: with `n` the
number of different keys of the registry, the integer-suffix loop, allowed `n + 1`
iterations or more, stops at a name `base_m` with `m ≤ n + 1`, so after at most `n + 1`
iterations, and the call returns a name and the registry with one more key. -/
theorem uniqueDisplayName_terminates (L : Lowering) (sep : Char) (base relPath : String)
    (used : Registry)
    (extra : Nat) :
    (∃ m, 1 ≤ m ∧ m ≤ used.toFinset.card + 1 ∧
      suffixLoop L base used (used.toFinset.card + 1 + extra) 1 = some (suffixName base m) ∧
      suffixLoop L base used m 1 = some (suffixName base m)) ∧
    ∃ name, uniqueDisplayName L sep base relPath used (used.toFinset.card + 1 + extra) =
      some (name, toLower L name :: used) := by
  obtain ⟨j, hj1, hj2, hfree⟩ := exists_free_suffix_card L base used
  obtain ⟨m, hm1, hm2, hloop, hmfree, hleast⟩ :=
    suffixLoop_least L base used (used.toFinset.card + 1 + extra) 1 j hj1 (by omega) hfree
  obtain ⟨m2, hm21, hm22, hloop2, hfree2, _⟩ :=
    suffixLoop_least L base used m 1 m hm1 (by omega) hmfree
  have hmm : m2 = m := by
    by_contra hne
    exact hfree2 (hleast m2 hm21 (by omega))
  rw [hmm] at hloop2
  refine ⟨⟨m, hm1, by omega, hloop, hloop2⟩, ?_⟩
  unfold uniqueDisplayName
  by_cases hb : toLower L base ∈ used
  · by_cases hc : candidateName L sep base relPath ≠ "" ∧
        toLower L (candidateName L sep base relPath) ∉ used
    · exact ⟨candidateName L sep base relPath, by simp [hb, hc]⟩
    · exact ⟨suffixName base m, by
        simp only [hb, not_true_eq_false, if_false, hc, hloop, Option.map_some']⟩
  · exact ⟨base, by simp [hb]⟩

/-! ## The hash -/

theorem wrapInt32_range (x : Int) :
    -2147483648 ≤ wrapInt32 x ∧ wrapInt32 x ≤ 2147483647 ∧
      (wrapInt32 x - x) % 4294967296 = 0 := by
  unfold wrapInt32
  omega

theorem hashStep_eq (h c : Int) : hashStep h c = wrapInt32 (c + 65599 * h) := by
  unfold hashStep wrapInt32
  omega

theorem hashBytes_snoc (bytes : List Nat) (c : Nat) :
    hashBytes (bytes ++ [c]) = hashStep (hashBytes bytes) c := by
  simp [hashBytes, List.foldl_append]

/-- C16: `hashP3D` is the 32-bit wrapping polynomial hash over the bytes of the input, left
to right: the hash of the empty string is 0; the hash of `bytes` followed by the byte `c`
is `c + (h<<6) + (h<<16) - h` computed on `int32`, with `h` the hash of `bytes`, which is
`c + 65599*h` reduced modulo `2^32` to the range of a signed 32-bit integer; the hash of
`a` is 97, of `ab` 6363201, and the hash of `abcd` has wrapped to -776331134. -/
theorem hashP3D_polynomial :
    hashP3D "" = 0 ∧
    (∀ s, hashP3D s = hashBytes (utf8Bytes s)) ∧
    hashBytes [] = 0 ∧
    (∀ (bytes : List Nat) (c : Nat),
      hashBytes (bytes ++ [c]) = hashStep (hashBytes bytes) c ∧
      hashStep (hashBytes bytes) c = wrapInt32 (c + 65599 * hashBytes bytes)) ∧
    (∀ x : Int, -2147483648 ≤ wrapInt32 x ∧ wrapInt32 x ≤ 2147483647 ∧
      (wrapInt32 x - x) % 4294967296 = 0) ∧
    hashP3D "a" = 97 ∧ hashP3D "ab" = 6363201 ∧ hashP3D "abcd" = -776331134 := by
  refine ⟨by decide, fun _ => rfl, rfl, ?_, wrapInt32_range, by decide, by decide, by decide⟩
  intro bytes c
  exact ⟨hashBytes_snoc bytes c, hashStep_eq _ _⟩

/-! ## The end-to-end scenario -/

theorem scenario_prefixCount :
    prefixCount scenarioPaths ["a"] = 201 ∧ prefixCount scenarioPaths ["a", "b"] = 200 ∧
      prefixCount scenarioPaths ["a", "c"] = 1 := by
  unfold prefixCount scenarioPaths
  refine ⟨?_, ?_, ?_⟩ <;> rw [List.countP_append, List.countP_replicate] <;> decide

/-- In a tree built from a fresh root, a directory path that is a prefix of an inserted
path has a node, with the number of such inserted paths as count. -/
theorem buildTree_node (paths : List (List String)) (q : List String)
    (hq : 0 < prefixCount paths q) :
    ∃ i, descend (buildTree paths) 0 q = some i ∧
      countOf (buildTree paths) (some i) = prefixCount paths q := by
  have h := (buildTree_spec paths).2 q
  rw [if_pos (Or.inr hq)] at h
  unfold pathCount at h
  cases hd : descend (buildTree paths) 0 q with
  | none => rw [hd] at h; cases h
  | some i =>
    rw [hd, Option.map_some', Option.some.injEq] at h
    exact ⟨i, rfl, h⟩

/-- The group of a node at depth 2 or less is the node itself. -/
theorem WellFormed.pickGroup_shallow {h : Heap} {r : Nat} (hwf : WellFormed h r) (thr : Int)
    {q : List String} {i : Nat} (hq : descend h r q = some i) (hlen : q.length ≤ 2)
    (fuel : Nat) (hf : q.length < fuel) :
    pickGroup h (some i) thr fuel = some (some i) := by
  rw [pickGroup_eq_loop h thr i q.length fuel (hwf.descend_depth hq) hf]
  obtain ⟨f, rfl⟩ : ∃ f, fuel = f + 1 := ⟨fuel - 1, by omega⟩
  have hc : climbs h thr (some i) = false := by
    rw [← Bool.not_eq_true, hwf.climbs_iff hq]
    omega
  simp [pickGroupLoop, hc]

/-- C19: in a tree obtained from a fresh root by inserting the directory path `a/b` 200
times and `a/c` once, in any order, with threshold 75 (and 3 units of fuel or more): the
nodes `a`, `a/b` and `a/c` exist, with counts 201, 200 and 1; `pickGroup` of the `a/b` node
is that node, with key `a_b`; `pickGroup` of the `a/c` node is the `a/c` node, with key
`a_c`, a node different from `a/b` and from the ancestors `a` and root of `a/b`; so
records of `a/b` and of `a/c` get two different group keys. -/
theorem scenario_two_groups (paths : List (List String)) (fuel : Nat)
    (hp : paths.Perm scenarioPaths) (hf : 3 ≤ fuel) :
    ∃ na nb nc, descend (buildTree paths) 0 ["a"] = some na ∧
      descend (buildTree paths) 0 ["a", "b"] = some nb ∧
      descend (buildTree paths) 0 ["a", "c"] = some nc ∧
      countOf (buildTree paths) (some na) = 201 ∧
      countOf (buildTree paths) (some nb) = 200 ∧
      countOf (buildTree paths) (some nc) = 1 ∧
      pickGroup (buildTree paths) (some nb) 75 fuel = some (some nb) ∧
      nodeKey (buildTree paths) (some nb) fuel = some "a_b" ∧
      pickGroup (buildTree paths) (some nc) 75 fuel = some (some nc) ∧
      nodeKey (buildTree paths) (some nc) fuel = some "a_c" ∧
      parentOf (buildTree paths) (some nb) = some na ∧
      parentOf (buildTree paths) (some na) = some 0 ∧
      parentOf (buildTree paths) (some 0) = none ∧
      nc ≠ nb ∧ nc ≠ na ∧ nc ≠ 0 ∧
      ∀ rel1 rel2, groupKey (buildTree paths) 75 fuel { DirNode := some nb, RelPath := rel1 } ≠
        groupKey (buildTree paths) 75 fuel { DirNode := some nc, RelPath := rel2 } := by
  have hwf := (buildTree_spec paths).1
  have hcnt : ∀ q, prefixCount paths q = prefixCount scenarioPaths q := fun q => hp.countP_eq _
  obtain ⟨ca, cb, cc⟩ := scenario_prefixCount
  obtain ⟨na, hna, hca⟩ := buildTree_node paths ["a"] (by rw [hcnt, ca]; decide)
  obtain ⟨nb, hnb, hcb⟩ := buildTree_node paths ["a", "b"] (by rw [hcnt, cb]; decide)
  obtain ⟨nc, hnc, hcc⟩ := buildTree_node paths ["a", "c"] (by rw [hcnt, cc]; decide)
  rw [hcnt, ca] at hca
  rw [hcnt, cb] at hcb
  rw [hcnt, cc] at hcc
  have hpb := hwf.pickGroup_shallow 75 hnb (by decide) fuel (by simpa using hf)
  have hpc := hwf.pickGroup_shallow 75 hnc (by decide) fuel (by simpa using hf)
  have hkb : nodeKey (buildTree paths) (some nb) fuel = some "a_b" := by
    rw [hwf.nodeKey_eq hnb fuel (by simpa using hf)]
    decide
  have hkc : nodeKey (buildTree paths) (some nc) fuel = some "a_c" := by
    rw [hwf.nodeKey_eq hnc fuel (by simpa using hf)]
    decide
  obtain ⟨a1, ha1, _, hparb, _⟩ :=
    hwf.descend_snoc_some (q := ["a"]) (s := "b") (n := 0) (by simpa using hnb)
  rw [hna] at ha1
  cases ha1
  obtain ⟨r1, hr1, _, hpara, _⟩ :=
    hwf.descend_snoc_some (q := []) (s := "a") (n := 0) (by simpa using hna)
  rw [descend_nil] at hr1
  cases hr1
  have hne : ∀ (q : List String) (x : Nat), descend (buildTree paths) 0 q = some x →
      q ≠ ["a", "c"] → nc ≠ x := by
    intro q x hx hq hcx
    rw [hcx] at hnc
    exact hq (hwf.path_unique hx hnc)
  refine ⟨na, nb, nc, hna, hnb, hnc, by exact_mod_cast hca, by exact_mod_cast hcb,
    by exact_mod_cast hcc, hpb, hkb, hpc, hkc, hparb, hpara, hwf.root_parent,
    hne _ nb hnb (by decide), hne _ na hna (by decide),
    hne [] 0 (descend_nil _ _) (by decide), ?_⟩
  intro rel1 rel2
  simp only [groupKey, hpb, hpc, Option.some_bind, hkb, hkc]
  decide

/-- C19, witness: the two hundred insertions of `a/b` first, then the one of `a/c`. -/
theorem scenario_two_groups_witness :
    scenarioPaths.Perm scenarioPaths ∧ 3 ≤ 3 ∧
    ∃ na nb nc, descend (buildTree scenarioPaths) 0 ["a"] = some na ∧
      descend (buildTree scenarioPaths) 0 ["a", "b"] = some nb ∧
      descend (buildTree scenarioPaths) 0 ["a", "c"] = some nc ∧
      countOf (buildTree scenarioPaths) (some na) = 201 ∧
      countOf (buildTree scenarioPaths) (some nb) = 200 ∧
      countOf (buildTree scenarioPaths) (some nc) = 1 ∧
      pickGroup (buildTree scenarioPaths) (some nb) 75 3 = some (some nb) ∧
      nodeKey (buildTree scenarioPaths) (some nb) 3 = some "a_b" ∧
      pickGroup (buildTree scenarioPaths) (some nc) 75 3 = some (some nc) ∧
      nodeKey (buildTree scenarioPaths) (some nc) 3 = some "a_c" ∧
      parentOf (buildTree scenarioPaths) (some nb) = some na ∧
      parentOf (buildTree scenarioPaths) (some na) = some 0 ∧
      parentOf (buildTree scenarioPaths) (some 0) = none ∧
      nc ≠ nb ∧ nc ≠ na ∧ nc ≠ 0 ∧
      ∀ rel1 rel2,
        groupKey (buildTree scenarioPaths) 75 3 { DirNode := some nb, RelPath := rel1 } ≠
          groupKey (buildTree scenarioPaths) 75 3 { DirNode := some nc, RelPath := rel2 } :=
  ⟨List.Perm.refl _, le_refl _, scenario_two_groups scenarioPaths 3 (List.Perm.refl _)
    (le_refl _)⟩

/-! ## Skip rules: lowercasing commutes with normalisation -/

/-- A word of ASCII characters that are not letters is the lowercase of itself only. -/
theorem map_toLower_eq_iff (L : Lowering) (w l : List Char) (hw : ∀ x ∈ w, isAsciiSymbol x) :
    l.map L.lower = w ↔ l = w := by
  induction l generalizing w with
  | nil => simp
  | cons c l ih =>
    cases w with
    | nil => simp
    | cons x w =>
      simp only [List.map_cons, List.cons.injEq]
      rw [lower_eq_iff L c x (hw x (List.mem_cons_self _ _)),
        ih w (fun y hy => hw y (List.mem_cons_of_mem _ hy))]

theorem isPrefixOf_map_toLower (L : Lowering) (w l : List Char) (hw : ∀ x ∈ w, isAsciiSymbol x) :
    w.isPrefixOf (l.map L.lower) = w.isPrefixOf l := by
  induction w generalizing l with
  | nil => simp
  | cons x w ih =>
    cases l with
    | nil => simp
    | cons c l =>
      simp only [List.map_cons, List.isPrefixOf_cons₂]
      rw [ih l (fun y hy => hw y (List.mem_cons_of_mem _ hy))]
      congr 1
      have := lower_eq_iff L c x (hw x (List.mem_cons_self _ _))
      by_cases hcx : c = x
      · have h2 := this.2 hcx
        subst hcx
        simp [h2]
      · have h2 : ¬ L.lower c = x := fun h => hcx (this.1 h)
        have h3 : ¬ x = c := fun h => hcx h.symm
        have h4 : ¬ x = L.lower c := fun h => h2 h.symm
        simp [h3, h4]

theorem dropWhile_isSpace_map (L : Lowering) (l : List Char) :
    (l.map L.lower).dropWhile isSpace = (l.dropWhile isSpace).map L.lower := by
  induction l with
  | nil => rfl
  | cons c l ih =>
    simp only [List.map_cons, List.dropWhile_cons, L.space]
    split
    · exact ih
    · rfl

theorem TrimSpace_toLower (L : Lowering) (s : String) : TrimSpace (toLower L s) = toLower L
    (TrimSpace s) := by
  simp only [TrimSpace, toLower, dropWhile_isSpace_map L, ← List.map_reverse]

theorem splitOn_map_toLower (L : Lowering) (l : List Char) :
    (l.map L.lower).splitOn '/' = (l.splitOn '/').map (List.map L.lower) := by
  simp only [List.splitOn]
  induction l with
  | nil => simp
  | cons c l ih =>
    have hc : (L.lower c == '/') = (c == '/') := by
      have := lower_eq_iff L c '/' (by decide)
      by_cases h : c = '/'
      · simp [h, lower_symbol L '/' (by decide)]
      · have h2 : ¬ L.lower c = '/' := fun h3 => h (this.1 h3)
        simp [h, h2]
    rw [List.map_cons, List.splitOnP_cons, List.splitOnP_cons, hc, ih]
    split
    · simp
    · cases List.splitOnP (fun x => x == '/') l with
      | nil => rfl
      | cons e es => rfl


theorem ToSlash_toLower (L : Lowering) (sep : Char) (hsep : isAsciiSymbol sep) (s : String) :
    ToSlash sep (toLower L s) = toLower L (ToSlash sep s) := by
  unfold ToSlash
  by_cases h : sep = '/'
  · simp [h]
  · simp only [h, if_false, toLower, List.map_map]
    congr 1
    apply List.map_congr_left
    intro c _
    simp only [Function.comp]
    have := lower_eq_iff L c sep hsep
    by_cases hc : c = sep
    · rw [if_pos (this.2 hc), if_pos hc]
      exact (lower_symbol L '/' (by decide)).symm
    · rw [if_neg (fun h2 => hc (this.1 h2)), if_neg hc]

theorem intercalate_map_toLower (L : Lowering) : ∀ (ls : List (List Char)),
    ['/'].intercalate (ls.map (List.map L.lower)) =
      (['/'].intercalate ls).map L.lower
  | [] => rfl
  | [a] => by simp [List.intercalate]
  | a :: b :: rest => by
    have ih := intercalate_map_toLower L (b :: rest)
    simp only [List.intercalate, List.map_cons, List.intersperse_cons₂, List.flatten_cons,
      List.map_append] at ih ⊢
    rw [ih]
    simp [lower_symbol L '/' (by decide)]

theorem cleanElem_map_toLower (L : Lowering) (rooted : Bool) (stack : List (List Char))
    (elem : List Char) :
    cleanElem rooted (stack.map (List.map L.lower)) (elem.map L.lower) =
      (cleanElem rooted stack elem).map (List.map L.lower) := by
  have h0 : elem.map L.lower = [] ↔ elem = [] := List.map_eq_nil_iff
  have h1 : elem.map L.lower = ['.'] ↔ elem = ['.'] :=
    map_toLower_eq_iff L ['.'] elem (by decide)
  have h2 : elem.map L.lower = ['.', '.'] ↔ elem = ['.', '.'] :=
    map_toLower_eq_iff L ['.', '.'] elem (by decide)
  unfold cleanElem
  simp only [h0, h1, h2]
  by_cases ha : elem = [] ∨ elem = ['.']
  · simp only [ha, if_true]
  · simp only [ha, if_false]
    by_cases hb : elem = ['.', '.']
    · simp only [hb, if_true]
      cases stack with
      | nil => cases rooted <;> simp [lower_symbol L '.' (by decide)]
      | cons top rest =>
        have h3 : top.map L.lower = ['.', '.'] ↔ top = ['.', '.'] :=
          map_toLower_eq_iff L ['.', '.'] top (by decide)
        simp only [List.map_cons, h3]
        by_cases ht : top = ['.', '.']
        · simp only [ht, if_true]
          cases rooted <;> simp [lower_symbol L '.' (by decide)]
        · simp only [ht, if_false]
    · simp only [hb, if_false, List.map_cons]

theorem foldl_cleanElem_map_toLower (L : Lowering) (rooted : Bool) (elems : List (List Char)) :
    ∀ (stack : List (List Char)),
      (elems.map (List.map L.lower)).foldl (cleanElem rooted)
          (stack.map (List.map L.lower)) =
        (elems.foldl (cleanElem rooted) stack).map (List.map L.lower) := by
  induction elems with
  | nil => intro stack; rfl
  | cons e es ih =>
    intro stack
    simp only [List.map_cons, List.foldl_cons, cleanElem_map_toLower L, ih]

/-- Go `path.Clean` commutes with lowercasing. -/
theorem Clean_toLower (L : Lowering) (s : String) : Clean (toLower L s) = toLower L (Clean s) := by
  unfold Clean
  have hnil : (toLower L s).data = [] ↔ s.data = [] := List.map_eq_nil_iff
  have hroot : ((toLower L s).data.head? = some '/') ↔ (s.data.head? = some '/') := by
    show ((s.data.map L.lower).head? = some '/') ↔ _
    rw [List.head?_map]
    cases s.data.head? with
    | none => simp
    | some c => simpa using lower_eq_iff L c '/' (by decide)
  have hstack : ∀ r, ((toLower L s).data.splitOn '/').foldl (cleanElem r) [] =
      ((s.data.splitOn '/').foldl (cleanElem r) []).map (List.map L.lower) := by
    intro r
    show ((s.data.map L.lower).splitOn '/').foldl (cleanElem r) [] = _
    rw [splitOn_map_toLower L]
    exact foldl_cleanElem_map_toLower L r _ []
  have hdot : toLower L "." = "." := toLower_symbols L "." (by decide)
  by_cases h0 : s.data = []
  · rw [if_pos h0, if_pos (hnil.2 h0), hdot]
  · rw [if_neg h0, if_neg (fun h => h0 (hnil.1 h))]
    simp only [hstack, decide_eq_decide.2 hroot]
    by_cases hr : s.data.head? = some '/'
    · simp only [hr, decide_True, if_true, ← List.map_reverse, intercalate_map_toLower L]
      apply String.ext
      simp [toLower, lower_symbol L '/' (by decide)]
    · simp only [hr, decide_False, Bool.false_eq_true, if_false, List.map_eq_nil_iff]
      by_cases hs : (s.data.splitOn '/').foldl (cleanElem false) [] = []
      · simp only [hs, if_true, hdot]
      · simp only [hs, if_false, ← List.map_reverse, intercalate_map_toLower L]
        rfl

theorem TrimPrefix_toLower (L : Lowering) (s w : String) (hw : ∀ x ∈ w.data, isAsciiSymbol x) :
    TrimPrefix (toLower L s) w = toLower L (TrimPrefix s w) := by
  unfold TrimPrefix
  have h : w.data.isPrefixOf (toLower L s).data = w.data.isPrefixOf s.data :=
    isPrefixOf_map_toLower L w.data s.data hw
  rw [h]
  split
  · simp [toLower, List.map_drop]
  · rfl

theorem TrimLeft_toLower (L : Lowering) (s w : String) (hw : ∀ x ∈ w.data, isAsciiSymbol x) :
    TrimLeft (toLower L s) w = toLower L (TrimLeft s w) := by
  unfold TrimLeft
  simp only [toLower, List.dropWhile_map]
  have hf : ((fun c => decide (c ∈ w.data)) ∘ L.lower) = fun c => decide (c ∈ w.data) := by
    funext c
    simp only [Function.comp, decide_eq_decide]
    constructor
    · intro hmem
      have := (lower_eq_iff L c _ (hw _ hmem)).1 rfl
      rw [← this] at hmem
      exact hmem
    · intro hmem
      rw [(lower_eq_iff L c c (hw c hmem)).2 rfl]
      exact hmem
  rw [hf]

theorem toLower_eq_word_iff (L : Lowering) (s w : String) (hw : ∀ x ∈ w.data, isAsciiSymbol x) :
    toLower L s = w ↔ s = w := by
  constructor
  · intro h
    have hd := congrArg String.data h
    exact String.ext ((map_toLower_eq_iff L w.data s.data hw).1 hd)
  · intro h
    rw [h]
    exact String.ext ((map_toLower_eq_iff L w.data w.data hw).2 rfl)

theorem HasPrefix_toLower (L : Lowering) (s w : String) (hw : ∀ x ∈ w.data, isAsciiSymbol x) :
    HasPrefix (toLower L s) w = HasPrefix s w :=
  isPrefixOf_map_toLower L w.data s.data hw

/-- Go `normalizeRelForMatch` commutes with lowercasing, for a separator that is not a
letter. -/
theorem normalizeRelForMatch_toLower (L : Lowering) (sep : Char) (hsep : isAsciiSymbol sep)
    (rel : String) :
    normalizeRelForMatch sep (toLower L rel) = toLower L (normalizeRelForMatch sep rel) := by
  unfold normalizeRelForMatch
  rw [TrimSpace_toLower]
  have hempty : toLower L (TrimSpace rel) = "" ↔ TrimSpace rel = "" :=
    toLower_eq_word_iff L _ "" (by decide)
  by_cases h0 : TrimSpace rel = ""
  · rw [if_pos h0, if_pos (hempty.2 h0)]
    rfl
  · rw [if_neg h0, if_neg (fun h => h0 (hempty.1 h))]
    simp only [ToSlash_toLower L sep hsep, Clean_toLower,
      TrimPrefix_toLower L _ "./" (by decide), TrimLeft_toLower L _ "/" (by decide)]
    generalize TrimLeft (TrimPrefix (Clean (ToSlash sep (TrimSpace rel))) "./") "/" = r
    have hc : (toLower L r = "." ∨ toLower L r = ".." ∨ HasPrefix (toLower L r) "../" = true) ↔
        (r = "." ∨ r = ".." ∨ HasPrefix r "../" = true) := by
      rw [toLower_eq_word_iff L r "." (by decide), toLower_eq_word_iff L r ".." (by decide),
        HasPrefix_toLower L r "../" (by decide)]
    by_cases h1 : r = "." ∨ r = ".." ∨ HasPrefix r "../" = true
    · rw [if_pos h1, if_pos (hc.2 h1)]
      rfl
    · rw [if_neg h1, if_neg (fun h => h1 (hc.1 h))]

/-! ## Skip rules: the matching loop -/

theorem HasPrefix_self_append (rel p q : String) (h : HasPrefix rel (p ++ q) = true) :
    HasPrefix rel p = true := by
  unfold HasPrefix at h ⊢
  rw [List.isPrefixOf_iff_prefix] at h ⊢
  rw [String.data_append] at h
  exact (List.prefix_append p.data q.data).trans h

theorem HasPrefix_refl (p : String) : HasPrefix p p = true := by
  unfold HasPrefix
  rw [List.isPrefixOf_iff_prefix]

/-- The non-star test of the loop body, `rel == p || HasPrefix(rel, p+"/") ||
HasPrefix(rel, p)`, is the plain string-prefix test. -/
theorem plain_rule_iff (rel p : String) :
    (rel = p ∨ HasPrefix rel (p ++ "/") = true ∨ HasPrefix rel p = true) ↔
      HasPrefix rel p = true := by
  constructor
  · rintro (h | h | h)
    · rw [h]; exact HasPrefix_refl p
    · exact HasPrefix_self_append rel p "/" h
    · exact h
  · intro h
    exact Or.inr (Or.inr h)

/-- The loop of `matchSkip` answers true exactly when some rule accepts the candidate: a
star rule through its non-empty stripped form, a plain rule through the string-prefix
test. -/
theorem matchLoop_iff (rel : String) : ∀ (ps : List String),
    matchLoop rel ps = true ↔
      ∃ p ∈ ps,
        (HasSuffix p "*" = true ∧ TrimSuffix p "*" ≠ "" ∧
            HasPrefix rel (TrimSuffix p "*") = true) ∨
          (HasSuffix p "*" = false ∧ HasPrefix rel p = true) := by
  intro ps
  induction ps with
  | nil => simp [matchLoop]
  | cons p rest ih =>
    rw [matchLoop]
    by_cases hs : HasSuffix p "*" = true
    · rw [if_pos hs]
      by_cases hb : TrimSuffix p "*" ≠ "" ∧ HasPrefix rel (TrimSuffix p "*") = true
      · rw [if_pos hb]
        simp only [true_iff]
        exact ⟨p, List.mem_cons_self _ _, Or.inl ⟨hs, hb.1, hb.2⟩⟩
      · rw [if_neg hb, ih]
        constructor
        · rintro ⟨q, hq, h⟩
          exact ⟨q, List.mem_cons_of_mem _ hq, h⟩
        · rintro ⟨q, hq, h⟩
          rcases List.mem_cons.1 hq with rfl | hq
          · rcases h with ⟨_, h1, h2⟩ | ⟨h1, _⟩
            · exact absurd ⟨h1, h2⟩ hb
            · rw [hs] at h1; exact absurd h1 (by decide)
          · exact ⟨q, hq, h⟩
    · rw [if_neg hs]
      have hs' : HasSuffix p "*" = false := by simpa using hs
      by_cases hb : rel = p ∨ HasPrefix rel (p ++ "/") = true ∨ HasPrefix rel p = true
      · rw [if_pos hb]
        simp only [true_iff]
        exact ⟨p, List.mem_cons_self _ _, Or.inr ⟨hs', (plain_rule_iff rel p).1 hb⟩⟩
      · rw [if_neg hb, ih]
        constructor
        · rintro ⟨q, hq, h⟩
          exact ⟨q, List.mem_cons_of_mem _ hq, h⟩
        · rintro ⟨q, hq, h⟩
          rcases List.mem_cons.1 hq with rfl | hq
          · rcases h with ⟨h1, _, _⟩ | ⟨_, h2⟩
            · exact absurd h1 hs
            · exact absurd ((plain_rule_iff rel q).2 h2) hb
          · exact ⟨q, hq, h⟩

/-- The answer of `matchSkip` in terms of the normalised, lowercased candidate. -/
theorem matchSkip_iff (L : Lowering) (sep : Char) (rel : String) (ps : List String) :
    matchSkip L sep rel ps = true ↔
      normalizeRelForMatch sep rel ≠ "" ∧
        ∃ p ∈ ps,
          (HasSuffix p "*" = true ∧ TrimSuffix p "*" ≠ "" ∧
              HasPrefix (toLower L (normalizeRelForMatch sep rel)) (TrimSuffix p "*") = true) ∨
            (HasSuffix p "*" = false ∧
              HasPrefix (toLower L (normalizeRelForMatch sep rel)) p = true) := by
  unfold matchSkip
  by_cases h0 : ps.length = 0
  · have hnil : ps = [] := List.length_eq_zero.1 h0
    subst hnil
    simp
  · rw [if_neg h0]
    by_cases hn : normalizeRelForMatch sep rel = ""
    · rw [if_pos hn]
      simp [hn]
    · rw [if_neg hn, matchLoop_iff]
      exact ⟨fun h => ⟨hn, h⟩, fun h => h.2⟩

/-- On a candidate whose normalised form is ASCII, `matchSkip` gives the same answer for
every lowercasing: the one of the evaluations can stand for the one of the Go library. -/
theorem matchSkip_ascii (L : Lowering) (sep : Char) (rel : String) (ps : List String)
    (h : ∀ c ∈ (normalizeRelForMatch sep rel).data, c.toNat < 128) :
    matchSkip L sep rel ps = matchSkip sampleL sep rel ps := by
  unfold matchSkip
  rw [toLower_ascii L _ h, toLower_ascii sampleL _ h]

/-- Two candidates that differ only in letter case get the same answer from `matchSkip`,
for a separator that is an ASCII character and not a letter. -/
theorem matchSkip_case_insensitive (L : Lowering) (sep : Char) (hsep : isAsciiSymbol sep)
    (rel rel' : String) (h : toLower L rel = toLower L rel') (ps : List String) :
    matchSkip L sep rel ps = matchSkip L sep rel' ps := by
  have hl : toLower L (normalizeRelForMatch sep rel) = toLower L
      (normalizeRelForMatch sep rel') := by
    rw [← normalizeRelForMatch_toLower L sep hsep, ← normalizeRelForMatch_toLower L sep hsep, h]
  have he : normalizeRelForMatch sep rel = "" ↔ normalizeRelForMatch sep rel' = "" := by
    rw [← toLower_eq_word_iff L (normalizeRelForMatch sep rel) "" (by decide),
      ← toLower_eq_word_iff L (normalizeRelForMatch sep rel') "" (by decide), hl]
  unfold matchSkip
  by_cases h0 : ps.length = 0
  · rw [if_pos h0, if_pos h0]
  · rw [if_neg h0, if_neg h0]
    by_cases hn : normalizeRelForMatch sep rel = ""
    · rw [if_pos hn, if_pos (he.1 hn)]
    · rw [if_neg hn, if_neg (fun h2 => hn (he.2 h2)), hl]

/-- C17: with `L` the lowercasing of the Go library, for a rule `p` that does not end in
`*`, `matchSkip rel [p]` is true exactly when the normalised candidate is non-empty and its
lowercased form starts with `p` as a string (no separator boundary); when the path separator
is an ASCII character that is not a letter (both `/` and `\` qualify) the answer is the same
for two candidates with the same lowercase, that is, candidates that differ only in letter
case; and rule `data` matches both `Data/foo.p3d` and `data_extra/foo.p3d`. -/
theorem matchSkip_plain_rule (L : Lowering) (sep : Char) (p : String)
    (hstar : HasSuffix p "*" = false) :
    (∀ rel : String,
        matchSkip L sep rel [p] = true ↔
          normalizeRelForMatch sep rel ≠ "" ∧
            HasPrefix (toLower L (normalizeRelForMatch sep rel)) p = true) ∧
      (isAsciiSymbol sep → ∀ rel rel' : String, toLower L rel = toLower L rel' →
        matchSkip L sep rel [p] = matchSkip L sep rel' [p]) ∧
      matchSkip L '/' "Data/foo.p3d" ["data"] = true ∧
      matchSkip L '/' "data_extra/foo.p3d" ["data"] = true ∧
      matchSkip L '\\' "Data\\foo.p3d" ["data"] = true ∧
      matchSkip L '\\' "data_extra\\foo.p3d" ["data"] = true := by
  refine ⟨?_, ?_,
    (matchSkip_ascii L '/' "Data/foo.p3d" ["data"] (by decide)).trans (by decide),
    (matchSkip_ascii L '/' "data_extra/foo.p3d" ["data"] (by decide)).trans (by decide),
    (matchSkip_ascii L '\\' "Data\\foo.p3d" ["data"] (by decide)).trans (by decide),
    (matchSkip_ascii L '\\' "data_extra\\foo.p3d" ["data"] (by decide)).trans (by decide)⟩
  · intro rel
    rw [matchSkip_iff]
    constructor
    · rintro ⟨hn, q, hq, h⟩
      rcases List.mem_singleton.1 hq with rfl
      rcases h with ⟨h1, _, _⟩ | ⟨_, h2⟩
      · rw [hstar] at h1; exact absurd h1 (by decide)
      · exact ⟨hn, h2⟩
    · rintro ⟨hn, h⟩
      exact ⟨hn, p, List.mem_singleton.2 rfl, Or.inr ⟨hstar, h⟩⟩
  · intro hsep rel rel' h
    exact matchSkip_case_insensitive L sep hsep rel rel' h [p]

theorem matchSkip_plain_rule_witness :
    HasSuffix "data" "*" = false ∧
      (matchSkip sampleL '/' "DATA_Extra/Foo.P3D" ["data"] = true ↔
        normalizeRelForMatch '/' "DATA_Extra/Foo.P3D" ≠ "" ∧
          HasPrefix (toLower sampleL (normalizeRelForMatch '/' "DATA_Extra/Foo.P3D")) "data" =
              true) ∧
      matchSkip sampleL '/' "DATA_Extra/Foo.P3D" ["data"] = true ∧
      matchSkip sampleL '/' "DATA_Extra/Foo.P3D" ["data"] =
        matchSkip sampleL '/' "data_extra/foo.p3d" ["data"] ∧
      matchSkip sampleL '/' "ÉCOLE/x.p3d" ["école"] =
        matchSkip sampleL '/' "école/X.P3D" ["école"] ∧
      matchSkip sampleL '/' "ÉCOLE/x.p3d" ["école"] = true ∧
      matchSkip sampleL '/' "\u212AIT/x" ["kit"] = true :=
  ⟨by decide,
    (matchSkip_plain_rule sampleL '/' "data" (by decide)).1 "DATA_Extra/Foo.P3D",
    by decide,
    (matchSkip_plain_rule sampleL '/' "data" (by decide)).2.1 (by decide)
      "DATA_Extra/Foo.P3D" "data_extra/foo.p3d" (by decide),
    (matchSkip_plain_rule sampleL '/' "école" (by decide)).2.1 (by decide)
      "ÉCOLE/x.p3d" "école/X.P3D" (by decide),
    by decide, by decide⟩

/-- C18, as stated, fails, whatever the lowercasing `L` is: the plain rule `data` matches
the candidate `data_extra/foo.p3d`, whose normalised lowercased form neither equals the rule
nor starts with the rule followed by `/`. -/
theorem plain_rule_matches_non_descendant :
    HasSuffix "data" "*" = false ∧
      "data_extra/foo.p3d" ≠ "data" ∧
      HasPrefix "data_extra/foo.p3d" ("data" ++ "/") = false ∧
      normalizeRelForMatch '/' "data_extra/foo.p3d" = "data_extra/foo.p3d" ∧
      ∀ L : Lowering,
        matchSkip L '/' "data_extra/foo.p3d" ["data"] = true ∧
          toLower L (normalizeRelForMatch '/' "data_extra/foo.p3d") = "data_extra/foo.p3d" := by
  refine ⟨by decide, by decide, by decide, by decide, fun L => ?_⟩
  exact ⟨(matchSkip_ascii L '/' "data_extra/foo.p3d" ["data"] (by decide)).trans (by decide),
    (toLower_ascii L _ (by decide)).trans (by decide)⟩

/-- C18 (amended): with `L` the lowercasing of the Go library, `matchSkip` is true exactly when the normalised candidate is
non-empty and some rule accepts its lowercased form, where a rule
ending in `*` accepts when the rule stripped of its `*` is non-empty and is a string prefix
of the candidate, and a rule not ending in `*` accepts when the rule itself is a string
prefix of the candidate; equality and descent (`rule/...`) are accepted as special cases of
the string prefix, and no separator boundary is required. -/
theorem matchSkip_rule_forms (L : Lowering) (sep : Char) (rel : String) (ps : List String) :
    (matchSkip L sep rel ps = true ↔
        normalizeRelForMatch sep rel ≠ "" ∧
          ∃ p ∈ ps,
            (HasSuffix p "*" = true ∧ TrimSuffix p "*" ≠ "" ∧
                HasPrefix (toLower L (normalizeRelForMatch sep rel)) (TrimSuffix p "*") = true) ∨
              (HasSuffix p "*" = false ∧
                HasPrefix (toLower L (normalizeRelForMatch sep rel)) p = true)) ∧
      (∀ p ∈ ps, HasSuffix p "*" = false → normalizeRelForMatch sep rel ≠ "" →
        (toLower L (normalizeRelForMatch sep rel) = p ∨
            HasPrefix (toLower L (normalizeRelForMatch sep rel)) (p ++ "/") = true) →
          matchSkip L sep rel ps = true) := by
  refine ⟨matchSkip_iff L sep rel ps, ?_⟩
  intro p hp hstar hn h
  rw [matchSkip_iff]
  exact ⟨hn, p, hp, Or.inr
      ⟨hstar, (plain_rule_iff _ p).1 (h.elim Or.inl (fun h2 => Or.inr (Or.inl h2)))⟩⟩

theorem matchSkip_rule_forms_witness :
    (matchSkip sampleL '/' "DZ/Structures/house.p3d" ["dz/str*", "data"] = true ↔
        normalizeRelForMatch '/' "DZ/Structures/house.p3d" ≠ "" ∧
          ∃ p ∈ ["dz/str*", "data"],
            (HasSuffix p "*" = true ∧ TrimSuffix p "*" ≠ "" ∧
                HasPrefix (toLower sampleL (normalizeRelForMatch '/' "DZ/Structures/house.p3d"))
                  (TrimSuffix p "*") = true) ∨
              (HasSuffix p "*" = false ∧
                HasPrefix (toLower sampleL (normalizeRelForMatch '/' "DZ/Structures/house.p3d")) p
                  = true)) ∧
      matchSkip sampleL '/' "DZ/Structures/house.p3d" ["dz/str*", "data"] = true ∧
      matchSkip sampleL '/' "Data/sub/x.p3d" ["dz/str*", "data"] = true ∧
      matchSkip sampleL '/' "dz/plants/tree.p3d" ["dz/str*", "data"] = false ∧
      matchSkip sampleL '/' "data/x.p3d" ["*", "data"] = true ∧
      matchSkip sampleL '/' "dz/x.p3d" ["*"] = false :=
  ⟨(matchSkip_rule_forms sampleL '/' "DZ/Structures/house.p3d" ["dz/str*", "data"]).1,
    by decide,
    (matchSkip_rule_forms sampleL '/' "Data/sub/x.p3d" ["dz/str*", "data"]).2 "data" (by decide)
      (by decide) (by decide) (Or.inr (by decide)),
    by decide, by decide, by decide⟩

/-! ## Colours: the palette pick -/

/-- The index computed by `outlineForKey`, the truncated remainder shifted when negative,
is the non-negative remainder modulo 6. -/
theorem tmod_six_shift (h : Int) :
    (if Int.tmod h 6 < 0 then Int.tmod h 6 + 6 else Int.tmod h 6) = h % 6 := by
  rcases h with n | n
  · have h1 : Int.tmod (Int.ofNat n) 6 = ((n % 6 : Nat) : Int) := rfl
    rw [h1]
    have h2 : (Int.ofNat n) % 6 = ((n % 6 : Nat) : Int) := rfl
    rw [h2, if_neg (by omega)]
  · have h1 : Int.tmod (Int.negSucc n) 6 = -(((n + 1) % 6 : Nat) : Int) := rfl
    rw [h1]
    have h3 : Int.negSucc n = -((n : Int) + 1) := by
      rw [Int.negSucc_eq]
    rw [h3]
    split <;> omega

/-- C22: `outlineForKey` is a deterministic pick from the six-entry palette: for a
non-empty key the index `hashP3D key mod 6` (non-negative remainder) lies in `0..5`, also
for a negative hash, and the result is the palette entry at that index, so the slice access
does not fail; for the empty key the result is -1; `outlineForKey "a"` is -12829636, which
is `0xFF3C3C3C` as an unsigned 32-bit value; the key `abcd` has a negative hash and gets
entry 4. -/
theorem outlineForKey_palette :
    outlinePalette.length = 6 ∧
    (∀ key : String, key ≠ "" →
      ∃ i : Nat, i < 6 ∧ (i : Int) = hashP3D key % 6 ∧
        ∃ color, outlinePalette[i]? = some color ∧ outlineForKey key = some color) ∧
    outlineForKey "" = some (-1) ∧
    outlineForKey "a" = some (-12829636) ∧
    uint32Of (-12829636) = 0xFF3C3C3C ∧
    hashP3D "abcd" < 0 ∧ outlineForKey "abcd" = outlinePalette[4]? := by
  refine ⟨rfl, ?_, by decide, by decide, by decide, by decide, by decide⟩
  intro key hkey
  have hlen : (outlinePalette.length : Int) = 6 := rfl
  have hidx := tmod_six_shift (hashP3D key)
  have h0 : 0 ≤ hashP3D key % 6 := Int.emod_nonneg _ (by decide)
  have h6 : hashP3D key % 6 < 6 := Int.emod_lt_of_pos _ (by decide)
  refine ⟨(hashP3D key % 6).toNat, by omega, by omega, ?_⟩
  have hlt : (hashP3D key % 6).toNat < outlinePalette.length := by
    have : outlinePalette.length = 6 := rfl
    omega
  refine ⟨outlinePalette[(hashP3D key % 6).toNat], List.getElem?_eq_getElem hlt, ?_⟩
  unfold outlineForKey
  rw [if_neg hkey]
  simp only [hlen, hidx, h0, if_true]
  exact List.getElem?_eq_getElem hlt

theorem outlineForKey_palette_witness :
    "abcd" ≠ "" ∧
      ∃ i : Nat, i < 6 ∧ (i : Int) = hashP3D "abcd" % 6 ∧
        ∃ color, outlinePalette[i]? = some color ∧ outlineForKey "abcd" = some color :=
  ⟨by decide, outlineForKey_palette.2.1 "abcd" (by decide)⟩

/-! ## Number formatting: `i32toa` writes the decimal representation -/

theorem digitChar_facts (k : Nat) (hk : k < 10) :
    (Nat.digitChar k).toNat = 48 + k ∧ (Nat.digitChar k).isDigit = true ∧
      Nat.digitChar k ≠ '-' ∧ (0 < k → Nat.digitChar k ≠ '0') := by
  interval_cases k <;> decide

theorem toDigitsCore_append (fuel : Nat) : ∀ (n : Nat) (ds : List Char), n < fuel →
    Nat.toDigitsCore 10 fuel n ds = Nat.toDigitsCore 10 fuel n [] ++ ds := by
  induction fuel with
  | zero => intro n ds hn; omega
  | succ fuel ih =>
    intro n ds hn
    by_cases h0 : n / 10 = 0
    · simp [Nat.toDigitsCore, h0]
    · have hdiv : n / 10 < fuel := by omega
      simp only [Nat.toDigitsCore, h0, if_false]
      rw [ih (n / 10) (Nat.digitChar (n % 10) :: ds) hdiv,
        ih (n / 10) [Nat.digitChar (n % 10)] hdiv]
      simp

/-- One step of the digit production of `Nat.repr`: the last digit is `n % 10`, and the
digits before it are those of `n / 10` when that is not 0. -/
theorem toDigitsCore_step (fuel n : Nat) (hn : n < fuel + 1) :
    Nat.toDigitsCore 10 (fuel + 1) n [] =
      if n / 10 = 0 then [Nat.digitChar (n % 10)]
      else Nat.toDigitsCore 10 fuel (n / 10) [] ++ [Nat.digitChar (n % 10)] := by
  by_cases h0 : n / 10 = 0
  · simp [Nat.toDigitsCore, h0]
  · have hdiv : n / 10 < fuel := by omega
    simp only [Nat.toDigitsCore, h0, if_false]
    exact toDigitsCore_append fuel (n / 10) _ hdiv

/-- The digits of a positive number: not empty, decimal digits only, no leading zero, at
most `k + 1` of them below `10 ^ (k + 1)`, and they read back as the number. -/
theorem toDigitsCore_canonical (fuel : Nat) : ∀ (n : Nat), n < fuel → 0 < n →
    Nat.toDigitsCore 10 fuel n [] ≠ [] ∧
      (∀ c ∈ Nat.toDigitsCore 10 fuel n [], c.isDigit = true) ∧
      (∃ c rest, Nat.toDigitsCore 10 fuel n [] = c :: rest ∧ c.isDigit = true ∧ c ≠ '0') ∧
      (∀ k, n < 10 ^ (k + 1) → (Nat.toDigitsCore 10 fuel n []).length ≤ k + 1) ∧
      (Nat.toDigitsCore 10 fuel n []).foldl (fun v c => v * 10 + (c.toNat - 48)) 0 = n := by
  induction fuel with
  | zero => intro n hn; omega
  | succ fuel ih =>
    intro n hn hpos
    have hmod : n % 10 < 10 := Nat.mod_lt _ (by decide)
    obtain ⟨hnat, hdig, hminus, hzero⟩ := digitChar_facts (n % 10) hmod
    rw [toDigitsCore_step fuel n hn]
    by_cases h0 : n / 10 = 0
    · have hlt : n < 10 := by omega
      have hm : n % 10 = n := Nat.mod_eq_of_lt hlt
      simp only [h0, if_true]
      refine ⟨by simp, ?_, ⟨_, [], rfl, hdig, hzero (by omega)⟩, ?_, ?_⟩
      · intro c hc
        rw [List.mem_singleton.1 hc]
        exact hdig
      · intro k _
        simp
      · simp only [List.foldl_cons, List.foldl_nil, hnat]
        omega
    · have hdiv : n / 10 < fuel := by omega
      obtain ⟨_, hall, ⟨c, rest, hcr, hcd, hc0⟩, hlen, hval⟩ := ih (n / 10) hdiv (by omega)
      simp only [h0, if_false]
      refine ⟨by simp, ?_, ⟨c, rest ++ [Nat.digitChar (n % 10)], by rw [hcr]; rfl, hcd, hc0⟩,
        ?_, ?_⟩
      · intro c' hc'
        rcases List.mem_append.1 hc' with h | h
        · exact hall c' h
        · rw [List.mem_singleton.1 h]
          exact hdig
      · intro k hk
        rw [List.length_append, List.length_singleton]
        cases k with
        | zero => omega
        | succ k =>
          have : n / 10 < 10 ^ (k + 1) := by
            rw [Nat.div_lt_iff_lt_mul (by decide)]
            rw [pow_succ] at hk
            exact hk
          have := hlen k this
          omega
      · rw [List.foldl_append, hval]
        simp only [List.foldl_cons, List.foldl_nil, hnat]
        omega

theorem i32toaLoop_zero (i : Nat) (buf : List Nat) : i32toaLoop i 0 buf = some (i, buf) := by
  cases i <;> simp [i32toaLoop]

theorem drop_set_self : ∀ (buf : List Nat) (i b : Nat), i < buf.length →
    (buf.set i b).drop i = b :: buf.drop (i + 1)
  | [], i, b, h => by simp at h
  | x :: buf, 0, b, _ => by simp
  | x :: buf, i + 1, b, h => by
    simp only [List.set_cons_succ, List.drop_succ_cons]
    exact drop_set_self buf i b (by simpa using h)

/-- The digit loop of `i32toa` on a positive `n`, started at an index `i` that leaves room
for the digits: it returns, the index has moved down by the number of digits, and the
buffer holds the digits of `Nat.repr` from that index on, in front of what was there. -/
theorem i32toaLoop_spec (fuel : Nat) : ∀ (n i : Nat) (buf : List Nat), n < fuel → 0 < n →
    i ≤ buf.length → (Nat.toDigitsCore 10 fuel n []).length ≤ i →
    ∃ buf', i32toaLoop i n buf =
        some (i - (Nat.toDigitsCore 10 fuel n []).length, buf') ∧
      buf'.length = buf.length ∧
      buf'.drop (i - (Nat.toDigitsCore 10 fuel n []).length) =
        (Nat.toDigitsCore 10 fuel n []).map Char.toNat ++ buf.drop i := by
  induction fuel with
  | zero => intro n i buf hn; omega
  | succ fuel ih =>
    intro n i buf hn hpos hi hlen
    have hmod : n % 10 < 10 := Nat.mod_lt _ (by decide)
    have hnat := (digitChar_facts (n % 10) hmod).1
    have hbyte : (48 + n % 10) % 4294967296 % 256 = (Nat.digitChar (n % 10)).toNat := by
      rw [hnat]
      omega
    rw [toDigitsCore_step fuel n hn] at hlen ⊢
    by_cases h0 : n / 10 = 0
    · simp only [h0, if_true, List.length_singleton] at hlen ⊢
      obtain ⟨j, rfl⟩ : ∃ j, i = j + 1 := ⟨i - 1, by omega⟩
      refine ⟨buf.set j (Nat.digitChar (n % 10)).toNat, ?_, by simp, ?_⟩
      · rw [i32toaLoop, if_neg (by omega), h0, i32toaLoop_zero, hbyte]
        rfl
      · simp only [Nat.add_sub_cancel, List.map_cons, List.map_nil, List.singleton_append]
        exact drop_set_self buf j _ (by omega)
    · simp only [h0, if_false, List.length_append, List.length_singleton] at hlen ⊢
      obtain ⟨j, rfl⟩ : ∃ j, i = j + 1 := ⟨i - 1, by omega⟩
      have hdiv : n / 10 < fuel := by omega
      obtain ⟨buf', hrun, hlen', hdrop⟩ := ih (n / 10) j
        (buf.set j (Nat.digitChar (n % 10)).toNat) hdiv (by omega) (by simp; omega) (by omega)
      refine ⟨buf', ?_, by simpa using hlen', ?_⟩
      · rw [i32toaLoop, if_neg (by omega), hbyte, hrun]
        congr 2
        omega
      · have hidx : j + 1 - ((Nat.toDigitsCore 10 fuel (n / 10) []).length + 1) =
            j - (Nat.toDigitsCore 10 fuel (n / 10) []).length := by omega
        rw [hidx, hdrop, drop_set_self buf j _ (by omega)]
        simp

/-- The run of `i32toa` on the magnitude `u` of a non-zero `int32` value: the loop over the
11-byte buffer returns at an index of at least 1, with the digits of `Nat.repr u` from that
index to the end of the buffer. -/
theorem i32toaLoop_buffer (u : Nat) (hpos : 0 < u) (hu : u ≤ 2147483648) :
    ∃ j buf', i32toaLoop 11 u (List.replicate 11 0) = some (j + 1, buf') ∧
      j + 1 < 12 ∧ buf'.length = 11 ∧
      buf'.drop (j + 1) = (Nat.toDigits 10 u).map Char.toNat := by
  obtain ⟨_, _, _, hlen, _⟩ := toDigitsCore_canonical (u + 1) u (by omega) hpos
  have hl : (Nat.toDigitsCore 10 (u + 1) u []).length ≤ 10 :=
    hlen 9 (lt_of_le_of_lt hu (by decide))
  obtain ⟨buf', hrun, hlen', hdrop⟩ :=
    i32toaLoop_spec (u + 1) u 11 (List.replicate 11 0) (by omega) hpos (by simp) (by omega)
  refine ⟨10 - (Nat.toDigitsCore 10 (u + 1) u []).length, buf', ?_, by omega, ?_, ?_⟩
  · rw [hrun]
    congr 2
    omega
  · simpa using hlen'
  · have hidx : 10 - (Nat.toDigitsCore 10 (u + 1) u []).length + 1 =
        11 - (Nat.toDigitsCore 10 (u + 1) u []).length := by omega
    rw [hidx, hdrop]
    have : List.drop 11 (List.replicate 11 0) = ([] : List Nat) := by decide
    rw [this, List.append_nil]
    rfl

theorem map_ofNat_toNat (cs : List Char) : (cs.map Char.toNat).map Char.ofNat = cs := by
  induction cs with
  | nil => rfl
  | cons c cs ih => simp only [List.map_cons, Char.ofNat_toNat, ih]

theorem parseDigits_toDigits (n : Nat) (hpos : 0 < n) :
    parseDigits (Nat.toDigits 10 n) = some n := by
  obtain ⟨hne, hall, _, _, hval⟩ := toDigitsCore_canonical (n + 1) n (by omega) hpos
  have hall' : (Nat.toDigits 10 n).all Char.isDigit = true := List.all_eq_true.2 hall
  unfold parseDigits
  rw [if_pos ⟨hne, hall'⟩]
  exact congrArg some hval

theorem parseDecimal_digits (cs : List Char) (h : ∀ rest, cs ≠ '-' :: rest) :
    parseDecimal (String.mk cs) = (parseDigits cs).map fun n => (n : Int) := by
  unfold parseDecimal
  split
  · next rest heq => exact absurd heq (h rest)
  · rfl

/-- The run of `i32toa` on a positive value. -/
theorem i32toa_pos (n : Nat) (hpos : 0 < n) (hn : n ≤ 2147483647) :
    i32toa (n : Int) = some (String.mk (Nat.toDigits 10 n)) := by
  obtain ⟨j, buf', hrun, _, _, hdrop⟩ := i32toaLoop_buffer n hpos (by omega)
  have hx0 : ¬ ((n : Int) = 0) := by omega
  have hneg : decide ((n : Int) < 0) = false := decide_eq_false (by omega)
  have hu : uint32Of (n : Int) = n := by
    unfold uint32Of
    omega
  unfold i32toa
  rw [if_neg hx0]
  simp only [hneg, Bool.false_eq_true, if_false, hu, hrun, hdrop, map_ofNat_toNat]

/-- The run of `i32toa` on a negative value `-(m + 1)`. -/
theorem i32toa_neg (m : Nat) (hm : m ≤ 2147483647) :
    i32toa (Int.negSucc m) = some (String.mk ('-' :: Nat.toDigits 10 (m + 1))) := by
  obtain ⟨j, buf', hrun, hj, hlen, hdrop⟩ := i32toaLoop_buffer (m + 1) (by omega) (by omega)
  have hx : Int.negSucc m = -((m : Int) + 1) := by rw [Int.negSucc_eq]
  have hx0 : ¬ (Int.negSucc m = 0) := by omega
  have hneg : decide (Int.negSucc m < 0) = true := decide_eq_true (by omega)
  have hu : (uint32Of (-Int.negSucc m - 1) + 1) % 4294967296 = m + 1 := by
    unfold uint32Of
    omega
  unfold i32toa
  rw [if_neg hx0]
  simp only [hneg, if_true, hu, hrun]
  rw [drop_set_self buf' j 45 (by omega), hdrop]
  simp only [List.map_cons, map_ofNat_toNat]

/-- C21: for every `int32` value `x`, 0 and the minimum -2147483648 included, `i32toa x`
returns (no store goes below index 0 of the 11-byte buffer) and its result is the canonical
decimal representation of `x`: a `-` exactly when `x` is negative, followed by a non-empty
list of decimal digits that starts with `0` only for `x = 0` and reads as the magnitude of
`x`; it has at most 11 characters; and reading it as a decimal integer gives `x` back. -/
theorem i32toa_canonical (x : Int) (hlo : -2147483648 ≤ x) (hhi : x ≤ 2147483647) :
    i32toa x = some (Int.repr x) ∧
      (∃ digits : List Char,
        Int.repr x = String.mk ((if x < 0 then ['-'] else []) ++ digits) ∧
        digits ≠ [] ∧ (∀ c ∈ digits, c.isDigit = true) ∧
        (x ≠ 0 → ∃ c rest, digits = c :: rest ∧ c ≠ '0') ∧
        parseDigits digits = some x.natAbs) ∧
      (Int.repr x).length ≤ 11 ∧
      parseDecimal (Int.repr x) = some x := by
  rcases x with n | m
  · by_cases h0 : n = 0
    · subst h0
      refine ⟨by decide, ⟨['0'], by decide, by decide, by decide, ?_, by decide⟩, by decide,
        by decide⟩
      intro h
      exact absurd rfl h
    · have hpos : 0 < n := Nat.pos_of_ne_zero h0
      have hn : n ≤ 2147483647 := by
        have : ((n : Nat) : Int) ≤ 2147483647 := hhi
        omega
      obtain ⟨hne, hall, ⟨c, rest, hcr, hcd, hc0⟩, hlen, _⟩ :=
        toDigitsCore_canonical (n + 1) n (by omega) hpos
      have hrepr : Int.repr (Int.ofNat n) = String.mk (Nat.toDigits 10 n) := rfl
      have hnl : ¬ (Int.ofNat n < 0) := by
        have : (0 : Int) ≤ (n : Nat) := Int.ofNat_nonneg n
        exact not_lt.2 this
      rw [hrepr]
      refine ⟨i32toa_pos n hpos hn, ⟨Nat.toDigits 10 n, ?_, hne, hall, ?_, ?_⟩, ?_, ?_⟩
      · rw [if_neg hnl]
        rfl
      · intro _
        exact ⟨c, rest, hcr, hc0⟩
      · exact parseDigits_toDigits n hpos
      · have := hlen 9 (by omega)
        show (Nat.toDigits 10 n).length ≤ 11
        exact le_trans this (by decide)
      · rw [parseDecimal_digits, parseDigits_toDigits n hpos]
        · rfl
        · intro r hr
          have hh : Nat.toDigits 10 n = c :: rest := hcr
          rw [hh] at hr
          have : c = '-' := (List.cons.inj hr).1
          rw [this] at hcd
          exact absurd hcd (by decide)
  · have hm : m ≤ 2147483647 := by
      have : -2147483648 ≤ -((m : Int) + 1) := by
        rw [← Int.negSucc_eq]
        exact hlo
      omega
    obtain ⟨hne, hall, ⟨c, rest, hcr, hcd, hc0⟩, hlen, _⟩ :=
      toDigitsCore_canonical (m + 1 + 1) (m + 1) (by omega) (by omega)
    have hrepr : Int.repr (Int.negSucc m) = String.mk ('-' :: Nat.toDigits 10 (m + 1)) := rfl
    have hneg : Int.negSucc m < 0 := Int.negSucc_lt_zero m
    rw [hrepr]
    refine ⟨i32toa_neg m hm, ⟨Nat.toDigits 10 (m + 1), ?_, hne, hall, ?_, ?_⟩, ?_, ?_⟩
    · rw [if_pos hneg]
      rfl
    · intro _
      exact ⟨c, rest, hcr, hc0⟩
    · exact parseDigits_toDigits (m + 1) (by omega)
    · have := hlen 9 (by omega)
      show (Nat.toDigits 10 (m + 1)).length + 1 ≤ 11
      exact Nat.succ_le_succ this
    · show (parseDigits (Nat.toDigits 10 (m + 1))).map (fun n => -(n : Int)) = _
      rw [parseDigits_toDigits (m + 1) (by omega)]
      rfl

theorem i32toa_canonical_witness :
    i32toa (-2147483648) = some "-2147483648" ∧
      Int.repr (-2147483648) = "-2147483648" ∧
      parseDecimal (Int.repr (-2147483648)) = some (-2147483648) ∧
      i32toa 0 = some "0" ∧ i32toa 2147483647 = some "2147483647" ∧
      i32toa (-1) = some "-1" ∧ i32toa 123456 = some "123456" :=
  ⟨(i32toa_canonical (-2147483648) (by decide) (by decide)).1,
    by decide,
    (i32toa_canonical (-2147483648) (by decide) (by decide)).2.2.2,
    (i32toa_canonical 0 (by decide) (by decide)).1,
    (i32toa_canonical 2147483647 (by decide) (by decide)).1,
    (i32toa_canonical (-1) (by decide) (by decide)).1,
    (i32toa_canonical 123456 (by decide) (by decide)).1⟩

/-! ## Skip rules: descent -/

theorem splitOn_noSlash_cons : ∀ (w ys : List Char), (∀ x ∈ w, x ≠ '/') →
    (w ++ '/' :: ys).splitOn '/' = w :: ys.splitOn '/' := by
  intro w ys hw
  simp only [List.splitOn]
  induction w with
  | nil => simp [List.splitOnP_cons]
  | cons x w ih =>
    have hx : x ≠ '/' := hw x (List.mem_cons_self _ _)
    rw [List.cons_append, List.splitOnP_cons, ih (fun y hy => hw y (List.mem_cons_of_mem _ hy))]
    simp [hx]

theorem splitOn_noSlash : ∀ (w : List Char), (∀ x ∈ w, x ≠ '/') → w.splitOn '/' = [w] := by
  intro w hw
  simp only [List.splitOn]
  induction w with
  | nil => simp
  | cons x w ih =>
    have hx : x ≠ '/' := hw x (List.mem_cons_self _ _)
    rw [List.splitOnP_cons, ih (fun y hy => hw y (List.mem_cons_of_mem _ hy))]
    simp [hx]

/-- The elements of a path and of the same path followed by characters `w` that are not
slashes, a slash and a further path: the last element gets `w` appended. -/
theorem splitOn_decomp (xs : List Char) :
    ∃ es e, xs.splitOn '/' = es ++ [e] ∧
      ∀ w ys : List Char, (∀ x ∈ w, x ≠ '/') →
        (xs ++ w ++ '/' :: ys).splitOn '/' = es ++ (e ++ w) :: ys.splitOn '/' := by
  induction xs with
  | nil =>
    refine ⟨[], [], by simp [List.splitOn], ?_⟩
    intro w ys hw
    simpa using splitOn_noSlash_cons w ys hw
  | cons x xs ih =>
    obtain ⟨es, e, h1, h2⟩ := ih
    simp only [List.splitOn] at h1 h2 ⊢
    by_cases hx : x = '/'
    · refine ⟨[] :: es, e, ?_, ?_⟩
      · rw [List.splitOnP_cons, h1]
        simp [hx]
      · intro w ys hw
        rw [List.cons_append, List.cons_append, List.splitOnP_cons, h2 w ys hw]
        simp [hx]
    · cases es with
      | nil =>
        refine ⟨[], x :: e, ?_, ?_⟩
        · rw [List.splitOnP_cons, h1]
          simp [hx]
        · intro w ys hw
          rw [List.cons_append, List.cons_append, List.splitOnP_cons, h2 w ys hw]
          simp [hx]
      | cons e0 es =>
        refine ⟨(x :: e0) :: es, e, ?_, ?_⟩
        · rw [List.splitOnP_cons, h1]
          simp [hx]
        · intro w ys hw
          rw [List.cons_append, List.cons_append, List.splitOnP_cons, h2 w ys hw]
          simp [hx]

theorem intercalate_cons_cons (x y : List Char) (zs : List (List Char)) :
    ['/'].intercalate (x :: y :: zs) = x ++ '/' :: ['/'].intercalate (y :: zs) := by
  simp [List.intercalate, List.intersperse_cons₂]

/-- Joining with slashes: a list of elements ending in `e` gives a string prefix of the
list with `e` extended by `w` and followed by more elements. -/
theorem intercalate_prefix (e w : List Char) (ys : List (List Char)) :
    ∀ xs : List (List Char),
      ['/'].intercalate (xs ++ [e]) <+: ['/'].intercalate (xs ++ (e ++ w) :: ys) := by
  intro xs
  induction xs with
  | nil =>
    cases ys with
    | nil => simp [List.intercalate]
    | cons y ys =>
      rw [List.nil_append, List.nil_append, intercalate_cons_cons]
      simp [List.intercalate]
  | cons x xs ih =>
    cases xs with
    | nil =>
      rw [List.cons_append, List.cons_append, List.nil_append, List.nil_append,
        intercalate_cons_cons, intercalate_cons_cons]
      rw [List.nil_append, List.nil_append] at ih
      exact (List.prefix_append_right_inj x).2 ((List.prefix_cons_inj '/').2 ih)
    | cons x2 xs =>
      rw [List.cons_append, List.cons_append, List.cons_append, List.cons_append,
        intercalate_cons_cons, intercalate_cons_cons]
      rw [List.cons_append, List.cons_append] at ih
      exact (List.prefix_append_right_inj x).2 ((List.prefix_cons_inj '/').2 ih)

/-- Joining with slashes: a non-empty stack gives a string prefix of every stack that has
it as its bottom part. -/
theorem intercalate_bottom (T U : List (List Char)) (hT : T ≠ []) :
    ['/'].intercalate T.reverse <+: ['/'].intercalate (U ++ T).reverse := by
  cases T with
  | nil => exact absurd rfl hT
  | cons e S =>
    rw [List.reverse_append, List.reverse_cons]
    cases hU : U.reverse with
    | nil => simp
    | cons y ys =>
      have := intercalate_prefix e [] (y :: ys) S.reverse
      simpa [List.append_assoc] using this

/-- The three outcomes of one step of `path.Clean`: push the element, keep the stack, pop
the top. -/
theorem cleanElem_cases (rooted : Bool) (S : List (List Char)) (e : List Char) :
    cleanElem rooted S e = e :: S ∨ cleanElem rooted S e = S ∨
      ∃ top, S = top :: cleanElem rooted S e := by
  unfold cleanElem
  by_cases h1 : e = [] ∨ e = ['.']
  · rw [if_pos h1]
    exact Or.inr (Or.inl rfl)
  · rw [if_neg h1]
    by_cases h2 : e = ['.', '.']
    · rw [if_pos h2]
      cases S with
      | nil =>
        cases rooted
        · exact Or.inl (by rw [h2]; rfl)
        · exact Or.inr (Or.inl rfl)
      | cons top rest =>
        by_cases h3 : top = ['.', '.']
        · cases rooted
          · exact Or.inl (by simp [h3, h2])
          · exact Or.inr (Or.inl (by simp [h3]))
        · exact Or.inr (Or.inr ⟨top, by simp [h3]⟩)
    · rw [if_neg h2]
      exact Or.inl rfl

theorem cleanElem_proper (rooted : Bool) (S : List (List Char)) (e : List Char)
    (h0 : e ≠ []) (h1 : e ≠ ['.']) (h2 : e ≠ ['.', '.']) :
    cleanElem rooted S e = e :: S := by
  unfold cleanElem
  rw [if_neg (by simp [h0, h1]), if_neg h2]

theorem append_space_proper (e w : List Char) (hw : ∀ x ∈ w, isSpace x = true)
    (hne : w ≠ []) : e ++ w ≠ [] ∧ e ++ w ≠ ['.'] ∧ e ++ w ≠ ['.', '.'] := by
  obtain ⟨a, ha⟩ : ∃ a, (e ++ w).getLast? = some a ∧ isSpace a = true := by
    rw [List.getLast?_append_of_ne_nil _ hne]
    obtain ⟨a, ha⟩ : ∃ a, w.getLast? = some a := by
      cases h : w.getLast? with
      | none => exact absurd (List.getLast?_eq_none_iff.1 h) hne
      | some a => exact ⟨a, rfl⟩
    exact ⟨a, ha, hw a (List.mem_of_getLast?_eq_some ha)⟩
  refine ⟨?_, ?_, ?_⟩ <;> intro h <;> rw [h] at ha <;> obtain ⟨h1, h2⟩ := ha
  · simp at h1
  · have : a = '.' := by simpa using h1.symm
    rw [this] at h2
    exact absurd h2 (by decide)
  · have : a = '.' := by simpa using h1.symm
    rw [this] at h2
    exact absurd h2 (by decide)

/-- The stack of `path.Clean` after a path ending in the element `e`, against the stack
after the same path with white space `w` appended to `e`: joined with slashes, the first is
a string prefix of the second. -/
theorem cleanStack_space (r : Bool) (S : List (List Char)) (e w : List Char)
    (hw : ∀ x ∈ w, isSpace x = true) (hT : cleanElem r S e ≠ []) :
    cleanElem r S (e ++ w) ≠ [] ∧
      ['/'].intercalate (cleanElem r S e).reverse <+:
        ['/'].intercalate (cleanElem r S (e ++ w)).reverse := by
  by_cases hne : w = []
  · subst hne
    rw [List.append_nil]
    exact ⟨hT, List.prefix_refl _⟩
  · obtain ⟨p0, p1, p2⟩ := append_space_proper e w hw hne
    rw [cleanElem_proper r S (e ++ w) p0 p1 p2]
    refine ⟨by simp, ?_⟩
    rcases cleanElem_cases r S e with h | h | ⟨top, h⟩
    · rw [h]
      have := intercalate_prefix e w [] S.reverse
      simpa [List.append_assoc] using this
    · rw [h]
      rw [h] at hT
      exact intercalate_bottom S [e ++ w] hT
    · have hS : (e ++ w) :: S = [e ++ w, top] ++ cleanElem r S e := by
        nth_rewrite 1 [h]
        rfl
      rw [hS]
      exact intercalate_bottom _ _ hT

/-- The stack of `path.Clean` after a path `A`, against the stack after `A` followed by
white space `w`, a slash and an element `C` other than `..`: joined with slashes, the first
is a string prefix of the second. -/
theorem cleanStack_child (r : Bool) (S : List (List Char)) (e w C : List Char)
    (hw : ∀ x ∈ w, isSpace x = true) (hC2 : C ≠ ['.', '.']) :
    (cleanElem r S e ≠ [] → cleanElem r (cleanElem r S (e ++ w)) C ≠ []) ∧
      ['/'].intercalate (cleanElem r S e).reverse <+:
        ['/'].intercalate (cleanElem r (cleanElem r S (e ++ w)) C).reverse := by
  by_cases hT : cleanElem r S e = []
  · rw [hT]
    exact ⟨fun h => absurd rfl h, by simp [List.intercalate]⟩
  obtain ⟨hX, hpre⟩ := cleanStack_space r S e w hw hT
  by_cases hC : C = [] ∨ C = ['.']
  · have : cleanElem r (cleanElem r S (e ++ w)) C = cleanElem r S (e ++ w) := by
      unfold cleanElem
      rw [if_pos hC]
    rw [this]
    exact ⟨fun _ => hX, hpre⟩
  · rw [cleanElem_proper r _ C (fun h => hC (Or.inl h)) (fun h => hC (Or.inr h)) hC2]
    exact ⟨fun _ => by simp, hpre.trans (intercalate_bottom _ [C] hX)⟩

/-- Go `path.Clean` under descent: unless the cleaned path is `.`, it is a string prefix of
the cleaned form of the path followed by white space, a slash and an element without slash
other than `..`. -/
theorem Clean_child (A w C : List Char) (hA : A ≠ []) (hw : ∀ x ∈ w, isSpace x = true)
    (hC2 : C ≠ ['.', '.']) (hCs : ∀ x ∈ C, x ≠ '/')
    (hdot : Clean (String.mk A) ≠ ".") :
    (Clean (String.mk A)).data <+: (Clean (String.mk (A ++ w ++ '/' :: C))).data := by
  obtain ⟨es, e, hs1, hs2⟩ := splitOn_decomp A
  have hw' : ∀ x ∈ w, x ≠ '/' := by
    intro x hx h
    have := hw x hx
    rw [h] at this
    exact absurd this (by decide)
  have hsplit := hs2 w C hw'
  rw [splitOn_noSlash C hCs] at hsplit
  have hA' : A ++ w ++ '/' :: C ≠ [] := by
    cases A with
    | nil => exact absurd rfl hA
    | cons a A => simp
  have hhead : (A ++ w ++ '/' :: C).head? = A.head? := by
    cases A with
    | nil => exact absurd rfl hA
    | cons a A => rfl
  unfold Clean at hdot ⊢
  simp only [hA, hA', if_false, hhead, hs1, hsplit, List.foldl_append, List.foldl_cons,
    List.foldl_nil] at hdot ⊢
  obtain ⟨hne, hpre⟩ := cleanStack_child (decide (A.head? = some '/'))
    (es.foldl (cleanElem (decide (A.head? = some '/'))) []) e w C hw hC2
  by_cases hr : A.head? = some '/'
  · simp only [hr, decide_True, if_true] at hpre ⊢
    exact (List.prefix_cons_inj '/').2 hpre
  · simp only [hr, decide_False, Bool.false_eq_true, if_false] at hpre hne hdot ⊢
    by_cases hT : cleanElem false (es.foldl (cleanElem false) []) e = []
    · rw [if_pos hT] at hdot
      exact absurd rfl hdot
    · rw [if_neg hT, if_neg (hne hT)]
      exact hpre

/-- Go `strings.TrimSpace` under descent: of `rel/c`, for a `rel` that is not only white
space, the leading white space of `rel` and the trailing white space of `c` go; the
trailing white space `w` of `rel` is now inside the path. -/
theorem TrimSpace_child (rel c : String) (hrel : TrimSpace rel ≠ "") :
    ∃ w, (∀ x ∈ w, isSpace x = true) ∧
      (TrimSpace (rel ++ "/" ++ c)).data =
        (TrimSpace rel).data ++ w ++ '/' :: (TrimRightSpace c).data := by
  have hL : rel.data.dropWhile isSpace ≠ [] := by
    intro h
    apply hrel
    unfold TrimSpace
    rw [h]
    rfl
  refine ⟨((rel.data.dropWhile isSpace).reverse.takeWhile isSpace).reverse, ?_, ?_⟩
  · intro x hx
    exact (List.mem_takeWhile_imp (List.mem_reverse.1 hx))
  · have hsplit : rel.data.dropWhile isSpace =
        ((rel.data.dropWhile isSpace).reverse.dropWhile isSpace).reverse ++
          ((rel.data.dropWhile isSpace).reverse.takeWhile isSpace).reverse := by
      rw [← List.reverse_append, List.takeWhile_append_dropWhile, List.reverse_reverse]
    have hdata : (rel ++ "/" ++ c).data = rel.data ++ '/' :: c.data := by
      simp [String.data_append]
    have hdrop : (rel.data ++ '/' :: c.data).dropWhile isSpace =
        rel.data.dropWhile isSpace ++ '/' :: c.data := by
      rw [List.dropWhile_append]
      have : (rel.data.dropWhile isSpace).isEmpty = false := by
        cases h : rel.data.dropWhile isSpace with
        | nil => exact absurd h hL
        | cons _ _ => rfl
      rw [this]
      rfl
    have hrev : (rel.data.dropWhile isSpace ++ '/' :: c.data).reverse =
        c.data.reverse ++ '/' :: (rel.data.dropWhile isSpace).reverse := by
      simp
    have hslash : ('/' :: (rel.data.dropWhile isSpace).reverse).dropWhile isSpace =
        '/' :: (rel.data.dropWhile isSpace).reverse :=
      List.dropWhile_cons_of_neg (by decide)
    have htail : (c.data.reverse ++ '/' :: (rel.data.dropWhile isSpace).reverse).dropWhile
        isSpace = c.data.reverse.dropWhile isSpace ++
          '/' :: (rel.data.dropWhile isSpace).reverse := by
      rw [List.dropWhile_append, hslash]
      cases h : (c.data.reverse.dropWhile isSpace).isEmpty with
      | true =>
        rw [List.isEmpty_iff.1 h]
        rfl
      | false => rfl
    show ((((rel ++ "/" ++ c).data.dropWhile isSpace).reverse.dropWhile isSpace).reverse) = _
    rw [hdata, hdrop, hrev, htail, List.reverse_append, List.reverse_cons,
      List.reverse_reverse]
    show _ = ((rel.data.dropWhile isSpace).reverse.dropWhile isSpace).reverse ++ _ ++
      '/' :: (c.data.reverse.dropWhile isSpace).reverse
    rw [← hsplit]
    simp

theorem ToSlash_data (sep : Char) (s : String) :
    (ToSlash sep s).data = s.data.map fun c => if c = sep then '/' else c := by
  unfold ToSlash
  by_cases h : sep = '/'
  · rw [if_pos h, h]
    have : (fun c : Char => if c = '/' then '/' else c) = id := by
      funext c
      by_cases hc : c = '/'
      · simp [hc]
      · simp [hc]
    rw [this, List.map_id]
  · rw [if_neg h]

theorem map_slash_id (sep : Char) : ∀ (l : List Char), (∀ x ∈ l, x ≠ sep) →
    (l.map fun c => if c = sep then '/' else c) = l
  | [], _ => rfl
  | x :: l, h => by
    rw [List.map_cons, if_neg (h x (List.mem_cons_self _ _)),
      map_slash_id sep l (fun y hy => h y (List.mem_cons_of_mem _ hy))]

/-- Go `filepath.ToSlash` under descent, for a separator that is not white space and a
child segment without it. -/
theorem ToSlash_child (sep : Char) (hsep : isSpace sep = false) (t w C : List Char)
    (hw : ∀ x ∈ w, isSpace x = true) (hC : ∀ x ∈ C, x ≠ sep) :
    (ToSlash sep (String.mk (t ++ w ++ '/' :: C))).data =
      (ToSlash sep (String.mk t)).data ++ w ++ '/' :: C := by
  have hw' : ∀ x ∈ w, x ≠ sep := by
    intro x hx h
    have := hw x hx
    rw [h, hsep] at this
    exact absurd this (by decide)
  rw [ToSlash_data, ToSlash_data]
  simp only [List.map_append, List.map_cons, map_slash_id sep w hw', map_slash_id sep C hC]
  congr 2
  by_cases h : '/' = sep
  · rw [if_pos h]
  · rw [if_neg h]

theorem TrimPrefix_prefix (a b : List Char) (h : a <+: b) (h0 : a ≠ []) (h1 : a ≠ ['.']) :
    (TrimPrefix (String.mk a) "./").data <+: (TrimPrefix (String.mk b) "./").data := by
  obtain ⟨d, rfl⟩ := h
  unfold TrimPrefix
  have hp : ("./" : String).data = ['.', '/'] := rfl
  simp only [hp]
  rcases a with _ | ⟨x, _ | ⟨y, rest⟩⟩
  · exact absurd rfl h0
  · have hx : x ≠ '.' := fun hx => h1 (by rw [hx])
    have hx' : ('.' == x) = false := by simpa using fun h2 : '.' = x => hx h2.symm
    have e1 : List.isPrefixOf ['.', '/'] [x] = false := by simp [List.isPrefixOf, hx']
    have e2 : List.isPrefixOf ['.', '/'] ([x] ++ d) = false := by
      simp [List.isPrefixOf, hx']
    rw [e1, e2]
    exact List.prefix_append _ _
  · have e : List.isPrefixOf ['.', '/'] (x :: y :: rest ++ d) =
        List.isPrefixOf ['.', '/'] (x :: y :: rest) := by
      simp [List.isPrefixOf]
    rw [e]
    by_cases hc : List.isPrefixOf ['.', '/'] (x :: y :: rest) = true
    · simp only [hc, if_true]
      exact List.prefix_append _ _
    · simp only [hc]
      exact List.prefix_append _ _

theorem TrimLeft_prefix (a b : List Char) (h : a <+: b)
    (hne : (TrimLeft (String.mk a) "/").data ≠ []) :
    (TrimLeft (String.mk a) "/").data <+: (TrimLeft (String.mk b) "/").data := by
  obtain ⟨d, rfl⟩ := h
  unfold TrimLeft at hne ⊢
  simp only [List.dropWhile_append] at hne ⊢
  have : (List.dropWhile (fun c => decide (c ∈ ("/" : String).data)) a).isEmpty = false := by
    cases h : List.dropWhile (fun c => decide (c ∈ ("/" : String).data)) a with
    | nil => exact absurd h hne
    | cons _ _ => rfl
  rw [this]
  exact List.prefix_append _ _

/-- The rejected forms `.`, `..` and `../...` of `normalizeRelForMatch` are not reached by
extending an accepted, non-empty path. -/
theorem accepted_prefix (x y : List Char) (h : x <+: y) (h0 : x ≠ []) (h1 : x ≠ ['.'])
    (h2 : x ≠ ['.', '.']) (h3 : List.isPrefixOf ['.', '.', '/'] x = false) :
    y ≠ ['.'] ∧ y ≠ ['.', '.'] ∧ List.isPrefixOf ['.', '.', '/'] y = false := by
  obtain ⟨d, rfl⟩ := h
  rcases x with _ | ⟨a, _ | ⟨b, _ | ⟨c, rest⟩⟩⟩
  · exact absurd rfl h0
  · have ha : a ≠ '.' := fun h => h1 (by rw [h])
    have ha' : ('.' == a) = false := by simpa using fun h : '.' = a => ha h.symm
    refine ⟨?_, ?_, ?_⟩
    · intro h
      exact ha (List.cons.inj h).1
    · intro h
      exact ha (List.cons.inj h).1
    · simp [List.isPrefixOf, ha']
  · have hab : ¬ (a = '.' ∧ b = '.') := fun h => h2 (by rw [h.1, h.2])
    refine ⟨?_, ?_, ?_⟩
    · intro h
      simp at h
    · intro h
      simp at h
      exact hab ⟨h.1, h.2.1⟩
    · cases hp : List.isPrefixOf ['.', '.', '/'] ([a, b] ++ d) with
      | false => rfl
      | true =>
        simp [List.isPrefixOf] at hp
        exact absurd ⟨hp.1.symm, hp.2.1.symm⟩ hab
  · refine ⟨?_, ?_, ?_⟩
    · intro h
      simp at h
    · intro h
      simp at h
    · have e : List.isPrefixOf ['.', '.', '/'] (a :: b :: c :: rest ++ d) =
          List.isPrefixOf ['.', '.', '/'] (a :: b :: c :: rest) := by
        simp [List.isPrefixOf]
      rw [e]
      exact h3

/-- Go `normalizeRelForMatch` under descent: an accepted normalised path is a string prefix
of the normalised form of the path followed by a slash and a child segment, and that form
is accepted too.  The child segment has no slash and no separator, and is not `..` after
its trailing white space is removed. -/
theorem normalizeRelForMatch_child (sep : Char) (hsep : isSpace sep = false)
    (rel c : String) (hN : normalizeRelForMatch sep rel ≠ "")
    (hC : ∀ x ∈ c.data, x ≠ '/' ∧ x ≠ sep) (hC2 : TrimRightSpace c ≠ "..") :
    (normalizeRelForMatch sep rel).data <+: (normalizeRelForMatch sep (rel ++ "/" ++ c)).data ∧
      normalizeRelForMatch sep (rel ++ "/" ++ c) ≠ "" := by
  have hC2' : (TrimRightSpace c).data ≠ ['.', '.'] := fun h => hC2 (String.ext h)
  have hCt : ∀ x ∈ (TrimRightSpace c).data, x ≠ '/' ∧ x ≠ sep := by
    intro x hx
    have h1 : x ∈ c.data.reverse.dropWhile isSpace := List.mem_reverse.1 hx
    exact hC x (List.mem_reverse.1 ((List.dropWhile_sublist _).subset h1))
  have ht : TrimSpace rel ≠ "" := by
    intro h
    apply hN
    unfold normalizeRelForMatch
    rw [if_pos h]
  obtain ⟨w, hw, hts⟩ := TrimSpace_child rel c ht
  have ht' : TrimSpace (rel ++ "/" ++ c) ≠ "" := by
    intro h
    rw [h] at hts
    have := congrArg List.length hts
    simp at this
    omega
  have hA' : ToSlash sep (TrimSpace (rel ++ "/" ++ c)) =
      String.mk ((ToSlash sep (TrimSpace rel)).data ++ w ++ '/' :: (TrimRightSpace c).data) := by
    apply String.ext
    have h1 : TrimSpace (rel ++ "/" ++ c) =
        String.mk ((TrimSpace rel).data ++ w ++ '/' :: (TrimRightSpace c).data) :=
      String.ext hts
    rw [h1]
    exact ToSlash_child sep hsep (TrimSpace rel).data w (TrimRightSpace c).data hw
      (fun x hx => (hCt x hx).2)
  unfold normalizeRelForMatch at hN ⊢
  rw [if_neg ht] at hN
  rw [if_neg ht, if_neg ht', hA']
  simp only at hN ⊢
  generalize hAdef : ToSlash sep (TrimSpace rel) = A at hN ⊢
  generalize hCdef : (TrimRightSpace c).data = C at hC2' hCt ⊢
  by_cases hbad : TrimLeft (TrimPrefix (Clean A) "./") "/" = "." ∨
      TrimLeft (TrimPrefix (Clean A) "./") "/" = ".." ∨
      HasPrefix (TrimLeft (TrimPrefix (Clean A) "./") "/") "../" = true
  · rw [if_pos hbad] at hN
    exact absurd rfl hN
  rw [if_neg hbad] at hN ⊢
  have hdot : Clean A ≠ "." := by
    intro h
    apply hbad
    rw [h]
    exact Or.inl (by decide)
  have hA : A.data ≠ [] := by
    intro h
    apply hdot
    unfold Clean
    rw [if_pos h]
  have hclean := Clean_child A.data w C hA hw hC2' (fun x hx => (hCt x hx).1) hdot
  have h0 : (Clean A).data ≠ [] := by
    intro h
    apply hN
    have : Clean A = "" := String.ext h
    rw [this]
    decide
  have h1 : (Clean A).data ≠ ['.'] := fun h => hdot (String.ext h)
  have hp1 := TrimPrefix_prefix _ _ hclean h0 h1
  have hp2 := TrimLeft_prefix _ _ hp1 (fun h => hN (String.ext h))
  have hb1 : (TrimLeft (TrimPrefix (Clean A) "./") "/").data ≠ ['.'] :=
    fun h => hbad (Or.inl (String.ext h))
  have hb2 : (TrimLeft (TrimPrefix (Clean A) "./") "/").data ≠ ['.', '.'] :=
    fun h => hbad (Or.inr (Or.inl (String.ext h)))
  have hb3 : List.isPrefixOf ['.', '.', '/']
      (TrimLeft (TrimPrefix (Clean A) "./") "/").data = false := by
    cases h : List.isPrefixOf ['.', '.', '/']
        (TrimLeft (TrimPrefix (Clean A) "./") "/").data with
    | false => rfl
    | true => exact absurd (Or.inr (Or.inr h)) hbad
  obtain ⟨g1, g2, g3⟩ := accepted_prefix _ _ hp2 (fun h => hN (String.ext h)) hb1 hb2 hb3
  have hgood : ¬ (TrimLeft (TrimPrefix (Clean (String.mk (A.data ++ w ++ '/' :: C)))
        "./") "/" = "." ∨
      TrimLeft (TrimPrefix (Clean (String.mk (A.data ++ w ++ '/' :: C))) "./") "/"
        = ".." ∨
      HasPrefix (TrimLeft (TrimPrefix (Clean (String.mk (A.data ++ w ++ '/' :: C)))
        "./") "/") "../" = true) := by
    rintro (h | h | h)
    · exact g1 (congrArg String.data h)
    · exact g2 (congrArg String.data h)
    · unfold HasPrefix at h
      rw [show ("../" : String).data = ['.', '.', '/'] from rfl, g3] at h
      exact absurd h (by decide)
  rw [if_neg hgood]
  refine ⟨hp2, ?_⟩
  intro h
  rw [h] at hp2
  exact hN (String.ext (List.prefix_nil.1 hp2))

/-- C23, as stated, fails, whatever the lowercasing `L` is: the path `data` matches the
rule `data`, the child segment `.. ` (two dots and a space) is non-empty, has no separator
and is neither `.` nor `..`, and `data/.. ` does not match, because the trailing space is
trimmed before the path is cleaned. -/
theorem descent_fails_on_trailing_space :
    ".. " ≠ "" ∧ (∀ x ∈ (".. " : String).data, x ≠ '/') ∧ ".. " ≠ "." ∧ ".. " ≠ ".." ∧
      TrimRightSpace ".. " = ".." ∧
      normalizeRelForMatch '/' ("data" ++ "/" ++ ".. ") = "" ∧
      ∀ L : Lowering,
        matchSkip L '/' "data" ["data"] = true ∧
          matchSkip L '/' ("data" ++ "/" ++ ".. ") ["data"] = false := by
  refine ⟨by decide, by decide, by decide, by decide, by decide, by decide, fun L => ?_⟩
  exact ⟨(matchSkip_ascii L '/' "data" ["data"] (by decide)).trans (by decide),
    (matchSkip_ascii L '/' ("data" ++ "/" ++ ".. ") ["data"] (by decide)).trans (by decide)⟩

/-- C23 (amended): skip matching is closed under descent to every child segment except
those that read `..` once their trailing white space is removed: with `L` the lowercasing
of the Go library and a separator that is not white space, for every rule list `ps`, every
path `rel` with `matchSkip rel ps = true` and every child segment `c` that contains no
slash and no separator and for which `c` without its trailing white space is not `..`,
`matchSkip (rel + "/" + c) ps = true`.  The segment need not be non-empty nor differ from
`.`; segments such as `x `, `. ` and a single blank are covered. -/
theorem matchSkip_descent (L : Lowering) (sep : Char) (hsep : isSpace sep = false)
    (ps : List String) (rel c : String) (hm : matchSkip L sep rel ps = true)
    (hC : ∀ x ∈ c.data, x ≠ '/' ∧ x ≠ sep) (hC2 : TrimRightSpace c ≠ "..") :
    matchSkip L sep (rel ++ "/" ++ c) ps = true := by
  rw [matchSkip_iff] at hm ⊢
  obtain ⟨hn, p, hp, h⟩ := hm
  obtain ⟨hpre, hn'⟩ := normalizeRelForMatch_child sep hsep rel c hn hC hC2
  have hlow : (toLower L (normalizeRelForMatch sep rel)).data <+:
      (toLower L (normalizeRelForMatch sep (rel ++ "/" ++ c))).data := by
    obtain ⟨d, hd⟩ := hpre
    refine ⟨d.map L.lower, ?_⟩
    show List.map L.lower _ ++ _ = List.map L.lower _
    rw [← hd, List.map_append]
  have htrans : ∀ q : String,
      HasPrefix (toLower L (normalizeRelForMatch sep rel)) q = true →
        HasPrefix (toLower L (normalizeRelForMatch sep (rel ++ "/" ++ c))) q = true := by
    intro q hq
    unfold HasPrefix at hq ⊢
    rw [List.isPrefixOf_iff_prefix] at hq ⊢
    exact hq.trans hlow
  refine ⟨hn', p, hp, ?_⟩
  rcases h with ⟨h1, h2, h3⟩ | ⟨h1, h2⟩
  · exact Or.inl ⟨h1, h2, htrans _ h3⟩
  · exact Or.inr ⟨h1, htrans _ h2⟩

theorem matchSkip_descent_witness :
    matchSkip sampleL '/' " Data " ["data"] = true ∧
      matchSkip sampleL '/' (" Data " ++ "/" ++ "sub dir") ["data"] = true ∧
      matchSkip sampleL '/' (" Data " ++ "/" ++ "x ") ["data"] = true ∧
      matchSkip sampleL '/' (" Data " ++ "/" ++ ". ") ["data"] = true ∧
      matchSkip sampleL '/' (" Data " ++ "/" ++ " ") ["data"] = true ∧
      matchSkip sampleL '/' ("ÉCOLE" ++ "/" ++ " ..") ["école"] = true ∧
      matchSkip sampleL '\\' ("DZ\\Structures" ++ "/" ++ "house.p3d") ["dz/str*"] = true :=
  ⟨by decide,
    matchSkip_descent sampleL '/' (by decide) ["data"] " Data " "sub dir" (by decide)
      (by decide) (by decide),
    matchSkip_descent sampleL '/' (by decide) ["data"] " Data " "x " (by decide)
      (by decide) (by decide),
    matchSkip_descent sampleL '/' (by decide) ["data"] " Data " ". " (by decide)
      (by decide) (by decide),
    matchSkip_descent sampleL '/' (by decide) ["data"] " Data " " " (by decide)
      (by decide) (by decide),
    matchSkip_descent sampleL '/' (by decide) ["école"] "ÉCOLE" " .." (by decide)
      (by decide) (by decide),
    matchSkip_descent sampleL '\\' (by decide) ["dz/str*"] "DZ\\Structures" "house.p3d"
      (by decide) (by decide) (by decide)⟩

end TmlGen
